import Mathlib

/-!
# ezview: the PPM (P3 / P6) loader of `src/main.c`

A shallow embedding of `skip_comments`, `skip_whitespace`, `read_to_whitespace`,
`image_load_p3`, `image_load_p6` and `load_image`, followed by the properties proved
about them.

Modelling conventions
* A `FILE*` opened for reading is the list of its unread bytes (each byte a natural
  number below 256).  `getc` removes the head of the list and returns `EOF` on the empty
  list.  Every `fseek(fp, -1, SEEK_CUR)` of the source directly follows the `getc` that
  returned the byte `c`, so it is modelled by putting `c` back in front of the list.
* `int` values are mathematical integers.  Where the C code would leave the range of
  `int` (`atoi` on an unrepresentable value, the index `i*width + j`) or write outside
  the allocated pixel buffer, the behaviour of the C program is undefined and the model
  says so explicitly (`none` / `Step.undef`) instead of inventing a value.
* `float` samples are exact: a finite sample is a rational number, and a division by
  the zero maxval produces the IEEE special values (`0/0 = NaN`, `x/0 = +inf`).
  Rounding is not modelled.
* `malloc` is assumed to succeed; fresh memory holds indeterminate values, modelled as
  channels that are `none` until they are assigned.
-/

namespace Ezview

/-! ## Data model -/

/-- The unread bytes of an open `FILE*`. -/
abbrev FILE := List Nat

/-- A `float` value: finite (exact rational), an infinity, or NaN. -/
inductive FloatVal where
  | fin (q : ℚ)
  | pinf
  | ninf
  | nan
  deriving DecidableEq

/-- Struct `RGBpixel`; a channel is `none` while its memory is still uninitialised. -/
structure RGBpixel where
  r : Option FloatVal
  g : Option FloatVal
  b : Option FloatVal
  deriving DecidableEq

/-- Struct `Image`: `width`, `height` are `uint32_t`, `pixmap` is the pixel buffer
addressed by index. -/
structure Image where
  width : Nat
  height : Nat
  pixmap : Nat → RGBpixel

/-- Largest value of `int`. -/
def INT_MAX : Int := 2147483647

/-- Smallest value of `int`. -/
def INT_MIN : Int := -2147483648

/-- The constant `IMAGE_READ_BUFFER_SIZE`. -/
def IMAGE_READ_BUFFER_SIZE : Int := 1024

/-- The test `c == '\r' || c == '\n' || c == ' ' || c == '\t'`. -/
def is_whitespace (c : Nat) : Bool := c == 13 || c == 10 || c == 32 || c == 9

/-- The test `c == '\n' || c == '\r'`. -/
def is_newline (c : Nat) : Bool := c == 10 || c == 13

/-! ## C library functions used by the loader -/

/-- The function `isspace` of the C locale: space, `\t`, `\n`, `\v`, `\f`, `\r`. -/
def isspace (c : Nat) : Bool := c == 32 || (9 ≤ c && c ≤ 13)

/-- The function `isdigit`. -/
def isdigit (c : Nat) : Bool := 48 ≤ c && c ≤ 57

/-- The value of the longest prefix of decimal digits, accumulated from `acc`. -/
def atoi_digits : List Nat → Nat → Nat
  | [], acc => acc
  | c :: s, acc => if isdigit c then atoi_digits s (acc * 10 + (c - 48)) else acc

/-- The optional sign (`-` is byte 45, `+` is byte 43) followed by the run of digits. -/
def atoi_signed : List Nat → Int
  | 45 :: t => -(atoi_digits t 0 : Int)
  | 43 :: t => (atoi_digits t 0 : Int)
  | s => (atoi_digits s 0 : Int)

/-- The C library function `atoi` on the bytes of a string: leading `isspace` bytes are
skipped, an optional sign is read, then the longest run of decimal digits (conversion
stops at the first other byte, in particular at the terminating NUL).  The result is
`none` when the value is not representable as an `int` (undefined behaviour). -/
def atoi (s : List Nat) : Option Int :=
  let v := atoi_signed (s.dropWhile isspace)
  if INT_MIN ≤ v ∧ v ≤ INT_MAX then some v else none

/-- The conversion `(char)c` of a byte read by `getc`/`fread` into the `char` buffer
(`char` is signed: bytes above 127 become negative). -/
def to_char (c : Nat) : Int := if c < 128 then (c : Int) else (c : Int) - 256

/-- The conversion of a `uint32_t` to `int` (`int width = image_ptr->width`). -/
def int_of_uint32 (n : Nat) : Int := if n < 2147483648 then (n : Int) else (n : Int) - 4294967296

/-- The division `x / (float)color_max` of an integer-valued float by the maxval. -/
def fdiv (x color_max : Int) : FloatVal :=
  if color_max = 0 then
    (if x = 0 then FloatVal.nan else if 0 < x then FloatVal.pinf else FloatVal.ninf)
  else FloatVal.fin ((x : ℚ) / (color_max : ℚ))

/-! ## Tokenizer -/

/-- The loop of `skip_comments`; the Boolean is the local variable `in_comment`.
`none` is `return 1`, `some fp` is `return 0` with the stream left at `fp`. -/
def skip_comments_loop : Bool → FILE → Option FILE
  | _, [] => none
  | true, c :: fp =>
      if is_newline c then skip_comments_loop false fp else skip_comments_loop true fp
  | false, c :: fp =>
      if c = 35 then skip_comments_loop true fp
      else some (c :: fp)

/-- Function `skip_comments`. -/
def skip_comments (fp : FILE) : Option FILE := skip_comments_loop false fp

/-- The `do ... while` loop of `skip_whitespace`.  The first argument bounds the number
of iterations; every iteration consumes a byte, so `fp.length + 1` is enough. -/
def skip_whitespace_loop : Nat → FILE → Option FILE
  | 0, _ => none
  | _ + 1, [] => none
  | fuel + 1, c :: fp =>
      match (if is_newline c then skip_comments fp else some fp) with
      | none => none
      | some fp1 =>
          if is_whitespace c then skip_whitespace_loop fuel fp1
          else some (c :: fp1)

/-- Function `skip_whitespace`: `none` is `return 1`, `some fp` is `return 0`. -/
def skip_whitespace (fp : FILE) : Option FILE := skip_whitespace_loop (fp.length + 1) fp

/-- The loop of `read_to_whitespace`: `pos` is the local variable, `buffer` holds
`buffer[0..pos)`.  The result is the returned `int`, the string left in the buffer
(the bytes before the terminating NUL) and the stream.  On the empty stream both the
buffer-size test and the `EOF` test return -1. -/
def read_to_whitespace_loop (buffer_size : Int) : FILE → Nat → List Nat → Int × List Nat × FILE
  | [], _, buffer => (-1, buffer, [])
  | c :: fp, pos, buffer =>
      if (pos : Int) > buffer_size - 1 then (-1, buffer, c :: fp)
      else if is_whitespace c then ((pos : Int), buffer, c :: fp)
      else read_to_whitespace_loop buffer_size fp (pos + 1) (buffer ++ [c])

/-- Function `read_to_whitespace`. -/
def read_to_whitespace (fp : FILE) (buffer_size : Int) : Int × List Nat × FILE :=
  read_to_whitespace_loop buffer_size fp 0 []

/-! ## Pixel loops -/

/-- What one loop iteration does to the state `σ`. -/
inductive Step (σ : Type) where
  /-- the iteration ran to its end -/
  | next (s : σ)
  /-- the iteration executed `return code` -/
  | ret (code : Int) (s : σ)
  /-- the iteration ran into undefined behaviour -/
  | undef

/-- The loop `for (x = x0; x < x0 + n; x++) body`: the first argument is the number of
iterations still to run, the second the loop variable. -/
def for_loop {σ : Type} (body : Nat → σ → Step σ) : Nat → Nat → σ → Step σ
  | 0, _, s => Step.next s
  | n + 1, x, s =>
      match body x s with
      | Step.next s1 => for_loop body n (x + 1) s1
      | Step.ret code s1 => Step.ret code s1
      | Step.undef => Step.undef

/-- The state of the pixel loops: the stream and the pixel buffer. -/
structure LoadState where
  fp : FILE
  pixmap : Nat → RGBpixel

/-- The number of `RGBpixel` cells in the block returned by
`malloc(sizeof(RGBpixel) * width * height)`: the product is computed in `size_t`
(64 bit, `sizeof(RGBpixel) = 12`). -/
def malloc_cells (width height : Int) : Nat :=
  ((12 * (width % 18446744073709551616) * (height % 18446744073709551616))
    % 18446744073709551616 / 12).toNat

/-- A pixel buffer fresh from `malloc`: no channel has a value yet. -/
def fresh_pixmap : Nat → RGBpixel := fun _ => ⟨none, none, none⟩

/-- The three statements `if (k == 0) p.r = value; if (k == 1) p.g = value;
if (k == 2) p.b = value;` on the pixel `p`. -/
def set_channel (k : Nat) (value : FloatVal) (p : RGBpixel) : RGBpixel :=
  let p1 := if k = 0 then { p with r := some value } else p
  let p2 := if k = 1 then { p1 with g := some value } else p1
  if k = 2 then { p2 with b := some value } else p2

/-- The assignment to channel `k` of `pixmap[i*width + j]` on a buffer of `cells` pixels.
`none` when `i*width + j` overflows `int` or lies outside the buffer. -/
def store_channel (cells : Nat) (width : Int) (i j k : Nat) (value : FloatVal)
    (pixmap : Nat → RGBpixel) : Option (Nat → RGBpixel) :=
  let idx : Int := (i : Int) * width + (j : Int)
  if idx < INT_MIN ∨ INT_MAX < idx ∨ idx < 0 ∨ (cells : Int) ≤ idx then none
  else some (Function.update pixmap idx.toNat (set_channel k value (pixmap idx.toNat)))

/-- The body of the innermost loop of `image_load_p3` (one colour sample). -/
def p3_sample (cells : Nat) (width color_max : Int) (i j k : Nat) (s : LoadState) :
    Step LoadState :=
  match skip_whitespace s.fp with
  | none => Step.ret 1 { s with fp := [] }
  | some fp1 =>
      match read_to_whitespace fp1 IMAGE_READ_BUFFER_SIZE with
      | (bytes_read, buffer, fp2) =>
          if bytes_read ≤ 0 then Step.ret 1 { s with fp := fp2 }
          else
            match atoi buffer with
            | none => Step.undef
            | some a =>
                if a > color_max then Step.ret 1 { s with fp := fp2 }
                else if a < 0 then Step.ret 1 { s with fp := fp2 }
                else
                  match store_channel cells width i j k (fdiv a color_max) s.pixmap with
                  | none => Step.undef
                  | some pixmap1 => Step.next { fp := fp2, pixmap := pixmap1 }

/-- The value of the expression `buffer[0] & 0xFF`. -/
def sample8 (b0 : Nat) : Int := Int.land (to_char b0) 255

/-- The value of the expression `((buffer[0] << 8) & 0xFF00) | (buffer[1] & 0xFF)`; the
shift of a negative `char` is taken arithmetically, as the compilers define it. -/
def sample16 (b0 b1 : Nat) : Int :=
  Int.lor (Int.land (to_char b0 <<< (8 : Int)) 65280) (Int.land (to_char b1) 255)

/-- The expression `buffer[0] & 0xFF` on a platform whose `char` is unsigned: the byte is
converted to `int` without a change of value. -/
def sample8_unsigned (b0 : Nat) : Int := Int.land (b0 : Int) 255

/-- The expression `((buffer[0] << 8) & 0xFF00) | (buffer[1] & 0xFF)` on a platform whose
`char` is unsigned. -/
def sample16_unsigned (b0 b1 : Nat) : Int :=
  Int.lor (Int.land ((b0 : Int) <<< (8 : Int)) 65280) (Int.land (b1 : Int) 255)

/-- The body of the innermost loop of `image_load_p6` (one colour sample): `fread` of
one or two bytes, which returns fewer items when the stream ends early. -/
def p6_sample (cells : Nat) (width color_max : Int) (i j k : Nat) (s : LoadState) :
    Step LoadState :=
  if color_max < 256 then
    match s.fp with
    | [] => Step.ret 1 s
    | b0 :: fp1 =>
        match store_channel cells width i j k (fdiv (sample8 b0) color_max) s.pixmap with
        | none => Step.undef
        | some pixmap1 => Step.next { fp := fp1, pixmap := pixmap1 }
  else
    match s.fp with
    | [] => Step.ret 1 s
    | [_] => Step.ret 1 { s with fp := [] }
    | b0 :: b1 :: fp1 =>
        match store_channel cells width i j k (fdiv (sample16 b0 b1) color_max) s.pixmap with
        | none => Step.undef
        | some pixmap1 => Step.next { fp := fp1, pixmap := pixmap1 }

/-- The three nested `for` loops over `i < height`, `j < width`, `k < 3`. -/
def pixel_loops (sample : Nat → Nat → Nat → LoadState → Step LoadState)
    (width height : Int) (s : LoadState) : Step LoadState :=
  for_loop (fun i => for_loop (fun j => for_loop (fun k => sample i j k) 3 0) width.toNat 0)
    height.toNat 0 s

/-- Function `image_load_p3`.  The result is `none` on undefined behaviour, otherwise the
returned `int` and the image. -/
def image_load_p3 (fp : FILE) (image : Image) (color_max : Int) : Option (Int × Image) :=
  let height := int_of_uint32 image.height
  let width := int_of_uint32 image.width
  let cells := malloc_cells width height
  match pixel_loops (p3_sample cells width color_max) width height ⟨fp, fresh_pixmap⟩ with
  | Step.next s => some (0, { image with pixmap := s.pixmap })
  | Step.ret code s => some (code, { image with pixmap := s.pixmap })
  | Step.undef => none

/-- Function `image_load_p6`. -/
def image_load_p6 (fp : FILE) (image : Image) (color_max : Int) : Option (Int × Image) :=
  let height := int_of_uint32 image.height
  let width := int_of_uint32 image.width
  let cells := malloc_cells width height
  match skip_whitespace fp with
  | none => some (1, { image with pixmap := fresh_pixmap })
  | some fp1 =>
      match pixel_loops (p6_sample cells width color_max) width height ⟨fp1, fresh_pixmap⟩ with
      | Step.next s => some (0, { image with pixmap := s.pixmap })
      | Step.ret code s => some (code, { image with pixmap := s.pixmap })
      | Step.undef => none

/-! ## load_image -/

/-- The local variables of `load_image` once the header has been read. -/
structure Header where
  ppm_version : Int
  width : Int
  height : Int
  color_max : Int
  deriving DecidableEq

/-- The outcome of the header part of `load_image`. -/
inductive HeaderResult where
  /-- all four header fields were read and accepted; the stream is at `fp` -/
  | ok (h : Header) (fp : FILE)
  /-- the function executed `return 1` after `fcloses` calls of `fclose(fp)` -/
  | ret1 (fcloses : Nat)
  /-- the value of a header token is not representable in `int` -/
  | undef
  deriving DecidableEq

/-- One numeric header field: `read_to_whitespace`, the test `bytes_read <= 0` (which
returns without `fclose`) and `atoi`. -/
def read_header_int (fp : FILE) : Sum HeaderResult (Int × FILE) :=
  match read_to_whitespace fp IMAGE_READ_BUFFER_SIZE with
  | (bytes_read, buffer, fp1) =>
      if bytes_read ≤ 0 then Sum.inl (HeaderResult.ret1 0)
      else
        match atoi buffer with
        | none => Sum.inl HeaderResult.undef
        | some v => Sum.inr (v, fp1)

/-- The statements that `load_image` repeats for the width, the height and the maximum
colour value: `skip_whitespace` (on failure `fclose` and `return 1`), then the token and
its `atoi`. -/
def read_field (fp : FILE) : Sum HeaderResult (Int × FILE) :=
  match skip_whitespace fp with
  | none => Sum.inl (HeaderResult.ret1 1)
  | some fp1 => read_header_int fp1

/-- The value given to `ppm_version` by the two tests `strncmp("P3", buffer, 2) == 0` and
`strncmp("P6", buffer, 2) == 0`; 0 stands for the final `else` branch. -/
def magic_version (buffer : List Nat) : Int :=
  if buffer.take 2 = [80, 51] then 3 else if buffer.take 2 = [80, 54] then 6 else 0

/-- The first part of `load_image`, from the magic number to the range check of the
maximum colour value. -/
def load_image_header (fp : FILE) : HeaderResult :=
  match read_to_whitespace fp IMAGE_READ_BUFFER_SIZE with
  | (bytes_read, buffer, fp1) =>
    if bytes_read ≠ 2 then HeaderResult.ret1 1
    else if magic_version buffer = 0 then HeaderResult.ret1 1
    else
      match read_field fp1 with
      | Sum.inl r => r
      | Sum.inr (width, fp2) =>
        if width < 0 then HeaderResult.ret1 1
        else
          match read_field fp2 with
          | Sum.inl r => r
          | Sum.inr (height, fp3) =>
            if height < 0 then HeaderResult.ret1 1
            else
              match read_field fp3 with
              | Sum.inl r => r
              | Sum.inr (color_max, fp4) =>
                if color_max < 0 ∨ color_max > 65535 then HeaderResult.ret1 1
                else HeaderResult.ok ⟨magic_version buffer, width, height, color_max⟩ fp4

/-- What `load_image` leaves behind when it returns. -/
structure Outcome where
  /-- the returned `int` -/
  ret : Int
  /-- the contents of `*image_ptr` -/
  image : Image
  /-- the number of `fclose(fp)` calls executed -/
  fcloses : Nat

/-- Function `load_image`.  The second argument is the result of `fopen`: `none` when the
file cannot be opened, otherwise the bytes of the file.  The result is `none` when the
call runs into undefined behaviour.  Behind an accepted header `ppm_version` is 3 or 6,
so exactly one of the two statements `if (ppm_version == 6) ...` and
`if (ppm_version == 3) ...` assigns `result`. -/
def load_image (image_ptr : Image) (opened : Option FILE) : Option Outcome :=
  match opened with
  | none => some ⟨1, image_ptr, 0⟩
  | some fp =>
    match load_image_header fp with
    | HeaderResult.undef => none
    | HeaderResult.ret1 n => some ⟨1, image_ptr, n⟩
    | HeaderResult.ok h fp1 =>
      let image : Image := { image_ptr with width := h.width.toNat, height := h.height.toNat }
      if h.ppm_version = 3 then
        (image_load_p3 fp1 image h.color_max).map (fun r => ⟨r.1, r.2, 1⟩)
      else
        (image_load_p6 fp1 image h.color_max).map (fun r => ⟨r.1, r.2, 1⟩)

/-- The bytes of a string literal. -/
def bytes (s : String) : List Nat := s.toList.map Char.toNat

/-- The variable `Image image;` of `main` before the call of `load_image`. -/
def uninit_image : Image := ⟨0, 0, fresh_pixmap⟩

/-! ## Specification vocabulary -/

/-- A non-empty run of space, tab, CR and LF bytes. -/
def blank (s : List Nat) : Bool := !s.isEmpty && s.all is_whitespace

/-- A token: a non-empty run of bytes none of which is space, tab, CR or LF. -/
def token (t : List Nat) : Bool := !t.isEmpty && t.all (fun c => !is_whitespace c)

/-- A decimal token: a non-empty run of ASCII digits. -/
def decimal (t : List Nat) : Bool := !t.isEmpty && t.all isdigit

/-- The number written by a run of ASCII digits. -/
def digits_value (t : List Nat) : Nat := t.foldl (fun acc c => acc * 10 + (c - 48)) 0

/-- The bytes of a P3 body: every sample token (second component) preceded by its
separator (first component), followed by the rest of the stream. -/
def p3_body : List (List Nat × List Nat) → FILE → FILE
  | [], rest => rest
  | p :: l, rest => p.1 ++ (p.2 ++ p3_body l rest)

/-- The value of sample token number `t` of a P3 body. -/
def p3_value (toks : List (List Nat × List Nat)) (t : Nat) : Nat :=
  digits_value (toks.getD t ([], [])).2

/-- A well-formed sample of a P3 body with maximum colour value `m`: a non-empty run of
whitespace, then a decimal token of at most 1023 bytes whose value is at most `m`. -/
def p3_sample_ok (m : Nat) (p : List Nat × List Nat) : Bool :=
  blank p.1 && decimal p.2 && decide (p.2.length ≤ 1023) && decide (digits_value p.2 ≤ m)

/-- The value of sample number `t` of a raw P6 body with maximum colour value `m`: one
byte when `m < 256`, otherwise two bytes, most significant first. -/
def p6_value (m : Nat) (body : List Nat) (t : Nat) : Nat :=
  if m < 256 then body.getD t 0 else body.getD (2 * t) 0 * 256 + body.getD (2 * t + 1) 0

/-- The stream behind the separator byte `sep` starts with a byte at which
`skip_whitespace` stops: not a whitespace byte, and not `#` directly after a
line terminator. -/
def body_start_ok (sep : Nat) (fp : FILE) : Bool :=
  match fp with
  | [] => false
  | d :: _ => !is_whitespace d && !(is_newline sep && d == 35)

/-- The stream behind a chain of tokens: each entry of the list is a token with the stream
left behind it. -/
def chain_end : FILE → List (List Nat × FILE) → FILE
  | fp, [] => fp
  | _, p :: l => chain_end p.2 l

/-- The first token of a stream: the bytes before the first space, tab, CR or LF. -/
def first_token (fp : FILE) : List Nat := fp.takeWhile (fun c => !is_whitespace c)

/-- The stream continues with a whitespace byte. -/
def ws_next (fp : FILE) : Bool :=
  match fp with
  | [] => false
  | c :: _ => is_whitespace c

/-- The stream `fp` stands directly behind a token; the whitespace and comments that
`skip_whitespace` passes over lead to the token `tok` of at most 1023 bytes, which is
followed by the stream `rest`, starting with the whitespace byte that ends the token. -/
def field_at (fp : FILE) (tok : List Nat) (rest : FILE) : Bool :=
  ws_next fp && skip_whitespace fp == some (tok ++ rest) && token tok &&
    decide (tok.length ≤ 1023) && ws_next rest

/-- From the stream `fp` on, the P3 decoder with maximum colour value `m` reads the sample
tokens of the list one after the other and accepts each: every token is found behind
whitespace and comments, is followed by the stream paired with it, and parses to a value
in `[0, m]`. -/
def p3_accepts (m : Int) : FILE → List (List Nat × FILE) → Bool
  | _, [] => true
  | fp, p :: l =>
      field_at fp p.1 p.2 &&
        (match atoi p.1 with
          | none => false
          | some a => decide (0 ≤ a ∧ a ≤ m)) &&
        p3_accepts m p.2 l

/-- The body of the three nested loops at sample number `n` of an image `w` pixels wide:
row `n / (w*3)`, column `n % (w*3) / 3`, channel `n % (w*3) % 3`. -/
def flat (sample : Nat → Nat → Nat → LoadState → Step LoadState) (w n : Nat) :
    LoadState → Step LoadState :=
  sample (n / (w * 3)) (n % (w * 3) / 3) (n % (w * 3) % 3)

/-- The pixel buffer after the samples `0 .. n-1` have been stored, sample `t` having the
value `val t`: channel `k` of pixel `idx` holds sample `3*idx + k`. -/
def filled (val : Nat → FloatVal) (n : Nat) : Nat → RGBpixel := fun idx =>
  ⟨if 3 * idx < n then some (val (3 * idx)) else none,
   if 3 * idx + 1 < n then some (val (3 * idx + 1)) else none,
   if 3 * idx + 2 < n then some (val (3 * idx + 2)) else none⟩

/-- The values a P3 sample can take with maximum colour value `m`. -/
def p3_stored (m : Int) (v : FloatVal) : Prop := ∃ a : Int, 0 ≤ a ∧ a ≤ m ∧ v = fdiv a m

/-- The values a P6 sample can take with maximum colour value `m`. -/
def p6_stored (m : Int) (v : FloatVal) : Prop :=
  ∃ x : Int, 0 ≤ x ∧ x ≤ 65535 ∧ (m < 256 → x ≤ 255) ∧ v = fdiv x m

/-- All three channels of a pixel have been assigned. -/
def assigned (p : RGBpixel) : Prop := p.r.isSome = true ∧ p.g.isSome = true ∧ p.b.isSome = true

/-- A channel holds a finite value in the closed range `[0, 1]`. -/
def in_unit (c : Option FloatVal) : Prop := ∃ q : ℚ, c = some (FloatVal.fin q) ∧ 0 ≤ q ∧ q ≤ 1

/-- A comment line: `#`, bytes that are neither LF nor CR, and a line terminator. -/
def comment_line (cmt : List Nat) : Bool :=
  match cmt with
  | [] => false
  | c :: l => c == 35 && !l.isEmpty && l.dropLast.all (fun x => !is_newline x) &&
      l.getLast?.any is_newline

/-- Where a reader of skipped bytes stands: inside a line, directly behind a line
terminator, or inside a comment. -/
inductive SkipState
  | line
  | fresh
  | comment
  deriving DecidableEq

/-- One skipped byte as the specification describes it: outside a comment only a
whitespace byte, or `#` directly behind a line terminator, which opens a comment; inside a
comment any byte, the next line terminator being the end of the comment. -/
def skip_step : SkipState → Nat → Option SkipState
  | SkipState.line, c =>
      if is_newline c then some SkipState.fresh
      else if is_whitespace c then some SkipState.line
      else none
  | SkipState.fresh, c =>
      if c = 35 then some SkipState.comment
      else if is_newline c then some SkipState.fresh
      else if is_whitespace c then some SkipState.line
      else none
  | SkipState.comment, c =>
      if is_newline c then some SkipState.fresh else some SkipState.comment

/-- Reading a run of skipped bytes from a given position on. -/
def skip_run : SkipState → List Nat → Option SkipState
  | s, [] => some s
  | s, c :: l =>
      match skip_step s c with
      | none => none
      | some s1 => skip_run s1 l

/-- A run of bytes each of which is a whitespace byte or part of a complete comment whose
`#` stands directly behind a line terminator; the run starts inside a line. -/
def skipped_ok (g : List Nat) : Bool :=
  skip_run SkipState.line g == some SkipState.line ||
    skip_run SkipState.line g == some SkipState.fresh

/-- A non-empty run of space and tab bytes. -/
def space_tab_run (s : List Nat) : Bool := !s.isEmpty && s.all (fun c => c == 32 || c == 9)

/-- The bytes begin with an optional sign followed by a decimal digit. -/
def numeric_start : List Nat → Bool
  | 45 :: d :: _ => isdigit d
  | 43 :: d :: _ => isdigit d
  | d :: _ => isdigit d
  | [] => false

/-! ## Loops -/

theorem for_loop_add {σ : Type} (body : Nat → σ → Step σ) (a b x : Nat) (s : σ) :
    for_loop body (a + b) x s =
      match for_loop body a x s with
      | Step.next s1 => for_loop body b (x + a) s1
      | Step.ret code s1 => Step.ret code s1
      | Step.undef => Step.undef := by
  induction a generalizing x s with
  | zero => simp [for_loop]
  | succ a ih =>
    rw [Nat.succ_add]
    simp only [for_loop]
    cases hb : body x s with
    | next s1 =>
      simp only []
      rw [ih]
      have : x + 1 + a = x + (a + 1) := by omega
      rw [this]
    | ret code s1 => rfl
    | undef => rfl

theorem for_loop_congr {σ : Type} (body body1 : Nat → σ → Step σ) (n x : Nat) (s : σ)
    (h : ∀ y, x ≤ y → y < x + n → body y = body1 y) :
    for_loop body n x s = for_loop body1 n x s := by
  induction n generalizing x s with
  | zero => rfl
  | succ n ih =>
    simp only [for_loop]
    rw [← h x (Nat.le_refl x) (by omega)]
    cases body x s with
    | next s1 => exact ih (x + 1) s1 (fun y h1 h2 => h y (by omega) (by omega))
    | ret code s1 => rfl
    | undef => rfl

theorem for_loop_shift {σ : Type} (g : Nat → σ → Step σ) (d n x : Nat) (s : σ) :
    for_loop (fun y => g (y + d)) n x s = for_loop g n (x + d) s := by
  induction n generalizing x s with
  | zero => rfl
  | succ n ih =>
    simp only [for_loop]
    cases g (x + d) s with
    | next s1 =>
      simp only []
      rw [ih]
      have : x + 1 + d = x + d + 1 := by omega
      rw [this]
    | ret code s1 => rfl
    | undef => rfl

theorem for_loop_nest {σ : Type} (f : Nat → Nat → σ → Step σ) (m n i0 : Nat) (s : σ)
    (hm : 0 < m) :
    for_loop (fun i => for_loop (f i) m 0) n i0 s =
      for_loop (fun t => f (t / m) (t % m)) (n * m) (i0 * m) s := by
  induction n generalizing i0 s with
  | zero => simp [for_loop]
  | succ n ih =>
    have e : (n + 1) * m = m + n * m := by ring
    conv_rhs => rw [e, for_loop_add]
    simp only [for_loop]
    have inner : ∀ s, for_loop (f i0) m 0 s =
        for_loop (fun t => f (t / m) (t % m)) m (i0 * m) s := by
      intro s
      have h1 := for_loop_shift (fun t => f (t / m) (t % m)) (i0 * m) m 0 s
      rw [Nat.zero_add] at h1
      rw [← h1]
      apply for_loop_congr
      intro y _ hy
      have hy : y < m := by omega
      have d1 : (y + i0 * m) / m = i0 := by
        rw [Nat.add_mul_div_right _ _ hm, Nat.div_eq_of_lt hy, Nat.zero_add]
      have d2 : (y + i0 * m) % m = y := by
        rw [Nat.add_mul_mod_self_right, Nat.mod_eq_of_lt hy]
      simp only [d1, d2]
    rw [inner]
    cases for_loop (fun t => f (t / m) (t % m)) m (i0 * m) s with
    | next s1 =>
      simp only []
      rw [ih]
      have : (i0 + 1) * m = i0 * m + m := by ring
      rw [this]
    | ret code s1 => rfl
    | undef => rfl

/-- A loop whose body never changes the state and never returns does nothing. -/
theorem for_loop_skip {σ : Type} (body : Nat → σ → Step σ) (n x : Nat) (s : σ)
    (h : ∀ y t, body y t = Step.next t) : for_loop body n x s = Step.next s := by
  induction n generalizing x with
  | zero => rfl
  | succ n ih => simp only [for_loop, h]; exact ih (x + 1)

/-! ## Tokenizer lemmas -/

theorem skip_comments_loop_suffix (ic : Bool) (fp fp1 : FILE)
    (h : skip_comments_loop ic fp = some fp1) : fp1 <:+ fp := by
  induction fp generalizing ic with
  | nil => cases ic <;> simp [skip_comments_loop] at h
  | cons c fp ih =>
    cases ic with
    | true =>
      simp only [skip_comments_loop] at h
      split at h
      · exact (ih _ h).trans (List.suffix_cons c fp)
      · exact (ih _ h).trans (List.suffix_cons c fp)
    | false =>
      simp only [skip_comments_loop] at h
      split at h
      · exact (ih _ h).trans (List.suffix_cons c fp)
      · simp only [Option.some.injEq] at h
        rw [← h]

theorem skip_comments_length (fp fp1 : FILE) (h : skip_comments fp = some fp1) :
    fp1.length ≤ fp.length :=
  (skip_comments_loop_suffix false fp fp1 h).length_le

theorem skip_whitespace_loop_fuel (n : Nat) : ∀ (fuel1 fuel2 : Nat) (fp : FILE),
    fp.length ≤ n → fp.length < fuel1 → fp.length < fuel2 →
    skip_whitespace_loop fuel1 fp = skip_whitespace_loop fuel2 fp := by
  induction n with
  | zero =>
    intro fuel1 fuel2 fp hn h1 h2
    have : fp = [] := List.length_eq_zero.mp (by omega)
    subst this
    cases fuel1 <;> cases fuel2 <;> simp [skip_whitespace_loop] at *
  | succ n ih =>
    intro fuel1 fuel2 fp hn h1 h2
    cases fp with
    | nil => cases fuel1 <;> cases fuel2 <;> simp [skip_whitespace_loop] at *
    | cons c fp =>
      cases fuel1 with
      | zero => simp at h1
      | succ fuel1 =>
        cases fuel2 with
        | zero => simp at h2
        | succ fuel2 =>
          simp only [List.length_cons] at hn h1 h2
          simp only [skip_whitespace_loop]
          cases hnl : is_newline c with
          | false =>
            simp only [Bool.false_eq_true, if_false]
            split
            · exact ih _ _ _ (by omega) (by omega) (by omega)
            · rfl
          | true =>
            simp only [if_true]
            cases hsc : skip_comments fp with
            | none => rfl
            | some fp1 =>
              have hl := skip_comments_length fp fp1 hsc
              simp only []
              split
              · exact ih _ _ _ (by omega) (by omega) (by omega)
              · rfl

theorem skip_whitespace_nil : skip_whitespace [] = none := rfl

/-- One iteration of the `do ... while` loop of `skip_whitespace`, without the bound on the
number of iterations. -/
theorem skip_whitespace_cons (c : Nat) (fp : FILE) :
    skip_whitespace (c :: fp) =
      match (if is_newline c then skip_comments fp else some fp) with
      | none => none
      | some fp1 => if is_whitespace c then skip_whitespace fp1 else some (c :: fp1) := by
  unfold skip_whitespace
  simp only [List.length_cons, skip_whitespace_loop]
  cases hnl : is_newline c with
  | false => simp only [Bool.false_eq_true, if_false]
  | true =>
    simp only [if_true]
    cases hsc : skip_comments fp with
    | none => rfl
    | some fp1 =>
      have hl := skip_comments_length fp fp1 hsc
      simp only []
      split
      · exact skip_whitespace_loop_fuel fp.length _ _ _ (by omega) (by omega) (by omega)
      · rfl

theorem newline_is_whitespace (c : Nat) (h : is_newline c = true) : is_whitespace c = true := by
  simp only [is_newline, is_whitespace, Bool.or_eq_true, beq_iff_eq] at *
  omega

/-- The whitespace skipper stops at a byte that is not whitespace; after a line terminator
that byte must not be `#`, which is why `#` is excluded. -/
theorem skip_whitespace_blank (s : List Nat) (d : Nat) (rest : FILE)
    (hs : s.all is_whitespace = true) (hd : is_whitespace d = false) (hd1 : d ≠ 35) :
    skip_whitespace (s ++ d :: rest) = some (d :: rest) := by
  induction s with
  | nil =>
    have hnl : is_newline d = false := by
      cases h : is_newline d with
      | false => rfl
      | true => rw [newline_is_whitespace d h] at hd; exact absurd hd (by simp)
    simp [skip_whitespace_cons, hnl, hd]
  | cons c s ih =>
    simp only [List.all_cons, Bool.and_eq_true] at hs
    rw [List.cons_append, skip_whitespace_cons]
    have hsc : skip_comments (s ++ d :: rest) = some (s ++ d :: rest) := by
      cases s with
      | nil => simp [skip_comments, skip_comments_loop, hd1]
      | cons c1 s1 =>
        have : c1 ≠ 35 := by
          intro h
          have := hs.2
          simp only [List.all_cons, Bool.and_eq_true] at this
          rw [h] at this
          simp [is_whitespace] at this
        simp [skip_comments, skip_comments_loop, this]
    cases hnl : is_newline c with
    | false => simp only [Bool.false_eq_true, if_false, hs.1, if_true]; exact ih hs.2
    | true => simp only [if_true, hsc, hs.1]; exact ih hs.2

theorem read_to_whitespace_loop_token (buffer_size : Int) (t : List Nat) (c : Nat) (rest : FILE)
    (pos : Nat) (buffer : List Nat)
    (ht : t.all (fun c => !is_whitespace c) = true) (hc : is_whitespace c = true)
    (hlen : ((pos + t.length : Nat) : Int) ≤ buffer_size - 1) :
    read_to_whitespace_loop buffer_size (t ++ c :: rest) pos buffer =
      (((pos + t.length : Nat) : Int), buffer ++ t, c :: rest) := by
  induction t generalizing pos buffer with
  | nil =>
    simp only [List.nil_append, read_to_whitespace_loop, hc, if_true, List.length_nil,
      Nat.add_zero, List.append_nil]
    simp only [List.length_nil, Nat.add_zero] at hlen
    rw [if_neg (by omega)]
  | cons a t ih =>
    simp only [List.all_cons, Bool.and_eq_true, Bool.not_eq_true'] at ht
    simp only [List.length_cons] at hlen
    simp only [List.cons_append, read_to_whitespace_loop, ht.1, Bool.false_eq_true, if_false]
    rw [if_neg (by push_cast at hlen ⊢; omega)]
    show read_to_whitespace_loop buffer_size (t ++ c :: rest) (pos + 1) (buffer ++ [a]) = _
    rw [ih (pos + 1) (buffer ++ [a]) (by simpa using ht.2) (by push_cast at hlen ⊢; omega)]
    simp only [List.length_cons, List.append_assoc, List.singleton_append]
    congr 2
    omega

/-- Reading a token of at most 1023 bytes that is followed by a whitespace byte. -/
theorem read_to_whitespace_token (t : List Nat) (c : Nat) (rest : FILE)
    (ht : t.all (fun c => !is_whitespace c) = true) (hc : is_whitespace c = true)
    (hlen : t.length ≤ 1023) :
    read_to_whitespace (t ++ c :: rest) IMAGE_READ_BUFFER_SIZE =
      ((t.length : Int), t, c :: rest) := by
  unfold read_to_whitespace
  rw [read_to_whitespace_loop_token _ t c rest 0 [] ht hc
    (by simp only [IMAGE_READ_BUFFER_SIZE]; omega)]
  simp

theorem read_to_whitespace_ws_next (t : List Nat) (rest : FILE)
    (ht : t.all (fun c => !is_whitespace c) = true) (hr : ws_next rest = true)
    (hlen : t.length ≤ 1023) :
    read_to_whitespace (t ++ rest) IMAGE_READ_BUFFER_SIZE = ((t.length : Int), t, rest) := by
  cases rest with
  | nil => simp [ws_next] at hr
  | cons c rest => exact read_to_whitespace_token t c rest ht hr hlen

theorem atoi_digits_all (t : List Nat) (acc : Nat) (h : t.all isdigit = true) :
    atoi_digits t acc = t.foldl (fun acc c => acc * 10 + (c - 48)) acc := by
  induction t generalizing acc with
  | nil => rfl
  | cons c t ih =>
    simp only [List.all_cons, Bool.and_eq_true] at h
    simp only [atoi_digits, h.1, if_true, List.foldl_cons]
    exact ih _ h.2

/-- The function `atoi` on a run of digits whose value fits in an `int`. -/
theorem atoi_decimal (t : List Nat) (h : decimal t = true) (hv : digits_value t ≤ 2147483647) :
    atoi t = some (digits_value t : Int) := by
  cases t with
  | nil => simp [decimal] at h
  | cons c t =>
    simp only [decimal, List.isEmpty_cons, Bool.not_false, Bool.true_and] at h
    have hall := h
    simp only [List.all_cons, Bool.and_eq_true] at h
    have hc : 48 ≤ c ∧ c ≤ 57 := by simpa [isdigit] using h.1
    have hsp : isspace c = false := by
      simp only [isspace, Bool.or_eq_false_iff, beq_eq_false_iff_ne, Bool.and_eq_false_iff,
        decide_eq_false_iff_not]
      omega
    have hval : atoi_digits (c :: t) 0 = digits_value (c :: t) := atoi_digits_all _ 0 hall
    have hsg : atoi_signed (c :: t) = (atoi_digits (c :: t) 0 : Int) := by
      unfold atoi_signed
      split
      · rename_i heq
        simp only [List.cons.injEq] at heq
        omega
      · rename_i heq
        simp only [List.cons.injEq] at heq
        omega
      · rfl
    unfold atoi
    simp only [List.dropWhile_cons, hsp, Bool.false_eq_true, if_false, hsg, hval]
    rw [if_pos]
    simp only [INT_MIN, INT_MAX]
    omega

theorem token_of_decimal (t : List Nat) (h : decimal t = true) : token t = true := by
  simp only [decimal, token, Bool.and_eq_true, List.all_eq_true] at *
  refine ⟨h.1, fun c hc => ?_⟩
  have := h.2 c hc
  simp only [isdigit, Bool.and_eq_true, decide_eq_true_eq] at this
  simp only [is_whitespace, Bool.not_eq_true', Bool.or_eq_false_iff, beq_eq_false_iff_ne]
  omega

/-- One numeric header field on a stream that starts with a token. -/
theorem read_header_int_token (t : List Nat) (rest : FILE)
    (ht : token t = true) (hr : ws_next rest = true) (hlen : t.length ≤ 1023) :
    read_header_int (t ++ rest) =
      match atoi t with
      | none => Sum.inl HeaderResult.undef
      | some v => Sum.inr (v, rest) := by
  simp only [token, Bool.and_eq_true] at ht
  have hne : 0 < t.length := by
    cases t with
    | nil => simp at ht
    | cons a t => simp
  unfold read_header_int
  rw [read_to_whitespace_ws_next t rest ht.2 hr hlen]
  simp only []
  rw [if_neg (by omega)]

theorem atoi_range (t : List Nat) (v : Int) (h : atoi t = some v) :
    -2147483648 ≤ v ∧ v ≤ 2147483647 := by
  unfold atoi at h
  simp only [INT_MIN, INT_MAX] at h
  split at h
  · simp only [Option.some.injEq] at h
    rw [← h]
    assumption
  · simp at h

theorem read_header_int_inl (fp : FILE) (r : HeaderResult)
    (h : read_header_int fp = Sum.inl r) : r = HeaderResult.ret1 0 ∨ r = HeaderResult.undef := by
  unfold read_header_int at h
  rcases hr : read_to_whitespace fp IMAGE_READ_BUFFER_SIZE with ⟨bytes_read, buffer, fp1⟩
  rw [hr] at h
  simp only [] at h
  by_cases hb : bytes_read ≤ 0
  · rw [if_pos hb] at h
    left
    exact (Sum.inl.inj h).symm
  · rw [if_neg hb] at h
    cases ha : atoi buffer with
    | none =>
      rw [ha] at h
      right
      exact (Sum.inl.inj h).symm
    | some v => rw [ha] at h; cases h

theorem read_header_int_inr (fp fp1 : FILE) (v : Int)
    (h : read_header_int fp = Sum.inr (v, fp1)) :
    ∃ bytes_read buffer, read_to_whitespace fp IMAGE_READ_BUFFER_SIZE = (bytes_read, buffer, fp1) ∧
      0 < bytes_read ∧ atoi buffer = some v := by
  unfold read_header_int at h
  rcases hr : read_to_whitespace fp IMAGE_READ_BUFFER_SIZE with ⟨bytes_read, buffer, fp2⟩
  rw [hr] at h
  simp only [] at h
  by_cases hb : bytes_read ≤ 0
  · rw [if_pos hb] at h; cases h
  · rw [if_neg hb] at h
    cases ha : atoi buffer with
    | none => rw [ha] at h; cases h
    | some a =>
      rw [ha] at h
      simp only [Sum.inr.injEq, Prod.mk.injEq] at h
      refine ⟨bytes_read, buffer, ?_, by omega, ?_⟩
      · rw [h.2]
      · rw [ha, h.1]

theorem read_field_inl (fp : FILE) (r : HeaderResult) (h : read_field fp = Sum.inl r) :
    r = HeaderResult.ret1 1 ∨ r = HeaderResult.ret1 0 ∨ r = HeaderResult.undef := by
  unfold read_field at h
  cases hs : skip_whitespace fp with
  | none =>
    rw [hs] at h
    left
    exact (Sum.inl.inj h).symm
  | some fp1 =>
    rw [hs] at h
    right
    exact read_header_int_inl fp1 r h

theorem read_field_inr (fp fp1 : FILE) (v : Int) (h : read_field fp = Sum.inr (v, fp1)) :
    ∃ fp0 bytes_read buffer, skip_whitespace fp = some fp0 ∧
      read_to_whitespace fp0 IMAGE_READ_BUFFER_SIZE = (bytes_read, buffer, fp1) ∧
      0 < bytes_read ∧ atoi buffer = some v := by
  unfold read_field at h
  cases hs : skip_whitespace fp with
  | none => rw [hs] at h; cases h
  | some fp0 =>
    rw [hs] at h
    obtain ⟨bytes_read, buffer, h1, h2, h3⟩ := read_header_int_inr fp0 fp1 v h
    exact ⟨fp0, bytes_read, buffer, rfl, h1, h2, h3⟩

theorem read_field_range (fp fp1 : FILE) (v : Int) (h : read_field fp = Sum.inr (v, fp1)) :
    -2147483648 ≤ v ∧ v ≤ 2147483647 := by
  obtain ⟨_, _, _, _, _, _, h3⟩ := read_field_inr fp fp1 v h
  exact atoi_range _ _ h3

/-- The steps of an accepted header: the magic token, then three fields. -/
theorem load_image_header_ok (fp fp4 : FILE) (hd : Header)
    (h : load_image_header fp = HeaderResult.ok hd fp4) :
    ∃ buffer fp1 fp2 fp3,
      read_to_whitespace fp IMAGE_READ_BUFFER_SIZE = (2, buffer, fp1) ∧
      magic_version buffer = hd.ppm_version ∧ hd.ppm_version ≠ 0 ∧
      read_field fp1 = Sum.inr (hd.width, fp2) ∧ 0 ≤ hd.width ∧
      read_field fp2 = Sum.inr (hd.height, fp3) ∧ 0 ≤ hd.height ∧
      read_field fp3 = Sum.inr (hd.color_max, fp4) ∧ 0 ≤ hd.color_max ∧ hd.color_max ≤ 65535 := by
  unfold load_image_header at h
  rcases hr : read_to_whitespace fp IMAGE_READ_BUFFER_SIZE with ⟨bytes_read, buffer, fp1⟩
  rw [hr] at h
  simp only [] at h
  by_cases hb : bytes_read ≠ 2
  · rw [if_pos hb] at h; cases h
  rw [if_neg hb] at h
  by_cases hv : magic_version buffer = 0
  · rw [if_pos hv] at h; cases h
  rw [if_neg hv] at h
  have notok : ∀ r : HeaderResult,
      (r = HeaderResult.ret1 1 ∨ r = HeaderResult.ret1 0 ∨ r = HeaderResult.undef) →
      r ≠ HeaderResult.ok hd fp4 := by
    intro r hr
    rcases hr with hr | hr | hr <;> rw [hr] <;> intro hc <;> cases hc
  cases h1 : read_field fp1 with
  | inl r => rw [h1] at h; exact absurd h (notok r (read_field_inl _ _ h1))
  | inr p1 =>
    obtain ⟨width, fp2⟩ := p1
    rw [h1] at h
    simp only [] at h
    by_cases hw : width < 0
    · rw [if_pos hw] at h; cases h
    rw [if_neg hw] at h
    cases h2 : read_field fp2 with
    | inl r => rw [h2] at h; exact absurd h (notok r (read_field_inl _ _ h2))
    | inr p2 =>
      obtain ⟨height, fp3⟩ := p2
      rw [h2] at h
      simp only [] at h
      by_cases hh : height < 0
      · rw [if_pos hh] at h; cases h
      rw [if_neg hh] at h
      cases h3 : read_field fp3 with
      | inl r => rw [h3] at h; exact absurd h (notok r (read_field_inl _ _ h3))
      | inr p3 =>
        obtain ⟨color_max, fp5⟩ := p3
        rw [h3] at h
        simp only [] at h
        by_cases hm : color_max < 0 ∨ color_max > 65535
        · rw [if_pos hm] at h; cases h
        rw [if_neg hm] at h
        simp only [HeaderResult.ok.injEq] at h
        obtain ⟨h4, h5⟩ := h
        subst h4
        subst h5
        simp only [not_ne_iff] at hb
        subst hb
        refine ⟨buffer, fp1, fp2, fp3, rfl, rfl, hv, h1, ?_, h2, ?_, h3, ?_, ?_⟩ <;>
          simp only <;> omega

/-- Every header that `load_image` accepts has a version of 3 or 6, a width and a height
in `[0, INT_MAX]` and a maximum colour value in `[0, 65535]`. -/
theorem load_image_header_range (fp fp1 : FILE) (hd : Header)
    (h : load_image_header fp = HeaderResult.ok hd fp1) :
    (hd.ppm_version = 3 ∨ hd.ppm_version = 6) ∧
      0 ≤ hd.width ∧ hd.width ≤ 2147483647 ∧ 0 ≤ hd.height ∧ hd.height ≤ 2147483647 ∧
      0 ≤ hd.color_max ∧ hd.color_max ≤ 65535 := by
  obtain ⟨buffer, f1, f2, f3, _, hv, hv0, hw, hw0, hh, hh0, hm, hm0, hm1⟩ :=
    load_image_header_ok fp fp1 hd h
  have r1 := read_field_range _ _ _ hw
  have r2 := read_field_range _ _ _ hh
  refine ⟨?_, hw0, r1.2, hh0, r2.2, hm0, hm1⟩
  rw [← hv] at hv0 ⊢
  unfold magic_version at hv0 ⊢
  split
  · left; rfl
  · split
    · right; rfl
    · rename_i h3 h4
      simp [h3, h4] at hv0

theorem field_at_iff (fp : FILE) (tok : List Nat) (rest : FILE) :
    field_at fp tok rest = true ↔
      ws_next fp = true ∧ skip_whitespace fp = some (tok ++ rest) ∧ token tok = true ∧
        tok.length ≤ 1023 ∧ ws_next rest = true := by
  simp only [field_at, Bool.and_eq_true, beq_iff_eq, decide_eq_true_eq]
  tauto

theorem read_field_at (fp : FILE) (tok : List Nat) (rest : FILE)
    (h : field_at fp tok rest = true) :
    read_field fp =
      match atoi tok with
      | none => Sum.inl HeaderResult.undef
      | some v => Sum.inr (v, rest) := by
  rw [field_at_iff] at h
  obtain ⟨_, h1, h2, h3, h4⟩ := h
  unfold read_field
  rw [h1]
  exact read_header_int_token tok rest h2 h4 h3

/-- The magic token `P3` or `P6` followed by a whitespace byte. -/
theorem read_magic (mg : Nat) (fp : FILE) (hmg : mg = 51 ∨ mg = 54) (h : ws_next fp = true) :
    read_to_whitespace (80 :: mg :: fp) IMAGE_READ_BUFFER_SIZE = (2, [80, mg], fp) := by
  have := read_to_whitespace_ws_next [80, mg] fp
    (by rcases hmg with h | h <;> subst h <;> decide) h (by simp)
  simpa using this

/-- The header of a stream that consists of the magic token and three numeric fields. -/
theorem load_image_header_fields (mg : Nat) (fp0 fp1 fp2 fp3 : FILE) (wtok htok mtok : List Nat)
    (w h m : Int) (hmg : mg = 51 ∨ mg = 54)
    (f1 : field_at fp0 wtok fp1 = true) (f2 : field_at fp1 htok fp2 = true)
    (f3 : field_at fp2 mtok fp3 = true)
    (aw : atoi wtok = some w) (ah : atoi htok = some h) (am : atoi mtok = some m) :
    load_image_header (80 :: mg :: fp0) =
      if w < 0 then HeaderResult.ret1 1
      else if h < 0 then HeaderResult.ret1 1
      else if m < 0 ∨ m > 65535 then HeaderResult.ret1 1
      else HeaderResult.ok ⟨if mg = 51 then 3 else 6, w, h, m⟩ fp3 := by
  have hws := ((field_at_iff _ _ _).1 f1).1
  unfold load_image_header
  rw [read_magic mg fp0 hmg hws]
  have hv : magic_version [80, mg] = if mg = 51 then 3 else 6 := by
    rcases hmg with h | h <;> subst h <;> decide
  have hv0 : magic_version [80, mg] ≠ 0 := by
    rcases hmg with h | h <;> subst h <;> decide
  simp only [ne_eq, not_true_eq_false, if_false, hv0, read_field_at _ _ _ f1, aw,
    read_field_at _ _ _ f2, ah, read_field_at _ _ _ f3, am]
  rw [hv]

/-! ## The pixel loops as one loop over the samples -/

theorem pixel_loops_flat (sample : Nat → Nat → Nat → LoadState → Step LoadState)
    (w h : Nat) (s : LoadState) :
    pixel_loops sample (w : Int) (h : Int) s = for_loop (flat sample w) (h * (w * 3)) 0 s := by
  unfold pixel_loops
  simp only [Int.toNat_ofNat]
  rcases Nat.eq_zero_or_pos w with hw | hw
  · subst hw
    simp only [Nat.zero_mul, Nat.mul_zero]
    exact for_loop_skip _ _ _ _ (fun _ _ => rfl)
  · have inner : (fun i => for_loop (fun j => for_loop (fun k => sample i j k) 3 0) w 0) =
        (fun i => for_loop (fun t => sample i (t / 3) (t % 3)) (w * 3) 0) := by
      funext i s1
      have := for_loop_nest (fun j k => sample i j k) 3 w 0 s1 (by omega)
      simpa using this
    rw [inner]
    have := for_loop_nest (fun i t => sample i (t / 3) (t % 3)) (w * 3) h 0 s (by omega)
    simp only [Nat.zero_mul] at this
    exact this

theorem flat_index (w n : Nat) :
    n / (w * 3) * w + n % (w * 3) / 3 = n / 3 ∧ n % (w * 3) % 3 = n % 3 := by
  constructor
  · have h1 : n = 3 * (w * (n / (w * 3))) + n % (w * 3) := by
      have := Nat.div_add_mod n (w * 3)
      calc n = w * 3 * (n / (w * 3)) + n % (w * 3) := this.symm
        _ = 3 * (w * (n / (w * 3))) + n % (w * 3) := by ring
    have h2 : n / 3 = w * (n / (w * 3)) + n % (w * 3) / 3 := by
      conv_lhs => rw [h1]
      rw [Nat.mul_add_div (by omega)]
    rw [h2, Nat.mul_comm]
  · rw [Nat.mul_comm]
    exact Nat.mod_mul_right_mod n 3 w

/-- The store of sample `n`: pixel `n / 3`, channel `n % 3`. -/
theorem store_channel_flat (cells w n : Nat) (value : FloatVal) (pixmap : Nat → RGBpixel) :
    store_channel cells (w : Int) (n / (w * 3)) (n % (w * 3) / 3) (n % (w * 3) % 3) value pixmap =
      if n / 3 ≤ 2147483647 ∧ n / 3 < cells then
        some (Function.update pixmap (n / 3) (set_channel (n % 3) value (pixmap (n / 3))))
      else none := by
  obtain ⟨h1, h2⟩ := flat_index w n
  have hi : ((n / (w * 3) : Nat) : Int) * (w : Int) + ((n % (w * 3) / 3 : Nat) : Int) =
      ((n / 3 : Nat) : Int) := by
    rw [← h1]; push_cast; ring
  unfold store_channel
  simp only [hi, h2, INT_MIN, INT_MAX, Int.toNat_ofNat]
  by_cases hc : n / 3 ≤ 2147483647 ∧ n / 3 < cells
  · rw [if_pos hc, if_neg (by omega)]
  · rw [if_neg hc, if_pos (by omega)]

theorem filled_zero (val : Nat → FloatVal) : filled val 0 = fresh_pixmap := by
  funext idx
  simp [filled, fresh_pixmap]

theorem filled_succ (val : Nat → FloatVal) (n : Nat) (v : FloatVal) :
    Function.update (filled val n) (n / 3) (set_channel (n % 3) v (filled val n (n / 3))) =
      filled (Function.update val n v) (n + 1) := by
  funext idx
  have h3 : n % 3 = 0 ∨ n % 3 = 1 ∨ n % 3 = 2 := by omega
  by_cases hi : idx = n / 3
  · subst hi
    rw [Function.update_same]
    rcases h3 with h | h | h
    · have e : 3 * (n / 3) = n := by omega
      simp [filled, set_channel, h, e, Function.update]
    · have e : 3 * (n / 3) + 1 = n := by omega
      have e1 : 3 * (n / 3) < n := by omega
      have e2 : 3 * (n / 3) ≠ n := by omega
      have e5 : 3 * (n / 3) < n + 1 := by omega
      have e6 : ¬ (3 * (n / 3) + 2 < n) := by omega
      have e7 : ¬ (3 * (n / 3) + 2 < n + 1) := by omega
      simp [filled, set_channel, h, e, e1, e2, e5, e6, e7, Function.update]
    · have e : 3 * (n / 3) + 2 = n := by omega
      have e1 : 3 * (n / 3) < n := by omega
      have e2 : 3 * (n / 3) ≠ n := by omega
      have e3 : 3 * (n / 3) + 1 < n := by omega
      have e4 : 3 * (n / 3) + 1 ≠ n := by omega
      have e5 : 3 * (n / 3) < n + 1 := by omega
      have e6 : 3 * (n / 3) + 1 < n + 1 := by omega
      simp [filled, set_channel, h, e, e1, e2, e3, e4, e5, e6, Function.update]
  · rw [Function.update_noteq hi]
    have c0 : (3 * idx < n + 1 ↔ 3 * idx < n) ∧ 3 * idx ≠ n := by omega
    have c1 : (3 * idx + 1 < n + 1 ↔ 3 * idx + 1 < n) ∧ 3 * idx + 1 ≠ n := by omega
    have c2 : (3 * idx + 2 < n + 1 ↔ 3 * idx + 2 < n) ∧ 3 * idx + 2 ≠ n := by omega
    simp [filled, Function.update, c0.1, c0.2, c1.1, c1.2, c2.1, c2.2]

/-! ## The P3 path -/

theorem int_of_uint32_small (n : Nat) (h : n ≤ 2147483647) : int_of_uint32 n = (n : Int) := by
  unfold int_of_uint32
  rw [if_pos (by omega)]

theorem image_load_p3_flat (fp : FILE) (image : Image) (color_max : Int)
    (hw : image.width ≤ 2147483647) (hh : image.height ≤ 2147483647) :
    image_load_p3 fp image color_max =
      match for_loop (flat (p3_sample (malloc_cells image.width image.height) image.width
          color_max) image.width) (image.height * (image.width * 3)) 0 ⟨fp, fresh_pixmap⟩ with
      | Step.next s => some (0, { image with pixmap := s.pixmap })
      | Step.ret code s => some (code, { image with pixmap := s.pixmap })
      | Step.undef => none := by
  unfold image_load_p3
  simp only [int_of_uint32_small _ hw, int_of_uint32_small _ hh, pixel_loops_flat]

theorem image_load_p6_flat (fp : FILE) (image : Image) (color_max : Int)
    (hw : image.width ≤ 2147483647) (hh : image.height ≤ 2147483647) :
    image_load_p6 fp image color_max =
      match skip_whitespace fp with
      | none => some (1, { image with pixmap := fresh_pixmap })
      | some fp1 =>
        match for_loop (flat (p6_sample (malloc_cells image.width image.height) image.width
            color_max) image.width) (image.height * (image.width * 3)) 0 ⟨fp1, fresh_pixmap⟩ with
        | Step.next s => some (0, { image with pixmap := s.pixmap })
        | Step.ret code s => some (code, { image with pixmap := s.pixmap })
        | Step.undef => none := by
  unfold image_load_p6
  simp only [int_of_uint32_small _ hw, int_of_uint32_small _ hh, pixel_loops_flat]

theorem malloc_cells_small (w h : Nat) (hs : w * h ≤ 2147483647) :
    malloc_cells (w : Int) (h : Int) = w * h := by
  unfold malloc_cells
  rcases Nat.eq_zero_or_pos w with hw | hw
  · subst hw; simp
  rcases Nat.eq_zero_or_pos h with hh | hh
  · subst hh; simp
  have h1 : w ≤ w * h := Nat.le_mul_of_pos_right w hh
  have h2 : h ≤ w * h := Nat.le_mul_of_pos_left h hw
  have e1 : (w : Int) % 18446744073709551616 = w := Int.emod_eq_of_lt (by omega) (by omega)
  have e2 : (h : Int) % 18446744073709551616 = h := Int.emod_eq_of_lt (by omega) (by omega)
  have e3 : (12 * (w : Int) * (h : Int)) = ((12 * (w * h) : Nat) : Int) := by push_cast; ring
  rw [e1, e2, e3]
  have e4 : ((12 * (w * h) : Nat) : Int) % 18446744073709551616 = ((12 * (w * h) : Nat) : Int) :=
    Int.emod_eq_of_lt (by omega) (by omega)
  rw [e4]
  have e5 : ((12 * (w * h) : Nat) : Int) / 12 = ((w * h : Nat) : Int) := by
    push_cast
    rw [Int.mul_ediv_cancel_left _ (by norm_num)]
  rw [e5, Int.toNat_ofNat]

/-- One sample of the P3 body: separator, decimal token, whitespace behind it. -/
theorem p3_flat_token (cells w : Nat) (m : Nat) (n : Nat) (p : List Nat × List Nat) (rest : FILE)
    (pixmap : Nat → RGBpixel) (hm : m ≤ 65535) (hp : p3_sample_ok m p = true)
    (hr : ws_next rest = true) (hi : n / 3 ≤ 2147483647 ∧ n / 3 < cells) :
    flat (p3_sample cells (w : Int) (m : Int)) w n ⟨p.1 ++ (p.2 ++ rest), pixmap⟩ =
      Step.next ⟨rest, Function.update pixmap (n / 3)
        (set_channel (n % 3) (fdiv (digits_value p.2 : Int) (m : Int)) (pixmap (n / 3)))⟩ := by
  obtain ⟨sep, tok⟩ := p
  simp only [p3_sample_ok, Bool.and_eq_true, decide_eq_true_eq] at hp
  obtain ⟨⟨⟨hsep, htok⟩, hlen⟩, hval⟩ := hp
  have htk := token_of_decimal tok htok
  simp only [token, Bool.and_eq_true] at htk
  simp only [blank, Bool.and_eq_true] at hsep
  have hskip : skip_whitespace (sep ++ (tok ++ rest)) = some (tok ++ rest) := by
    cases tok with
    | nil => simp [decimal] at htok
    | cons d tok =>
      simp only [decimal, List.isEmpty_cons, Bool.not_false, Bool.true_and, List.all_cons,
        Bool.and_eq_true] at htok
      have hd : 48 ≤ d ∧ d ≤ 57 := by simpa [isdigit] using htok.1
      have hdw : is_whitespace d = false := by
        simp only [is_whitespace, Bool.or_eq_false_iff, beq_eq_false_iff_ne]
        omega
      exact skip_whitespace_blank sep d (tok ++ rest) hsep.2 hdw (by omega)
  have hne : 0 < tok.length := by
    cases tok with
    | nil => simp at htk
    | cons a t => simp
  unfold flat p3_sample
  simp only [hskip, read_to_whitespace_ws_next tok rest htk.2 hr hlen,
    atoi_decimal tok htok (by omega), store_channel_flat, hi, and_self, if_true]
  rw [if_neg (by omega), if_neg (by omega), if_neg (by omega)]

theorem ws_next_p3_body (m : Nat) (toks : List (List Nat × List Nat)) (rest : FILE)
    (hall : toks.all (p3_sample_ok m) = true) (hr : ws_next rest = true) :
    ws_next (p3_body toks rest) = true := by
  cases toks with
  | nil => exact hr
  | cons p l =>
    simp only [List.all_cons, Bool.and_eq_true, p3_sample_ok, blank, decide_eq_true_eq] at hall
    obtain ⟨⟨⟨⟨⟨h1, h2⟩, _⟩, _⟩, _⟩, _⟩ := hall
    cases hp : p.1 with
    | nil => rw [hp] at h1; simp at h1
    | cons c sep =>
      rw [hp] at h2
      simp only [List.all_cons, Bool.and_eq_true] at h2
      simp only [p3_body, hp, List.cons_append, ws_next, h2.1]

/-- The loop over a well-formed P3 body: it runs to the end, leaves the stream behind the
last token and stores sample `t` as `value / maxval`. -/
theorem p3_loop_body (cells w m : Nat) (hm : m ≤ 65535) (rest : FILE) (hr : ws_next rest = true) :
    ∀ (toks : List (List Nat × List Nat)) (n : Nat) (val : Nat → FloatVal),
      toks.all (p3_sample_ok m) = true →
      (n + toks.length) ≤ 3 * cells → cells ≤ 2147483647 →
      ∃ val1, for_loop (flat (p3_sample cells (w : Int) (m : Int)) w) toks.length n
          ⟨p3_body toks rest, filled val n⟩ = Step.next ⟨rest, filled val1 (n + toks.length)⟩ ∧
        (∀ t, t < n → val1 t = val t) ∧
        (∀ i, i < toks.length → val1 (n + i) = fdiv (p3_value toks i : Int) (m : Int)) := by
  intro toks
  induction toks with
  | nil =>
    intro n val _ _ _
    exact ⟨val, rfl, fun _ _ => rfl, fun i hi => absurd hi (by simp)⟩
  | cons p l ih =>
    intro n val hall hn hc
    have hall1 := hall
    simp only [List.all_cons, Bool.and_eq_true] at hall1
    have hr1 := ws_next_p3_body m l rest hall1.2 hr
    simp only [List.length_cons] at hn
    simp only [List.length_cons, for_loop, p3_body]
    rw [p3_flat_token cells w m n p _ _ hm hall1.1 hr1 (by omega), filled_succ]
    simp only []
    obtain ⟨val1, h1, h2, h3⟩ := ih (n + 1)
      (Function.update val n (fdiv (digits_value p.2 : Int) (m : Int))) hall1.2 (by omega) hc
    refine ⟨val1, ?_, ?_, ?_⟩
    · rw [h1]
      have : n + 1 + l.length = n + (l.length + 1) := by omega
      rw [this]
    · intro t ht
      rw [h2 t (by omega), Function.update_noteq (by omega)]
    · intro i hi
      cases i with
      | zero =>
        rw [Nat.add_zero, h2 n (by omega), Function.update_same]
        simp [p3_value]
      | succ i =>
        have := h3 i (by omega)
        have e : n + (i + 1) = n + 1 + i := by omega
        rw [e, this]
        simp [p3_value]

theorem field_at_blank (sep tok : List Nat) (rest : FILE) (hs : blank sep = true)
    (ht : decimal tok = true) (hl : tok.length ≤ 1023) (hr : ws_next rest = true) :
    field_at (sep ++ (tok ++ rest)) tok rest = true := by
  rw [field_at_iff]
  simp only [blank, Bool.and_eq_true] at hs
  refine ⟨?_, ?_, token_of_decimal tok ht, hl, hr⟩
  · cases sep with
    | nil => simp at hs
    | cons c sep =>
      simp only [List.all_cons, Bool.and_eq_true] at hs
      simp only [List.cons_append, ws_next, hs.2.1]
  · cases tok with
    | nil => simp [decimal] at ht
    | cons d tok =>
      simp only [decimal, List.isEmpty_cons, Bool.not_false, Bool.true_and, List.all_cons,
        Bool.and_eq_true] at ht
      have hd : 48 ≤ d ∧ d ≤ 57 := by simpa [isdigit] using ht.1
      have hdw : is_whitespace d = false := by
        simp only [is_whitespace, Bool.or_eq_false_iff, beq_eq_false_iff_ne]
        omega
      exact skip_whitespace_blank sep d (tok ++ rest) hs.2 hdw (by omega)

theorem ws_next_blank_append (sep : List Nat) (rest : FILE) (hs : blank sep = true) :
    ws_next (sep ++ rest) = true := by
  simp only [blank, Bool.and_eq_true] at hs
  cases sep with
  | nil => simp at hs
  | cons c sep =>
    simp only [List.all_cons, Bool.and_eq_true] at hs
    simp only [List.cons_append, ws_next, hs.2.1]

/-- The header `P3`/`P6`, width, height, maxval written as decimal tokens that are
separated by runs of whitespace. -/
theorem load_image_header_decimal (mg : Nat) (s1 wtok s2 htok s3 mtok : List Nat) (rest : FILE)
    (hmg : mg = 51 ∨ mg = 54)
    (hs1 : blank s1 = true) (hs2 : blank s2 = true) (hs3 : blank s3 = true)
    (hw : decimal wtok = true) (hh : decimal htok = true) (hm : decimal mtok = true)
    (hwl : wtok.length ≤ 1023) (hhl : htok.length ≤ 1023) (hml : mtok.length ≤ 1023)
    (hwv : digits_value wtok ≤ 2147483647) (hhv : digits_value htok ≤ 2147483647)
    (hmv : digits_value mtok ≤ 65535) (hr : ws_next rest = true) :
    load_image_header (80 :: mg :: (s1 ++ (wtok ++ (s2 ++ (htok ++ (s3 ++ (mtok ++ rest))))))) =
      HeaderResult.ok ⟨if mg = 51 then 3 else 6, (digits_value wtok : Int),
        (digits_value htok : Int), (digits_value mtok : Int)⟩ rest := by
  have f3 := field_at_blank s3 mtok rest hs3 hm hml hr
  have f2 := field_at_blank s2 htok _ hs2 hh hhl (ws_next_blank_append s3 (mtok ++ rest) hs3)
  have f1 := field_at_blank s1 wtok _ hs1 hw hwl
    (ws_next_blank_append s2 (htok ++ (s3 ++ (mtok ++ rest))) hs2)
  rw [load_image_header_fields mg _ _ _ _ wtok htok mtok _ _ _ hmg f1 f2 f3
    (atoi_decimal wtok hw hwv) (atoi_decimal htok hh hhv) (atoi_decimal mtok hm (by omega))]
  rw [if_neg (by omega), if_neg (by omega), if_neg (by omega)]

theorem index_lt (w h r c : Nat) (hr : r < h) (hc : c < w) : r * w + c < w * h := by
  calc r * w + c < r * w + w := by omega
    _ = (r + 1) * w := by ring
    _ ≤ h * w := Nat.mul_le_mul_right w hr
    _ = w * h := Nat.mul_comm h w

theorem fdiv_pos (x m : Int) (hm : m ≠ 0) : fdiv x m = FloatVal.fin ((x : ℚ) / (m : ℚ)) := by
  unfold fdiv
  rw [if_neg hm]

/-- The P3 decoder on a well-formed stream: the call returns 0 after one `fclose`, and
the pixel buffer holds sample `t` as `value / maxval`. -/
theorem p3_decode_filled (image_ptr : Image) (s1 wtok s2 htok s3 mtok : List Nat)
    (toks : List (List Nat × List Nat)) (c : Nat) (rest : FILE) (w h m : Nat)
    (hs1 : blank s1 = true) (hs2 : blank s2 = true) (hs3 : blank s3 = true)
    (hw : decimal wtok = true) (hh : decimal htok = true) (hm : decimal mtok = true)
    (hwl : wtok.length ≤ 1023) (hhl : htok.length ≤ 1023) (hml : mtok.length ≤ 1023)
    (hwv : digits_value wtok = w) (hhv : digits_value htok = h) (hmv : digits_value mtok = m)
    (hwb : w ≤ 2147483647) (hhb : h ≤ 2147483647) (hsize : w * h ≤ 2147483647)
    (hm2 : m ≤ 65535)
    (hlen : toks.length = 3 * (w * h)) (htoks : toks.all (p3_sample_ok m) = true)
    (hc : is_whitespace c = true) :
    ∃ val1, load_image image_ptr (some (80 :: 51 :: (s1 ++ (wtok ++ (s2 ++ (htok ++
          (s3 ++ (mtok ++ p3_body toks (c :: rest))))))))) =
        some ⟨0, ⟨w, h, filled val1 (3 * (w * h))⟩, 1⟩ ∧
      ∀ i, i < 3 * (w * h) → val1 i = fdiv (p3_value toks i : Int) (m : Int) := by
  subst hwv hhv hmv
  have hcr : ws_next (c :: rest) = true := by simp [ws_next, hc]
  have hbody := ws_next_p3_body _ toks (c :: rest) htoks hcr
  have hhd := load_image_header_decimal 51 s1 wtok s2 htok s3 mtok _ (Or.inl rfl)
    hs1 hs2 hs3 hw hh hm hwl hhl hml hwb hhb hm2 hbody
  obtain ⟨val1, h1, _, h3⟩ := p3_loop_body (digits_value wtok * digits_value htok)
    (digits_value wtok) (digits_value mtok) hm2 (c :: rest) hcr toks 0
    (fun _ => FloatVal.nan) htoks (by omega) hsize
  rw [filled_zero, Nat.zero_add, hlen] at h1
  have e1 : digits_value htok * (digits_value wtok * 3) =
      3 * (digits_value wtok * digits_value htok) := by ring
  rw [hlen] at h3
  unfold load_image
  simp only [hhd, if_true, Int.toNat_ofNat]
  rw [image_load_p3_flat _ _ _ hwb hhb]
  simp only [malloc_cells_small _ _ hsize, e1, h1, Option.map_some']
  refine ⟨val1, rfl, fun i hi => ?_⟩
  have := h3 i hi
  rw [Nat.zero_add] at this
  exact this

/-- C1 (amended): the P3 decoder is the row-major reference.  For a width `w` and a height
`h` with `w`, `h` and `w * h` at most `INT_MAX`, a maxval `1 ≤ m ≤ 65535`, all written as
decimal tokens after the magic `P3`, and `3*w*h` decimal sample tokens with values in
`[0, m]`, each token preceded by whitespace and the last token of the stream (the maxval
itself when there are no samples) followed by a whitespace byte, `load_image` returns 0
with width `w`, height `h`, and pixel `r*w + c` holds the samples `3i`, `3i+1`, `3i+2`
(`i = r*w + c`) divided by `m`. -/
theorem p3_decode_row_major (image_ptr : Image) (s1 wtok s2 htok s3 mtok : List Nat)
    (toks : List (List Nat × List Nat)) (c : Nat) (rest : FILE) (w h m : Nat)
    (hs1 : blank s1 = true) (hs2 : blank s2 = true) (hs3 : blank s3 = true)
    (hw : decimal wtok = true) (hh : decimal htok = true) (hm : decimal mtok = true)
    (hwl : wtok.length ≤ 1023) (hhl : htok.length ≤ 1023) (hml : mtok.length ≤ 1023)
    (hwv : digits_value wtok = w) (hhv : digits_value htok = h) (hmv : digits_value mtok = m)
    (hwb : w ≤ 2147483647) (hhb : h ≤ 2147483647) (hsize : w * h ≤ 2147483647)
    (hm1 : 1 ≤ m) (hm2 : m ≤ 65535)
    (hlen : toks.length = 3 * (w * h)) (htoks : toks.all (p3_sample_ok m) = true)
    (hc : is_whitespace c = true) :
    ∃ out, load_image image_ptr (some (80 :: 51 :: (s1 ++ (wtok ++ (s2 ++ (htok ++
          (s3 ++ (mtok ++ p3_body toks (c :: rest))))))))) = some out ∧
      out.ret = 0 ∧ out.fcloses = 1 ∧ out.image.width = w ∧ out.image.height = h ∧
      ∀ r col, r < h → col < w →
        out.image.pixmap (r * w + col) =
          ⟨some (FloatVal.fin ((p3_value toks (3 * (r * w + col)) : ℚ) / (m : ℚ))),
           some (FloatVal.fin ((p3_value toks (3 * (r * w + col) + 1) : ℚ) / (m : ℚ))),
           some (FloatVal.fin ((p3_value toks (3 * (r * w + col) + 2) : ℚ) / (m : ℚ)))⟩ := by
  obtain ⟨val1, hload, hval⟩ := p3_decode_filled image_ptr s1 wtok s2 htok s3 mtok toks c rest
    w h m hs1 hs2 hs3 hw hh hm hwl hhl hml hwv hhv hmv hwb hhb hsize hm2 hlen htoks hc
  refine ⟨_, hload, rfl, rfl, rfl, rfl, ?_⟩
  intro r col hr hcol
  have hi := index_lt _ _ r col hr hcol
  have hmne : ((m : Nat) : Int) ≠ 0 := by omega
  simp only [filled]
  rw [if_pos (by omega), if_pos (by omega), if_pos (by omega)]
  rw [hval _ (by omega), hval _ (by omega), hval _ (by omega),
    fdiv_pos _ _ hmne, fdiv_pos _ _ hmne, fdiv_pos _ _ hmne]
  simp

/-- C1 (witness): the stream `"P3\n1 1\n255\n255 0 0\n"` decodes to the 1x1 image whose
single pixel is `(1, 0, 0)`. -/
theorem p3_decode_row_major_witness :
    ∃ out, load_image uninit_image (some (bytes "P3\n1 1\n255\n255 0 0\n")) = some out ∧
      out.ret = 0 ∧ out.fcloses = 1 ∧ out.image.width = 1 ∧ out.image.height = 1 ∧
      out.image.pixmap 0 =
        ⟨some (FloatVal.fin 1), some (FloatVal.fin 0), some (FloatVal.fin 0)⟩ := by
  obtain ⟨out, h1, h2, h3, h4, h5, h6⟩ :=
    p3_decode_row_major uninit_image [10] [49] [32] [49] [10] [50, 53, 53]
      [([10], [50, 53, 53]), ([32], [48]), ([32], [48])] 10 [] 1 1 255
      (by decide) (by decide) (by decide) (by decide) (by decide) (by decide)
      (by decide) (by decide) (by decide) (by decide) (by decide) (by decide)
      (by decide) (by decide) (by decide) (by decide) (by decide) (by decide) (by decide)
      (by decide)
  refine ⟨out, h1, h2, h3, h4, h5, ?_⟩
  have h7 := h6 0 0 (by decide) (by decide)
  have v0 : p3_value [([10], [50, 53, 53]), ([32], [48]), ([32], [48])] 0 = 255 := by decide
  have v1 : p3_value [([10], [50, 53, 53]), ([32], [48]), ([32], [48])] 1 = 0 := by decide
  have v2 : p3_value [([10], [50, 53, 53]), ([32], [48]), ([32], [48])] 2 = 0 := by decide
  simp only [Nat.zero_mul, Nat.add_zero, Nat.mul_zero, Nat.zero_add, v0, v1, v2] at h7
  rw [h7]
  norm_num

/-- C1 (counterexample): with width 0 and height 0 there are no sample tokens, the stream
is `"P3 0 0 255"`, and `load_image` returns 1: the maxval token is cut off by the end of
the stream.  With width 2147483648 (and height 0) the stream is `"P3 2147483648 0 255"`
and the call does not succeed either: the width is not representable in the `int` that
`atoi` returns. -/
theorem p3_no_samples_fails :
    (load_image uninit_image (some (bytes "P3 0 0 255"))).map (fun out => out.ret) = some 1 ∧
    (load_image uninit_image (some (bytes "P3 2147483648 0 255"))).isNone = true := by
  decide

/-! ## The P6 path -/

theorem ldiff_eq_xor_land (n m : Nat) : Nat.ldiff n m = n ^^^ (n &&& m) := by
  apply Nat.eq_of_testBit_eq
  intro i
  rw [Nat.testBit_ldiff, Nat.testBit_xor, Nat.testBit_land]
  cases n.testBit i <;> cases m.testBit i <;> rfl

theorem to_char_neg (b : Nat) (h1 : 128 ≤ b) (h2 : b < 256) :
    to_char b = Int.negSucc (255 - b) := by
  unfold to_char
  rw [if_neg (by omega), Int.negSucc_eq]
  omega

/-- The expression `buffer[0] & 0xFF` is the byte read, also for a negative `char`. -/
theorem sample8_eq (b : Nat) (hb : b < 256) : sample8 b = (b : Int) := by
  unfold sample8
  by_cases h : b < 128
  · have : to_char b = (b : Int) := by unfold to_char; rw [if_pos h]
    rw [this]
    show ((b &&& 255 : Nat) : Int) = _
    congr 1
    interval_cases b <;> rfl
  · rw [to_char_neg b (by omega) hb]
    show ((Nat.ldiff 255 (255 - b) : Nat) : Int) = _
    rw [ldiff_eq_xor_land]
    congr 1
    interval_cases b <;> rfl

theorem sample16_high (b : Nat) (hb : b < 256) :
    Int.land (to_char b <<< (8 : Int)) 65280 = ((2 ^ 8 * b : Nat) : Int) := by
  by_cases h : b < 128
  · have : to_char b = (b : Int) := by unfold to_char; rw [if_pos h]
    rw [this]
    show ((Nat.shiftLeft' false b 8 &&& 65280 : Nat) : Int) = _
    congr 1
    interval_cases b <;> rfl
  · rw [to_char_neg b (by omega) hb]
    show ((Nat.ldiff 65280 (Nat.shiftLeft' true (255 - b) 8) : Nat) : Int) = _
    rw [ldiff_eq_xor_land]
    congr 1
    interval_cases b <;> rfl

/-- The expression `((buffer[0] << 8) & 0xFF00) | (buffer[1] & 0xFF)` is the big-endian
value of the two bytes read. -/
theorem sample16_eq (b0 b1 : Nat) (h0 : b0 < 256) (h1 : b1 < 256) :
    sample16 b0 b1 = ((b0 * 256 + b1 : Nat) : Int) := by
  unfold sample16
  have hlo : Int.land (to_char b1) 255 = (b1 : Int) := sample8_eq b1 h1
  rw [sample16_high b0 h0, hlo]
  have : (2 ^ 8 * b0 ||| b1) = 2 ^ 8 * b0 + b1 :=
    (Nat.mul_add_lt_is_or (by omega) b0).symm
  show ((2 ^ 8 * b0 ||| b1 : Nat) : Int) = _
  rw [this]
  congr 1
  omega

theorem p6_flat_byte (cells w n b0 : Nat) (m : Int) (fp : FILE) (pixmap : Nat → RGBpixel)
    (hm : m < 256) (hb : b0 < 256) (hi : n / 3 ≤ 2147483647 ∧ n / 3 < cells) :
    flat (p6_sample cells (w : Int) m) w n ⟨b0 :: fp, pixmap⟩ =
      Step.next ⟨fp, Function.update pixmap (n / 3)
        (set_channel (n % 3) (fdiv (b0 : Int) m) (pixmap (n / 3)))⟩ := by
  unfold flat p6_sample
  simp only [hm, if_true, store_channel_flat, hi, and_self, sample8_eq b0 hb]

theorem p6_flat_word (cells w n b0 b1 : Nat) (m : Int) (fp : FILE) (pixmap : Nat → RGBpixel)
    (hm : ¬ m < 256) (h0 : b0 < 256) (h1 : b1 < 256)
    (hi : n / 3 ≤ 2147483647 ∧ n / 3 < cells) :
    flat (p6_sample cells (w : Int) m) w n ⟨b0 :: b1 :: fp, pixmap⟩ =
      Step.next ⟨fp, Function.update pixmap (n / 3)
        (set_channel (n % 3) (fdiv ((b0 * 256 + b1 : Nat) : Int) m) (pixmap (n / 3)))⟩ := by
  unfold flat p6_sample
  simp only [hm, if_false, store_channel_flat, hi, and_self, if_true, sample16_eq b0 b1 h0 h1]

/-- The loop over a raw body of one-byte samples. -/
theorem p6_loop_bytes (cells w : Nat) (m : Int) (hm : m < 256) (rest : FILE) :
    ∀ (body : List Nat) (n : Nat) (val : Nat → FloatVal),
      (∀ b ∈ body, b < 256) → n + body.length ≤ 3 * cells → cells ≤ 2147483647 →
      ∃ val1, for_loop (flat (p6_sample cells (w : Int) m) w) body.length n
          ⟨body ++ rest, filled val n⟩ = Step.next ⟨rest, filled val1 (n + body.length)⟩ ∧
        (∀ t, t < n → val1 t = val t) ∧
        (∀ i, i < body.length → val1 (n + i) = fdiv (body.getD i 0 : Int) m) := by
  intro body
  induction body with
  | nil =>
    intro n val _ _ _
    exact ⟨val, rfl, fun _ _ => rfl, fun i hi => absurd hi (by simp)⟩
  | cons b0 body ih =>
    intro n val hall hn hc
    simp only [List.length_cons] at hn
    have hb0 : b0 < 256 := hall b0 (by simp)
    simp only [List.length_cons, for_loop, List.cons_append]
    rw [p6_flat_byte cells w n b0 m _ _ hm hb0 (by omega), filled_succ]
    simp only []
    obtain ⟨val1, h1, h2, h3⟩ := ih (n + 1) (Function.update val n (fdiv (b0 : Int) m))
      (fun b hb => hall b (by simp [hb])) (by omega) hc
    refine ⟨val1, ?_, ?_, ?_⟩
    · rw [h1]
      have : n + 1 + body.length = n + (body.length + 1) := by omega
      rw [this]
    · intro t ht
      rw [h2 t (by omega), Function.update_noteq (by omega)]
    · intro i hi
      cases i with
      | zero =>
        rw [Nat.add_zero, h2 n (by omega), Function.update_same]
        simp
      | succ i =>
        have := h3 i (by omega)
        have e : n + (i + 1) = n + 1 + i := by omega
        rw [e, this]
        simp

/-- The loop over a raw body of two-byte samples. -/
theorem p6_loop_words (cells w : Nat) (m : Int) (hm : ¬ m < 256) (rest : FILE) :
    ∀ (k : Nat) (body : List Nat) (n : Nat) (val : Nat → FloatVal),
      body.length = 2 * k →
      (∀ b ∈ body, b < 256) → n + k ≤ 3 * cells → cells ≤ 2147483647 →
      ∃ val1, for_loop (flat (p6_sample cells (w : Int) m) w) k n
          ⟨body ++ rest, filled val n⟩ = Step.next ⟨rest, filled val1 (n + k)⟩ ∧
        (∀ t, t < n → val1 t = val t) ∧
        (∀ i, i < k → val1 (n + i) =
          fdiv ((body.getD (2 * i) 0 * 256 + body.getD (2 * i + 1) 0 : Nat) : Int) m) := by
  intro k
  induction k with
  | zero =>
    intro body n val hl _ _ _
    have : body = [] := List.length_eq_zero.mp (by omega)
    subst this
    exact ⟨val, rfl, fun _ _ => rfl, fun i hi => absurd hi (by simp)⟩
  | succ k ih =>
    intro body n val hl hall hn hc
    match body, hl, hall with
    | [], hl, _ => simp at hl
    | [_], hl, _ => simp at hl; omega
    | b0 :: b1 :: body, hl, hall =>
      simp only [List.length_cons] at hl
      have hb0 : b0 < 256 := hall b0 (by simp)
      have hb1 : b1 < 256 := hall b1 (by simp)
      simp only [for_loop, List.cons_append]
      rw [p6_flat_word cells w n b0 b1 m _ _ hm hb0 hb1 (by omega), filled_succ]
      simp only []
      obtain ⟨val1, h1, h2, h3⟩ := ih body (n + 1)
        (Function.update val n (fdiv ((b0 * 256 + b1 : Nat) : Int) m)) (by omega)
        (fun b hb => hall b (by simp [hb])) (by omega) hc
      refine ⟨val1, ?_, ?_, ?_⟩
      · rw [h1]
        have : n + 1 + k = n + (k + 1) := by omega
        rw [this]
      · intro t ht
        rw [h2 t (by omega), Function.update_noteq (by omega)]
      · intro i hi
        cases i with
        | zero =>
          rw [Nat.add_zero, h2 n (by omega), Function.update_same]
          simp
        | succ i =>
          have := h3 i (by omega)
          have e : n + (i + 1) = n + 1 + i := by omega
          rw [e, this]
          have e1 : 2 * (i + 1) = 2 * i + 1 + 1 := by omega
          rw [e1]
          simp

/-- The single `skip_whitespace` call of `image_load_p6` consumes exactly the separator
byte when the byte behind it is one at which the skipper stops. -/
theorem skip_whitespace_sep (sep : Nat) (fp : FILE) (hs : is_whitespace sep = true)
    (hb : body_start_ok sep fp = true) : skip_whitespace (sep :: fp) = some fp := by
  cases fp with
  | nil => simp [body_start_ok] at hb
  | cons d tail =>
    simp only [body_start_ok, Bool.and_eq_true, Bool.not_eq_true', Bool.and_eq_false_iff,
      beq_eq_false_iff_ne] at hb
    obtain ⟨hd, hd1⟩ := hb
    have hdn : is_newline d = false := by
      cases h : is_newline d with
      | false => rfl
      | true => rw [newline_is_whitespace d h] at hd; exact absurd hd (by simp)
    have hstop : skip_whitespace (d :: tail) = some (d :: tail) := by
      simp [skip_whitespace_cons, hdn, hd]
    rw [skip_whitespace_cons]
    cases hn : is_newline sep with
    | false => simp only [Bool.false_eq_true, if_false, hs, if_true, hstop]
    | true =>
      have hne : d ≠ 35 := by
        rcases hd1 with h | h
        · rw [hn] at h; exact absurd h (by simp)
        · exact h
      have : skip_comments (d :: tail) = some (d :: tail) := by
        simp [skip_comments, skip_comments_loop, hne]
      simp only [if_true, this, hs, hstop]

/-- The loop over a raw P6 body of `count` samples. -/
theorem p6_loop_body (cells w m count : Nat) (body rest : FILE)
    (hl : body.length = count * (if m < 256 then 1 else 2))
    (hall : ∀ b ∈ body, b < 256) (hn : count ≤ 3 * cells) (hc : cells ≤ 2147483647) :
    ∃ val1, for_loop (flat (p6_sample cells (w : Int) (m : Int)) w) count 0
        ⟨body ++ rest, fresh_pixmap⟩ = Step.next ⟨rest, filled val1 count⟩ ∧
      (∀ i, i < count → val1 i = fdiv (p6_value m body i : Int) (m : Int)) := by
  by_cases hm : m < 256
  · rw [if_pos hm, Nat.mul_one] at hl
    obtain ⟨val1, h1, _, h3⟩ := p6_loop_bytes cells w (m : Int) (by omega) rest body 0
      (fun _ => FloatVal.nan) hall (by omega) hc
    rw [filled_zero, Nat.zero_add, hl] at h1
    refine ⟨val1, h1, fun i hi => ?_⟩
    have := h3 i (by omega)
    rw [Nat.zero_add] at this
    rw [this]
    simp [p6_value, hm]
  · rw [if_neg hm] at hl
    obtain ⟨val1, h1, _, h3⟩ := p6_loop_words cells w (m : Int) (by omega) rest count body 0
      (fun _ => FloatVal.nan) (by omega) hall (by omega) hc
    rw [filled_zero, Nat.zero_add] at h1
    refine ⟨val1, h1, fun i hi => ?_⟩
    have := h3 i hi
    rw [Nat.zero_add] at this
    rw [this]
    simp [p6_value, hm]

/-- The P6 decoder on a stream whose raw body starts where `skip_whitespace` stops: the
call returns 0 after one `fclose`, and the pixel buffer holds sample `t` as
`raw value / maxval`. -/
theorem p6_decode_filled (image_ptr : Image) (s1 wtok s2 htok s3 mtok : List Nat)
    (sep : Nat) (body rest : FILE) (w h m : Nat)
    (hs1 : blank s1 = true) (hs2 : blank s2 = true) (hs3 : blank s3 = true)
    (hw : decimal wtok = true) (hh : decimal htok = true) (hm : decimal mtok = true)
    (hwl : wtok.length ≤ 1023) (hhl : htok.length ≤ 1023) (hml : mtok.length ≤ 1023)
    (hwv : digits_value wtok = w) (hhv : digits_value htok = h) (hmv : digits_value mtok = m)
    (hwb : w ≤ 2147483647) (hhb : h ≤ 2147483647) (hsize : w * h ≤ 2147483647)
    (hm2 : m ≤ 65535)
    (hsep : is_whitespace sep = true)
    (hlen : body.length = 3 * (w * h) * (if m < 256 then 1 else 2))
    (hbytes : ∀ b ∈ body, b < 256)
    (hstart : body_start_ok sep (body ++ rest) = true) :
    ∃ val1, load_image image_ptr (some (80 :: 54 :: (s1 ++ (wtok ++ (s2 ++ (htok ++
          (s3 ++ (mtok ++ sep :: (body ++ rest))))))))) =
        some ⟨0, ⟨w, h, filled val1 (3 * (w * h))⟩, 1⟩ ∧
      ∀ i, i < 3 * (w * h) → val1 i = fdiv (p6_value m body i : Int) (m : Int) := by
  subst hwv hhv hmv
  have hcr : ws_next (sep :: (body ++ rest)) = true := by simp [ws_next, hsep]
  have hhd := load_image_header_decimal 54 s1 wtok s2 htok s3 mtok _ (Or.inr rfl)
    hs1 hs2 hs3 hw hh hm hwl hhl hml hwb hhb hm2 hcr
  obtain ⟨val1, h1, h3⟩ := p6_loop_body (digits_value wtok * digits_value htok)
    (digits_value wtok) (digits_value mtok) (3 * (digits_value wtok * digits_value htok))
    body rest hlen hbytes (by omega) hsize
  have e1 : digits_value htok * (digits_value wtok * 3) =
      3 * (digits_value wtok * digits_value htok) := by ring
  unfold load_image
  simp only [hhd]
  rw [if_neg (by decide)]
  simp only [Int.toNat_ofNat]
  rw [image_load_p6_flat _ _ _ hwb hhb]
  simp only [skip_whitespace_sep sep _ hsep hstart, malloc_cells_small _ _ hsize, e1, h1,
    Option.map_some']
  exact ⟨val1, rfl, h3⟩

/-- C2 (amended): the P6 decoder reads the raw body behind the separator byte, provided
`skip_whitespace` stops there.  For a width `w` and a height `h` with `w`, `h` and `w * h`
at most `INT_MAX`, a maxval `1 ≤ m ≤ 65535`, all written as decimal tokens after the magic
`P6`, one whitespace byte `sep` and a body of exactly `3*w*h*bps` bytes (`bps = 1` if
`m < 256`, else 2) such that the stream behind `sep` starts with a byte that is not
space, tab, CR or LF and, when `sep` is CR or LF, not `#`: `load_image` returns 0 with
width `w`, height `h`, and channel `n` (row-major, R, G, B) is `body[n] / m` when
`m < 256` and `(body[2n]*256 + body[2n+1]) / m` otherwise. -/
theorem p6_decode_raw (image_ptr : Image) (s1 wtok s2 htok s3 mtok : List Nat)
    (sep : Nat) (body rest : FILE) (w h m : Nat)
    (hs1 : blank s1 = true) (hs2 : blank s2 = true) (hs3 : blank s3 = true)
    (hw : decimal wtok = true) (hh : decimal htok = true) (hm : decimal mtok = true)
    (hwl : wtok.length ≤ 1023) (hhl : htok.length ≤ 1023) (hml : mtok.length ≤ 1023)
    (hwv : digits_value wtok = w) (hhv : digits_value htok = h) (hmv : digits_value mtok = m)
    (hwb : w ≤ 2147483647) (hhb : h ≤ 2147483647) (hsize : w * h ≤ 2147483647)
    (hm1 : 1 ≤ m) (hm2 : m ≤ 65535)
    (hsep : is_whitespace sep = true)
    (hlen : body.length = 3 * (w * h) * (if m < 256 then 1 else 2))
    (hbytes : ∀ b ∈ body, b < 256)
    (hstart : body_start_ok sep (body ++ rest) = true) :
    ∃ out, load_image image_ptr (some (80 :: 54 :: (s1 ++ (wtok ++ (s2 ++ (htok ++
          (s3 ++ (mtok ++ sep :: (body ++ rest))))))))) = some out ∧
      out.ret = 0 ∧ out.fcloses = 1 ∧ out.image.width = w ∧ out.image.height = h ∧
      ∀ r col, r < h → col < w →
        out.image.pixmap (r * w + col) =
          ⟨some (FloatVal.fin ((p6_value m body (3 * (r * w + col)) : ℚ) / (m : ℚ))),
           some (FloatVal.fin ((p6_value m body (3 * (r * w + col) + 1) : ℚ) / (m : ℚ))),
           some (FloatVal.fin ((p6_value m body (3 * (r * w + col) + 2) : ℚ) / (m : ℚ)))⟩ := by
  obtain ⟨val1, hload, hval⟩ := p6_decode_filled image_ptr s1 wtok s2 htok s3 mtok sep body rest
    w h m hs1 hs2 hs3 hw hh hm hwl hhl hml hwv hhv hmv hwb hhb hsize hm2 hsep hlen hbytes hstart
  refine ⟨_, hload, rfl, rfl, rfl, rfl, ?_⟩
  intro r col hr hcol
  have hi := index_lt _ _ r col hr hcol
  have hmne : ((m : Nat) : Int) ≠ 0 := by omega
  simp only [filled]
  rw [if_pos (by omega), if_pos (by omega), if_pos (by omega)]
  rw [hval _ (by omega), hval _ (by omega), hval _ (by omega),
    fdiv_pos _ _ hmne, fdiv_pos _ _ hmne, fdiv_pos _ _ hmne]
  simp

/-- C2 (witness): `"P6\n2 1\n255\n"` followed by the bytes `FF 00 00 00 FF 00` decodes to
the pixels `(1, 0, 0)` and `(0, 1, 0)`. -/
theorem p6_decode_raw_witness :
    ∃ out, load_image uninit_image
        (some (bytes "P6\n2 1\n255\n" ++ [255, 0, 0, 0, 255, 0])) = some out ∧
      out.ret = 0 ∧ out.fcloses = 1 ∧ out.image.width = 2 ∧ out.image.height = 1 ∧
      out.image.pixmap 0 = ⟨some (FloatVal.fin 1), some (FloatVal.fin 0), some (FloatVal.fin 0)⟩ ∧
      out.image.pixmap 1 = ⟨some (FloatVal.fin 0), some (FloatVal.fin 1), some (FloatVal.fin 0)⟩ := by
  obtain ⟨out, h1, h2, h3, h4, h5, h6⟩ :=
    p6_decode_raw uninit_image [10] [50] [32] [49] [10] [50, 53, 53] 10
      [255, 0, 0, 0, 255, 0] [] 2 1 255
      (by decide) (by decide) (by decide) (by decide) (by decide) (by decide)
      (by decide) (by decide) (by decide) (by decide) (by decide) (by decide)
      (by decide) (by decide) (by decide) (by decide) (by decide) (by decide) (by decide)
      (by decide) (by decide)
  refine ⟨out, h1, h2, h3, h4, h5, ?_, ?_⟩
  · have h7 := h6 0 0 (by decide) (by decide)
    have v0 : p6_value 255 [255, 0, 0, 0, 255, 0] 0 = 255 := by decide
    have v1 : p6_value 255 [255, 0, 0, 0, 255, 0] 1 = 0 := by decide
    have v2 : p6_value 255 [255, 0, 0, 0, 255, 0] 2 = 0 := by decide
    simp only [Nat.zero_mul, Nat.add_zero, Nat.mul_zero, Nat.zero_add, v0, v1, v2] at h7
    rw [h7]
    norm_num
  · have h7 := h6 0 1 (by decide) (by decide)
    have v0 : p6_value 255 [255, 0, 0, 0, 255, 0] 3 = 0 := by decide
    have v1 : p6_value 255 [255, 0, 0, 0, 255, 0] 4 = 255 := by decide
    have v2 : p6_value 255 [255, 0, 0, 0, 255, 0] 5 = 0 := by decide
    simp only [Nat.zero_mul, Nat.zero_add, Nat.mul_one, v0, v1, v2] at h7
    rw [h7]
    norm_num

/-- C2 (counterexample): for width 1, height 1, maxval 255 and the three-byte body
`20 41 42`, whose first byte is a space, `load_image` returns 1: `skip_whitespace` also
consumes the space, and the body is then one byte short.  For width 0 and height 0 the
body is empty, `skip_whitespace` reaches the end of the stream and the call returns 1.
For width 2147483648 and height 0 the call does not succeed either: the width is not
representable in the `int` that `atoi` returns. -/
theorem p6_body_space_fails :
    (load_image uninit_image (some (bytes "P6\n1 1\n255\n" ++ [32, 65, 66]))).map
      (fun out => out.ret) = some 1 ∧
    (load_image uninit_image (some (bytes "P6\n0 0\n255\n"))).map
      (fun out => out.ret) = some 1 ∧
    (load_image uninit_image (some (bytes "P6 2147483648 0 255\n"))).isNone = true := by
  decide

/-! ## What every run of the pixel loops does -/

theorem for_loop_next_inv {σ : Type} (body : Nat → σ → Step σ) (Inv : Nat → σ → Prop)
    (hstep : ∀ x s s1, Inv x s → body x s = Step.next s1 → Inv (x + 1) s1) :
    ∀ (n x : Nat) (s s1 : σ), Inv x s → for_loop body n x s = Step.next s1 → Inv (x + n) s1 := by
  intro n
  induction n with
  | zero =>
    intro x s s1 hi h
    simp only [for_loop, Step.next.injEq] at h
    rw [← h]
    exact hi
  | succ n ih =>
    intro x s s1 hi h
    simp only [for_loop] at h
    cases hb : body x s with
    | next s2 =>
      rw [hb] at h
      have := ih (x + 1) s2 s1 (hstep x s s2 hi hb) h
      have e : x + 1 + n = x + (n + 1) := by omega
      rw [e] at this
      exact this
    | ret code s2 => rw [hb] at h; cases h
    | undef => rw [hb] at h; cases h

theorem for_loop_ret_code {σ : Type} (body : Nat → σ → Step σ)
    (hbody : ∀ x s code s1, body x s = Step.ret code s1 → code = 1) :
    ∀ (n x : Nat) (s : σ) (code : Int) (s1 : σ),
      for_loop body n x s = Step.ret code s1 → code = 1 := by
  intro n
  induction n with
  | zero => intro x s code s1 h; simp [for_loop] at h
  | succ n ih =>
    intro x s code s1 h
    simp only [for_loop] at h
    cases hb : body x s with
    | next s2 => rw [hb] at h; exact ih _ _ _ _ h
    | ret c s2 =>
      rw [hb] at h
      simp only [Step.ret.injEq] at h
      rw [← h.1]
      exact hbody x s c s2 hb
    | undef => rw [hb] at h; cases h

theorem store_flat_some (cells n : Nat) (value : FloatVal) (pixmap pixmap1 : Nat → RGBpixel)
    (h : (if n / 3 ≤ 2147483647 ∧ n / 3 < cells then
        some (Function.update pixmap (n / 3) (set_channel (n % 3) value (pixmap (n / 3))))
      else none) = some pixmap1) :
    pixmap1 = Function.update pixmap (n / 3) (set_channel (n % 3) value (pixmap (n / 3))) := by
  split at h
  · exact (Option.some.inj h).symm
  · cases h

/-- A P3 sample that is stored is `a / color_max` for a parsed value `0 ≤ a ≤ color_max`. -/
theorem p3_flat_next (cells w n : Nat) (m : Int) (s s1 : LoadState)
    (h : flat (p3_sample cells (w : Int) m) w n s = Step.next s1) :
    ∃ a : Int, 0 ≤ a ∧ a ≤ m ∧
      s1.pixmap = Function.update s.pixmap (n / 3)
        (set_channel (n % 3) (fdiv a m) (s.pixmap (n / 3))) := by
  unfold flat p3_sample at h
  simp only [store_channel_flat] at h
  cases hs : skip_whitespace s.fp with
  | none => rw [hs] at h; cases h
  | some fp1 =>
    rw [hs] at h
    simp only [] at h
    rcases hr : read_to_whitespace fp1 IMAGE_READ_BUFFER_SIZE with ⟨bytes_read, buffer, fp2⟩
    rw [hr] at h
    simp only [] at h
    by_cases hb : bytes_read ≤ 0
    · rw [if_pos hb] at h; cases h
    rw [if_neg hb] at h
    cases ha : atoi buffer with
    | none => rw [ha] at h; cases h
    | some a =>
      rw [ha] at h
      simp only [] at h
      by_cases h1 : a > m
      · rw [if_pos h1] at h; cases h
      rw [if_neg h1] at h
      by_cases h2 : a < 0
      · rw [if_pos h2] at h; cases h
      rw [if_neg h2] at h
      refine ⟨a, by omega, by omega, ?_⟩
      split at h
      · cases h
      · rename_i pm hst
        simp only [Step.next.injEq] at h
        rw [← h]
        exact store_flat_some _ _ _ _ _ hst

theorem p3_flat_ret (cells w n : Nat) (m : Int) (s s1 : LoadState) (code : Int)
    (h : flat (p3_sample cells (w : Int) m) w n s = Step.ret code s1) : code = 1 := by
  unfold flat p3_sample at h
  cases hs : skip_whitespace s.fp with
  | none => rw [hs] at h; simp only [Step.ret.injEq] at h; exact h.1.symm
  | some fp1 =>
    rw [hs] at h
    simp only [] at h
    rcases hr : read_to_whitespace fp1 IMAGE_READ_BUFFER_SIZE with ⟨bytes_read, buffer, fp2⟩
    rw [hr] at h
    simp only [] at h
    by_cases hb : bytes_read ≤ 0
    · rw [if_pos hb] at h; simp only [Step.ret.injEq] at h; exact h.1.symm
    rw [if_neg hb] at h
    cases ha : atoi buffer with
    | none => rw [ha] at h; cases h
    | some a =>
      rw [ha] at h
      simp only [] at h
      by_cases h1 : a > m
      · rw [if_pos h1] at h; simp only [Step.ret.injEq] at h; exact h.1.symm
      rw [if_neg h1] at h
      by_cases h2 : a < 0
      · rw [if_pos h2] at h; simp only [Step.ret.injEq] at h; exact h.1.symm
      rw [if_neg h2] at h
      split at h <;> cases h

theorem land_nat_range (x : Int) (k n : Nat) (hn : n < 2 ^ k) :
    0 ≤ Int.land x (n : Int) ∧ Int.land x (n : Int) < ((2 ^ k : Nat) : Int) := by
  cases x with
  | ofNat a =>
    show 0 ≤ ((a &&& n : Nat) : Int) ∧ ((a &&& n : Nat) : Int) < _
    have := Nat.and_lt_two_pow a hn
    omega
  | negSucc a =>
    show 0 ≤ ((Nat.ldiff n a : Nat) : Int) ∧ ((Nat.ldiff n a : Nat) : Int) < _
    rw [ldiff_eq_xor_land]
    have h1 : n &&& a < 2 ^ k := Nat.lt_of_le_of_lt Nat.and_le_left hn
    have := Nat.xor_lt_two_pow hn h1
    omega

/-- The expression `buffer[0] & 0xFF` lies in `[0, 255]`. -/
theorem sample8_range (b : Nat) : 0 ≤ sample8 b ∧ sample8 b ≤ 255 := by
  have := land_nat_range (to_char b) 8 255 (by norm_num)
  unfold sample8
  have e : ((255 : Nat) : Int) = 255 := rfl
  rw [e] at this
  have e2 : ((2 ^ 8 : Nat) : Int) = 256 := by norm_num
  rw [e2] at this
  omega

/-- The expression `((buffer[0] << 8) & 0xFF00) | (buffer[1] & 0xFF)` lies in
`[0, 65535]`. -/
theorem sample16_range (b0 b1 : Nat) : 0 ≤ sample16 b0 b1 ∧ sample16 b0 b1 ≤ 65535 := by
  unfold sample16
  have h1 := land_nat_range (to_char b0 <<< (8 : Int)) 16 65280 (by norm_num)
  have h2 := land_nat_range (to_char b1) 16 255 (by norm_num)
  have e1 : ((65280 : Nat) : Int) = 65280 := rfl
  have e2 : ((255 : Nat) : Int) = 255 := rfl
  rw [e1] at h1
  rw [e2] at h2
  generalize Int.land (to_char b0 <<< (8 : Int)) 65280 = x at h1 ⊢
  generalize Int.land (to_char b1) 255 = y at h2 ⊢
  cases x with
  | negSucc a => exact absurd h1.1 (by simp [Int.negSucc_lt_zero])
  | ofNat a =>
    cases y with
    | negSucc c => exact absurd h2.1 (by simp [Int.negSucc_lt_zero])
    | ofNat c =>
      show 0 ≤ ((a ||| c : Nat) : Int) ∧ ((a ||| c : Nat) : Int) ≤ 65535
      have ha : a < 2 ^ 16 := by
        have := h1.2
        simp only [Int.ofNat_eq_coe] at this
        exact_mod_cast this
      have hc : c < 2 ^ 16 := by
        have := h2.2
        simp only [Int.ofNat_eq_coe] at this
        exact_mod_cast this
      have := Nat.or_lt_two_pow ha hc
      omega

/-- A P6 sample that is stored is `v / color_max` for a raw value `v` in `[0, 65535]`,
and in `[0, 255]` when `color_max < 256`. -/
theorem p6_flat_next (cells w n : Nat) (m : Int) (s s1 : LoadState)
    (h : flat (p6_sample cells (w : Int) m) w n s = Step.next s1) :
    ∃ v : Int, 0 ≤ v ∧ v ≤ 65535 ∧ (m < 256 → v ≤ 255) ∧
      s1.pixmap = Function.update s.pixmap (n / 3)
        (set_channel (n % 3) (fdiv v m) (s.pixmap (n / 3))) := by
  unfold flat p6_sample at h
  simp only [store_channel_flat] at h
  by_cases hm : m < 256
  · rw [if_pos hm] at h
    split at h
    · cases h
    · rename_i b0 fp1 _
      have hr := sample8_range b0
      refine ⟨sample8 b0, hr.1, by omega, fun _ => hr.2, ?_⟩
      split at h
      · cases h
      · rename_i pm hst
        simp only [Step.next.injEq] at h
        rw [← h]
        exact store_flat_some _ _ _ _ _ hst
  · rw [if_neg hm] at h
    split at h
    · cases h
    · cases h
    · rename_i b0 b1 fp1 _
      have hr := sample16_range b0 b1
      refine ⟨sample16 b0 b1, hr.1, hr.2, fun h1 => absurd h1 hm, ?_⟩
      split at h
      · cases h
      · rename_i pm hst
        simp only [Step.next.injEq] at h
        rw [← h]
        exact store_flat_some _ _ _ _ _ hst

theorem p6_flat_ret (cells w n : Nat) (m : Int) (s s1 : LoadState) (code : Int)
    (h : flat (p6_sample cells (w : Int) m) w n s = Step.ret code s1) : code = 1 := by
  unfold flat p6_sample at h
  by_cases hm : m < 256
  · rw [if_pos hm] at h
    split at h
    · simp only [Step.ret.injEq] at h; exact h.1.symm
    · split at h <;> cases h
  · rw [if_neg hm] at h
    split at h
    · simp only [Step.ret.injEq] at h; exact h.1.symm
    · simp only [Step.ret.injEq] at h; exact h.1.symm
    · split at h <;> cases h

theorem loop_filled (body : Nat → LoadState → Step LoadState) (P : FloatVal → Prop)
    (hbody : ∀ n s s1, body n s = Step.next s1 → ∃ v, P v ∧
      s1.pixmap = Function.update s.pixmap (n / 3)
        (set_channel (n % 3) v (s.pixmap (n / 3))))
    (count : Nat) (s s1 : LoadState) (hs : s.pixmap = fresh_pixmap)
    (h : for_loop body count 0 s = Step.next s1) :
    ∃ val, s1.pixmap = filled val count ∧ ∀ t, t < count → P (val t) := by
  have := for_loop_next_inv body
    (fun n s => ∃ val, s.pixmap = filled val n ∧ ∀ t, t < n → P (val t))
    (by
      intro x s s1 hi hb
      obtain ⟨val, hv1, hv2⟩ := hi
      obtain ⟨v, hp, hst⟩ := hbody x s s1 hb
      refine ⟨Function.update val x v, ?_, ?_⟩
      · rw [hst, hv1, filled_succ]
      · intro t ht
        by_cases e : t = x
        · subst e; rw [Function.update_same]; exact hp
        · rw [Function.update_noteq e]; exact hv2 t (by omega))
    count 0 s s1 ⟨fun _ => FloatVal.nan, by rw [hs, filled_zero], fun t ht => absurd ht (by omega)⟩ h
  rw [Nat.zero_add] at this
  exact this

/-- What a successful call of `load_image` has done: the header was accepted, the file was
closed once, and the pixel buffer holds exactly `3 * width * height` stored samples, each
of them a value the P3 or the P6 sample code produces. -/
theorem load_image_success (image_ptr : Image) (input : FILE) (out : Outcome)
    (h : load_image image_ptr (some input) = some out) (hret : out.ret = 0) :
    ∃ hd fp1 val, load_image_header input = HeaderResult.ok hd fp1 ∧
      out.image.width = hd.width.toNat ∧ out.image.height = hd.height.toNat ∧
      out.fcloses = 1 ∧
      out.image.pixmap = filled val (out.image.height * (out.image.width * 3)) ∧
      ∀ t, t < out.image.height * (out.image.width * 3) →
        (hd.ppm_version = 3 → p3_stored hd.color_max (val t)) ∧
        (hd.ppm_version ≠ 3 → p6_stored hd.color_max (val t)) := by
  unfold load_image at h
  simp only [] at h
  cases hh : load_image_header input with
  | undef => rw [hh] at h; cases h
  | ret1 n =>
    rw [hh] at h
    simp only [Option.some.injEq] at h
    rw [← h] at hret
    simp at hret
  | ok hd fp1 =>
    rw [hh] at h
    simp only [] at h
    obtain ⟨_, hw0, hw1, hh0, hh1, _, _⟩ := load_image_header_range _ _ _ hh
    have hwb : hd.width.toNat ≤ 2147483647 := by omega
    have hhb : hd.height.toNat ≤ 2147483647 := by omega
    refine ⟨hd, fp1, ?_⟩
    by_cases hv : hd.ppm_version = 3
    · rw [if_pos hv, image_load_p3_flat _ _ _ hwb hhb] at h
      simp only [] at h
      cases hl : for_loop (flat (p3_sample (malloc_cells hd.width.toNat hd.height.toNat)
          hd.width.toNat hd.color_max) hd.width.toNat)
          (hd.height.toNat * (hd.width.toNat * 3)) 0 ⟨fp1, fresh_pixmap⟩ with
      | undef => rw [hl] at h; cases h
      | ret code s1 =>
        rw [hl] at h
        simp only [Option.map_some', Option.some.injEq] at h
        have hc := for_loop_ret_code _ (fun x s c s1 hb => p3_flat_ret _ _ _ _ _ _ _ hb)
          _ _ _ _ _ hl
        rw [← h] at hret
        simp only at hret
        omega
      | next s1 =>
        rw [hl] at h
        simp only [Option.map_some', Option.some.injEq] at h
        obtain ⟨val, hv1, hv2⟩ := loop_filled _ (p3_stored hd.color_max)
          (fun n s s1 hb => by
            obtain ⟨a, h1, h2, h3⟩ := p3_flat_next _ _ _ _ _ _ hb
            exact ⟨fdiv a hd.color_max, ⟨a, h1, h2, rfl⟩, h3⟩)
          _ _ _ rfl hl
        rw [← h]
        exact ⟨val, rfl, rfl, rfl, rfl, hv1, fun t ht => ⟨fun _ => hv2 t ht, fun e => absurd hv e⟩⟩
    · rw [if_neg hv, image_load_p6_flat _ _ _ hwb hhb] at h
      simp only [] at h
      cases hs : skip_whitespace fp1 with
      | none =>
        rw [hs] at h
        simp only [Option.map_some', Option.some.injEq] at h
        rw [← h] at hret
        simp at hret
      | some fp2 =>
        rw [hs] at h
        simp only [] at h
        cases hl : for_loop (flat (p6_sample (malloc_cells hd.width.toNat hd.height.toNat)
            hd.width.toNat hd.color_max) hd.width.toNat)
            (hd.height.toNat * (hd.width.toNat * 3)) 0 ⟨fp2, fresh_pixmap⟩ with
        | undef => rw [hl] at h; cases h
        | ret code s1 =>
          rw [hl] at h
          simp only [Option.map_some', Option.some.injEq] at h
          have hc := for_loop_ret_code _ (fun x s c s1 hb => p6_flat_ret _ _ _ _ _ _ _ hb)
            _ _ _ _ _ hl
          rw [← h] at hret
          simp only at hret
          omega
        | next s1 =>
          rw [hl] at h
          simp only [Option.map_some', Option.some.injEq] at h
          obtain ⟨val, hv1, hv2⟩ := loop_filled _ (p6_stored hd.color_max)
            (fun n s s1 hb => by
              obtain ⟨x, h1, h2, h3, h4⟩ := p6_flat_next _ _ _ _ _ _ hb
              exact ⟨fdiv x hd.color_max, ⟨x, h1, h2, h3, rfl⟩, h4⟩)
            _ _ _ rfl hl
          rw [← h]
          exact ⟨val, rfl, rfl, rfl, rfl, hv1,
            fun t ht => ⟨fun e => absurd e hv, fun _ => hv2 t ht⟩⟩

theorem filled_assigned (val : Nat → FloatVal) (n idx : Nat) (h : idx < n) :
    assigned (filled val (n * 3) idx) := by
  simp only [assigned, filled]
  rw [if_pos (by omega), if_pos (by omega), if_pos (by omega)]
  simp

theorem filled_untouched (val : Nat → FloatVal) (n idx : Nat) (h : n ≤ idx) :
    filled val (n * 3) idx = ⟨none, none, none⟩ := by
  simp only [filled]
  rw [if_neg (by omega), if_neg (by omega), if_neg (by omega)]

/-- C3: whenever `load_image` returns 0 (P3 or P6), the pixels written to the fresh pixel
buffer are exactly those with an index below `width * height` of the returned image:
each of them has all three channels assigned, no other cell of the buffer was written,
and in particular every index `r*width + c` with `r < height`, `c < width` is assigned. -/
theorem load_image_pixel_count (image_ptr : Image) (input : FILE) (out : Outcome)
    (h : load_image image_ptr (some input) = some out) (hret : out.ret = 0) :
    (∀ idx, idx < out.image.width * out.image.height → assigned (out.image.pixmap idx)) ∧
    (∀ idx, out.image.width * out.image.height ≤ idx →
      out.image.pixmap idx = ⟨none, none, none⟩) ∧
    (∀ r c, r < out.image.height → c < out.image.width →
      assigned (out.image.pixmap (r * out.image.width + c))) := by
  obtain ⟨hd, fp1, val, _, _, _, _, hpix, _⟩ := load_image_success image_ptr input out h hret
  have e : out.image.height * (out.image.width * 3) =
      out.image.width * out.image.height * 3 := by ring
  rw [e] at hpix
  refine ⟨?_, ?_, ?_⟩
  · intro idx hi
    rw [hpix]
    exact filled_assigned val _ idx hi
  · intro idx hi
    rw [hpix]
    exact filled_untouched val _ idx hi
  · intro r c hr hc
    rw [hpix]
    exact filled_assigned val _ _ (index_lt _ _ r c hr hc)

/-- C3 (witness): the P6 stream `"P6\n2 1\n255\n"` + `FF 00 00 00 FF 00` loads, and exactly
the pixels 0 and 1 of the buffer are written. -/
theorem load_image_pixel_count_witness :
    ∃ out, load_image uninit_image
        (some (bytes "P6\n2 1\n255\n" ++ [255, 0, 0, 0, 255, 0])) = some out ∧
      out.ret = 0 ∧ out.image.width = 2 ∧ out.image.height = 1 ∧
      (∀ idx, idx < out.image.width * out.image.height → assigned (out.image.pixmap idx)) ∧
      (∀ idx, out.image.width * out.image.height ≤ idx →
        out.image.pixmap idx = ⟨none, none, none⟩) ∧
      (∀ r c, r < out.image.height → c < out.image.width →
        assigned (out.image.pixmap (r * out.image.width + c))) := by
  have hev : (load_image uninit_image
      (some (bytes "P6\n2 1\n255\n" ++ [255, 0, 0, 0, 255, 0]))).map
        (fun out => (out.ret, out.image.width, out.image.height)) = some (0, 2, 1) := by
    decide
  cases hq : load_image uninit_image
      (some (bytes "P6\n2 1\n255\n" ++ [255, 0, 0, 0, 255, 0])) with
  | none => rw [hq] at hev; cases hev
  | some out =>
    rw [hq] at hev
    simp only [Option.map_some', Option.some.injEq, Prod.mk.injEq] at hev
    exact ⟨out, rfl, hev.1, hev.2.1, hev.2.2,
      load_image_pixel_count uninit_image _ out hq hev.1⟩

theorem fdiv_in_unit (x m : Int) (h0 : 0 ≤ x) (h1 : x ≤ m) (hm : 1 ≤ m) :
    in_unit (some (fdiv x m)) := by
  have hmq : (0 : ℚ) < (m : ℚ) := by exact_mod_cast (by omega : (0 : Int) < m)
  refine ⟨(x : ℚ) / (m : ℚ), ?_, ?_, ?_⟩
  · rw [fdiv_pos x m (by omega)]
  · exact div_nonneg (by exact_mod_cast h0) (le_of_lt hmq)
  · rw [div_le_one hmq]
    exact_mod_cast h1

theorem filled_in_unit (val : Nat → FloatVal) (n idx : Nat) (h : idx < n)
    (hv : ∀ t, t < n * 3 → in_unit (some (val t))) :
    in_unit (filled val (n * 3) idx).r ∧ in_unit (filled val (n * 3) idx).g ∧
      in_unit (filled val (n * 3) idx).b := by
  simp only [filled]
  rw [if_pos (by omega), if_pos (by omega), if_pos (by omega)]
  exact ⟨hv _ (by omega), hv _ (by omega), hv _ (by omega)⟩

/-- C4 (amended): whenever `load_image` returns 0 on a stream whose accepted header has a
maximum colour value of at least 1 and is either a P3 header or a P6 header with maximum
colour value 255 or 65535, every r, g and b component of every pixel of the image
(index below `width * height`) is a finite value in `[0, 1]`. -/
theorem load_image_unit_range (image_ptr : Image) (input : FILE) (out : Outcome)
    (hd : Header) (fp1 : FILE)
    (hh : load_image_header input = HeaderResult.ok hd fp1)
    (h : load_image image_ptr (some input) = some out) (hret : out.ret = 0)
    (hm : 1 ≤ hd.color_max)
    (hpath : hd.ppm_version = 3 ∨ hd.color_max = 255 ∨ hd.color_max = 65535) :
    ∀ idx, idx < out.image.width * out.image.height →
      in_unit (out.image.pixmap idx).r ∧ in_unit (out.image.pixmap idx).g ∧
        in_unit (out.image.pixmap idx).b := by
  obtain ⟨hd1, fp2, val, hh1, _, _, _, hpix, hval⟩ :=
    load_image_success image_ptr input out h hret
  rw [hh] at hh1
  simp only [HeaderResult.ok.injEq] at hh1
  obtain ⟨e1, _⟩ := hh1
  subst e1
  have e : out.image.height * (out.image.width * 3) =
      out.image.width * out.image.height * 3 := by ring
  rw [e] at hpix hval
  intro idx hi
  rw [hpix]
  apply filled_in_unit val _ idx hi
  intro t ht
  by_cases hv : hd.ppm_version = 3
  · obtain ⟨a, h0, h1, h2⟩ := (hval t ht).1 hv
    rw [h2]
    exact fdiv_in_unit a _ h0 h1 hm
  · obtain ⟨x, h0, h1, h2, h3⟩ := (hval t ht).2 hv
    rw [h3]
    rcases hpath with hp | hp | hp
    · exact absurd hp hv
    · exact fdiv_in_unit x _ h0 (by have := h2 (by omega); omega) hm
    · exact fdiv_in_unit x _ h0 (by omega) hm

/-- C4 (witness): the pixel of `"P3\n1 1\n255\n255 0 0\n"` has its components in `[0, 1]`. -/
theorem load_image_unit_range_witness :
    ∃ out, load_image uninit_image (some (bytes "P3\n1 1\n255\n255 0 0\n")) = some out ∧
      out.ret = 0 ∧ out.image.width = 1 ∧ out.image.height = 1 ∧
      ∀ idx, idx < out.image.width * out.image.height →
        in_unit (out.image.pixmap idx).r ∧ in_unit (out.image.pixmap idx).g ∧
          in_unit (out.image.pixmap idx).b := by
  have hev : (load_image uninit_image (some (bytes "P3\n1 1\n255\n255 0 0\n"))).map
        (fun out => (out.ret, out.image.width, out.image.height)) = some (0, 1, 1) := by
    decide
  cases hq : load_image uninit_image (some (bytes "P3\n1 1\n255\n255 0 0\n")) with
  | none => rw [hq] at hev; cases hev
  | some out =>
    rw [hq] at hev
    simp only [Option.map_some', Option.some.injEq, Prod.mk.injEq] at hev
    exact ⟨out, rfl, hev.1, hev.2.1, hev.2.2,
      load_image_unit_range uninit_image _ out ⟨3, 1, 1, 255⟩ (bytes "\n255 0 0\n")
        (by decide) hq hev.1 (by decide) (by decide)⟩

/-- C4 (counterexample): two accepted streams with a component outside `[0, 1]`.  The P3
stream `"P3 1 1 0 0 0 0 "` has the accepted maxval 0 and its pixel is `0/0`, not a number;
the P6 stream `"P6 1 1 100 "` + `C8 00 00` has a raw sample above its maxval and the red
component is `200/100 = 2`. -/
theorem unit_range_fails :
    (load_image uninit_image (some (bytes "P3 1 1 0 0 0 0 "))).map
        (fun out => (out.ret, (out.image.pixmap 0).r)) = some (0, some FloatVal.nan) ∧
    (load_image uninit_image (some (bytes "P6 1 1 100 " ++ [200, 0, 0]))).map
        (fun out => (out.ret, (out.image.pixmap 0).r)) = some (0, some (FloatVal.fin 2)) ∧
    ¬ in_unit (some FloatVal.nan) ∧ ¬ in_unit (some (FloatVal.fin 2)) := by
  refine ⟨by decide, ?_, ?_, ?_⟩
  · obtain ⟨val1, hload, hval⟩ := p6_decode_filled uninit_image [32] [49] [32] [49] [32]
      [49, 48, 48] 32 [200, 0, 0] [] 1 1 100
      (by decide) (by decide) (by decide) (by decide) (by decide) (by decide)
      (by decide) (by decide) (by decide) (by decide) (by decide) (by decide)
      (by decide) (by decide) (by decide) (by decide) (by decide) (by decide) (by decide)
      (by decide)
    have hv := hval 0 (by decide)
    have e : p6_value 100 [200, 0, 0] 0 = 200 := by decide
    rw [e] at hv
    have hload1 : load_image uninit_image (some (bytes "P6 1 1 100 " ++ [200, 0, 0])) =
        some ⟨0, ⟨1, 1, filled val1 (3 * (1 * 1))⟩, 1⟩ := hload
    rw [hload1]
    simp only [Option.map_some', filled, Nat.mul_zero, Nat.mul_one, Nat.lt_irrefl]
    rw [if_pos (by decide), hv, fdiv_pos _ _ (by decide)]
    norm_num
  · rintro ⟨q, hq, _, _⟩
    cases hq
  · rintro ⟨q, hq, _, h1⟩
    simp only [Option.some.injEq, FloatVal.fin.injEq] at hq
    rw [← hq] at h1
    norm_num at h1

/-! ## The magic number -/

/-- When `read_to_whitespace` does not return -1, it returns the length of the first token,
the buffer holds that token, and the stream is left at the whitespace byte behind it. -/
theorem read_to_whitespace_loop_result (buffer_size : Int) (fp : FILE) :
    ∀ (pos : Nat) (buffer : List Nat),
      (read_to_whitespace_loop buffer_size fp pos buffer).1 = -1 ∨
      ((read_to_whitespace_loop buffer_size fp pos buffer).1 =
          ((pos + (first_token fp).length : Nat) : Int) ∧
        (read_to_whitespace_loop buffer_size fp pos buffer).2.1 = buffer ++ first_token fp ∧
        fp = first_token fp ++ (read_to_whitespace_loop buffer_size fp pos buffer).2.2 ∧
        ws_next (read_to_whitespace_loop buffer_size fp pos buffer).2.2 = true) := by
  induction fp with
  | nil => intro pos buffer; left; rfl
  | cons c fp ih =>
    intro pos buffer
    simp only [read_to_whitespace_loop]
    by_cases hp : (pos : Int) > buffer_size - 1
    · left; rw [if_pos hp]
    · rw [if_neg hp]
      cases hc : is_whitespace c with
      | true =>
        right
        simp [first_token, hc, ws_next]
      | false =>
        simp only [Bool.false_eq_true, if_false]
        rcases ih (pos + 1) (buffer ++ [c]) with h | ⟨h1, h2, h3, h4⟩
        · left; exact h
        · right
          have ft : first_token (c :: fp) = c :: first_token fp := by
            simp [first_token, hc]
          refine ⟨?_, ?_, ?_, h4⟩
          · rw [h1, ft, List.length_cons]
            congr 1
            omega
          · rw [h2, ft]
            simp
          · rw [ft, List.cons_append, ← h3]

theorem read_to_whitespace_result (fp : FILE) (bytes_read : Int) (buffer : List Nat)
    (fp1 : FILE) (h : read_to_whitespace fp IMAGE_READ_BUFFER_SIZE = (bytes_read, buffer, fp1))
    (hn : 0 ≤ bytes_read) :
    bytes_read = ((first_token fp).length : Int) ∧ buffer = first_token fp ∧
      fp = first_token fp ++ fp1 ∧ ws_next fp1 = true := by
  unfold read_to_whitespace at h
  rcases read_to_whitespace_loop_result IMAGE_READ_BUFFER_SIZE fp 0 [] with h1 | ⟨h1, h2, h3, h4⟩
  · rw [h] at h1
    simp only at h1
    omega
  · rw [h] at h1 h2 h3 h4
    simp only [Nat.zero_add, List.nil_append] at h1 h2 h3 h4
    exact ⟨h1, h2, h3, h4⟩

theorem magic_version_ne_zero (buffer : List Nat) (hl : buffer.length = 2)
    (h : magic_version buffer ≠ 0) : buffer = [80, 51] ∨ buffer = [80, 54] := by
  match buffer, hl with
  | [a, b], _ =>
    unfold magic_version at h
    simp only [List.take_succ_cons, List.take_zero] at h
    by_cases h1 : [a, b] = [80, 51]
    · left; exact h1
    · by_cases h2 : [a, b] = [80, 54]
      · right; exact h2
      · rw [if_neg h1, if_neg h2] at h
        exact absurd rfl h

/-- C5: magic-number validation.  If the first token of the stream (the bytes before the
first space, tab, CR or LF) is not exactly `P3` or `P6`, `load_image` returns 1 (after
closing the file, with the image untouched); and whenever `load_image` returns 0 the
stream starts with `P3` or `P6` followed by a whitespace byte. -/
theorem magic_number_validated :
    (∀ (image_ptr : Image) (input : FILE),
      first_token input ≠ [80, 51] → first_token input ≠ [80, 54] →
      load_image image_ptr (some input) = some ⟨1, image_ptr, 1⟩) ∧
    (∀ (image_ptr : Image) (input : FILE) (out : Outcome),
      load_image image_ptr (some input) = some out → out.ret = 0 →
      ∃ c rest, is_whitespace c = true ∧
        (input = 80 :: 51 :: c :: rest ∨ input = 80 :: 54 :: c :: rest)) := by
  constructor
  · intro image_ptr input h3 h6
    have hhd : load_image_header input = HeaderResult.ret1 1 := by
      unfold load_image_header
      rcases hr : read_to_whitespace input IMAGE_READ_BUFFER_SIZE with ⟨bytes_read, buffer, fp1⟩
      simp only []
      by_cases hb : bytes_read ≠ 2
      · rw [if_pos hb]
      · rw [if_neg hb]
        simp only [not_ne_iff] at hb
        obtain ⟨e1, e2, _, _⟩ := read_to_whitespace_result input _ _ _ hr (by omega)
        have hl : buffer.length = 2 := by rw [e2]; omega
        by_cases hv : magic_version buffer = 0
        · rw [if_pos hv]
        · rcases magic_version_ne_zero buffer hl hv with h | h
          · rw [e2] at h; exact absurd h h3
          · rw [e2] at h; exact absurd h h6
    unfold load_image
    simp only [hhd]
  · intro image_ptr input out h hret
    obtain ⟨hd, fp4, _, hh, _⟩ := load_image_success image_ptr input out h hret
    obtain ⟨buffer, fp1, _, _, hr, hv, hv0, _⟩ := load_image_header_ok input fp4 hd hh
    obtain ⟨e1, e2, e3, e4⟩ := read_to_whitespace_result input _ _ _ hr (by omega)
    have hl : buffer.length = 2 := by
      rw [e2]
      have : ((first_token input).length : Int) = 2 := e1.symm
      omega
    rw [← hv] at hv0
    cases fp1 with
    | nil => simp [ws_next] at e4
    | cons c rest =>
      refine ⟨c, rest, by simpa [ws_next] using e4, ?_⟩
      rw [← e2] at e3
      rcases magic_version_ne_zero buffer hl hv0 with hb | hb
      · left; rw [e3, hb]; rfl
      · right; rw [e3, hb]; rfl

/-- C5 (witness): the magic `P5` is rejected, and the accepted stream
`"P3\n1 1\n255\n255 0 0\n"` starts with `P3` and a whitespace byte. -/
theorem magic_number_validated_witness :
    load_image uninit_image (some (bytes "P5\n1 1\n255\n255 0 0\n")) =
        some ⟨1, uninit_image, 1⟩ ∧
    ∃ c rest, is_whitespace c = true ∧
      (bytes "P3\n1 1\n255\n255 0 0\n" = 80 :: 51 :: c :: rest ∨
        bytes "P3\n1 1\n255\n255 0 0\n" = 80 :: 54 :: c :: rest) := by
  constructor
  · exact magic_number_validated.1 uninit_image _ (by decide) (by decide)
  · have hev : (load_image uninit_image (some (bytes "P3\n1 1\n255\n255 0 0\n"))).map
        (fun out => out.ret) = some 0 := by decide
    cases hq : load_image uninit_image (some (bytes "P3\n1 1\n255\n255 0 0\n")) with
    | none => rw [hq] at hev; cases hev
    | some out =>
      rw [hq] at hev
      simp only [Option.map_some', Option.some.injEq] at hev
      exact magic_number_validated.2 uninit_image _ out hq hev

/-! ## The numeric header fields -/

theorem load_image_ret1 (image_ptr : Image) (input : FILE) (n : Nat)
    (h : load_image_header input = HeaderResult.ret1 n) :
    load_image image_ptr (some input) = some ⟨1, image_ptr, n⟩ := by
  unfold load_image
  simp only [h]

/-- The header part of `load_image` behind an accepted magic number. -/
theorem load_image_header_magic (mg : Nat) (fp0 : FILE) (hmg : mg = 51 ∨ mg = 54)
    (hws : ws_next fp0 = true) :
    load_image_header (80 :: mg :: fp0) =
      match read_field fp0 with
      | Sum.inl r => r
      | Sum.inr (width, fp2) =>
        if width < 0 then HeaderResult.ret1 1
        else
          match read_field fp2 with
          | Sum.inl r => r
          | Sum.inr (height, fp3) =>
            if height < 0 then HeaderResult.ret1 1
            else
              match read_field fp3 with
              | Sum.inl r => r
              | Sum.inr (color_max, fp4) =>
                if color_max < 0 ∨ color_max > 65535 then HeaderResult.ret1 1
                else HeaderResult.ok ⟨magic_version [80, mg], width, height, color_max⟩ fp4 := by
  have hv0 : magic_version [80, mg] ≠ 0 := by
    rcases hmg with h | h <;> subst h <;> decide
  unfold load_image_header
  rw [read_magic mg fp0 hmg hws]
  simp only [ne_eq, not_true_eq_false, if_false, hv0]

/-- C6: header number validation.  Behind a valid magic number (`P3` or `P6` followed by
whitespace): a width token that parses to a negative integer, a height token that parses
to a negative integer, or a maxval token that parses to an integer outside `[0, 65535]`
makes `load_image` return 1 with the image untouched (no pixel buffer is allocated, no
sample is decoded); and whenever `load_image` returns 0, the header it parsed has
`width ≥ 0`, `height ≥ 0` and `0 ≤ maxval ≤ 65535`, and the image carries that width and
height. -/
theorem header_numbers_validated :
    (∀ (image_ptr : Image) (mg : Nat) (fp0 fp1 : FILE) (wtok : List Nat) (w : Int),
      (mg = 51 ∨ mg = 54) → field_at fp0 wtok fp1 = true → atoi wtok = some w → w < 0 →
      load_image image_ptr (some (80 :: mg :: fp0)) = some ⟨1, image_ptr, 1⟩) ∧
    (∀ (image_ptr : Image) (mg : Nat) (fp0 fp1 fp2 : FILE) (wtok htok : List Nat) (w h : Int),
      (mg = 51 ∨ mg = 54) → field_at fp0 wtok fp1 = true → field_at fp1 htok fp2 = true →
      atoi wtok = some w → atoi htok = some h → h < 0 →
      load_image image_ptr (some (80 :: mg :: fp0)) = some ⟨1, image_ptr, 1⟩) ∧
    (∀ (image_ptr : Image) (mg : Nat) (fp0 fp1 fp2 fp3 : FILE) (wtok htok mtok : List Nat)
      (w h m : Int),
      (mg = 51 ∨ mg = 54) → field_at fp0 wtok fp1 = true → field_at fp1 htok fp2 = true →
      field_at fp2 mtok fp3 = true →
      atoi wtok = some w → atoi htok = some h → atoi mtok = some m → (m < 0 ∨ 65535 < m) →
      load_image image_ptr (some (80 :: mg :: fp0)) = some ⟨1, image_ptr, 1⟩) ∧
    (∀ (image_ptr : Image) (input : FILE) (out : Outcome),
      load_image image_ptr (some input) = some out → out.ret = 0 →
      ∃ hd fp1, load_image_header input = HeaderResult.ok hd fp1 ∧
        0 ≤ hd.width ∧ 0 ≤ hd.height ∧ 0 ≤ hd.color_max ∧ hd.color_max ≤ 65535 ∧
        (out.image.width : Int) = hd.width ∧ (out.image.height : Int) = hd.height) := by
  refine ⟨?_, ?_, ?_, ?_⟩
  · intro image_ptr mg fp0 fp1 wtok w hmg f1 aw hw
    apply load_image_ret1
    rw [load_image_header_magic mg fp0 hmg ((field_at_iff _ _ _).1 f1).1]
    simp only [read_field_at _ _ _ f1, aw]
    rw [if_pos hw]
  · intro image_ptr mg fp0 fp1 fp2 wtok htok w h hmg f1 f2 aw ah hh
    apply load_image_ret1
    rw [load_image_header_magic mg fp0 hmg ((field_at_iff _ _ _).1 f1).1]
    simp only [read_field_at _ _ _ f1, aw, read_field_at _ _ _ f2, ah]
    rw [if_pos hh]
    simp
  · intro image_ptr mg fp0 fp1 fp2 fp3 wtok htok mtok w h m hmg f1 f2 f3 aw ah am hm
    apply load_image_ret1
    rw [load_image_header_magic mg fp0 hmg ((field_at_iff _ _ _).1 f1).1]
    simp only [read_field_at _ _ _ f1, aw, read_field_at _ _ _ f2, ah,
      read_field_at _ _ _ f3, am]
    have hm1 : m < 0 ∨ m > 65535 := hm
    rw [if_pos hm1]
    simp
  · intro image_ptr input out h hret
    obtain ⟨hd, fp1, _, hh, hw, hht, _⟩ := load_image_success image_ptr input out h hret
    obtain ⟨_, h1, _, h2, _, h3, h4⟩ := load_image_header_range _ _ _ hh
    refine ⟨hd, fp1, hh, h1, h2, h3, h4, ?_, ?_⟩
    · rw [hw]; omega
    · rw [hht]; omega

/-- C6 (witness): the headers `P3 -5 1 255`, `P3 1 -5 255`, `P6 1 1 -1` and `P6 1 1 65536`
are rejected with the image untouched, and the accepted stream `"P3\n1 1\n255\n255 0 0\n"`
has the header `(3, 1, 1, 255)`. -/
theorem header_numbers_validated_witness :
    load_image uninit_image (some (bytes "P3 -5 1 255 0 0 0 ")) = some ⟨1, uninit_image, 1⟩ ∧
    load_image uninit_image (some (bytes "P3 1 -5 255 0 0 0 ")) = some ⟨1, uninit_image, 1⟩ ∧
    load_image uninit_image (some (bytes "P6 1 1 -1 abc")) = some ⟨1, uninit_image, 1⟩ ∧
    load_image uninit_image (some (bytes "P6 1 1 65536 abcdef")) = some ⟨1, uninit_image, 1⟩ ∧
    ∃ out hd fp1, load_image uninit_image (some (bytes "P3\n1 1\n255\n255 0 0\n")) = some out ∧
      load_image_header (bytes "P3\n1 1\n255\n255 0 0\n") = HeaderResult.ok hd fp1 ∧
      hd = ⟨3, 1, 1, 255⟩ ∧ out.image.width = 1 ∧ out.image.height = 1 := by
  refine ⟨?_, ?_, ?_, ?_, ?_⟩
  · exact header_numbers_validated.1 uninit_image 51 (bytes " -5 1 255 0 0 0 ")
      (bytes " 1 255 0 0 0 ") (bytes "-5") (-5) (by decide) (by decide) (by decide) (by decide)
  · exact header_numbers_validated.2.1 uninit_image 51 (bytes " 1 -5 255 0 0 0 ")
      (bytes " -5 255 0 0 0 ") (bytes " 255 0 0 0 ") (bytes "1") (bytes "-5") 1 (-5)
      (by decide) (by decide) (by decide) (by decide) (by decide) (by decide)
  · exact header_numbers_validated.2.2.1 uninit_image 54 (bytes " 1 1 -1 abc")
      (bytes " 1 -1 abc") (bytes " -1 abc") (bytes " abc") (bytes "1") (bytes "1") (bytes "-1")
      1 1 (-1) (by decide) (by decide) (by decide) (by decide) (by decide) (by decide)
      (by decide) (by decide)
  · exact header_numbers_validated.2.2.1 uninit_image 54 (bytes " 1 1 65536 abcdef")
      (bytes " 1 65536 abcdef") (bytes " 65536 abcdef") (bytes " abcdef") (bytes "1")
      (bytes "1") (bytes "65536") 1 1 65536 (by decide) (by decide) (by decide) (by decide)
      (by decide) (by decide) (by decide) (by decide)
  · have hev : (load_image uninit_image (some (bytes "P3\n1 1\n255\n255 0 0\n"))).map
        (fun out => out.ret) = some 0 := by decide
    cases hq : load_image uninit_image (some (bytes "P3\n1 1\n255\n255 0 0\n")) with
    | none => rw [hq] at hev; cases hev
    | some out =>
      rw [hq] at hev
      simp only [Option.map_some', Option.some.injEq] at hev
      obtain ⟨hd, fp1, hh, _, _, _, _, hw, hht⟩ :=
        header_numbers_validated.2.2.2 uninit_image _ out hq hev
      have hh2 : load_image_header (bytes "P3\n1 1\n255\n255 0 0\n") =
          HeaderResult.ok ⟨3, 1, 1, 255⟩ (bytes "\n255 0 0\n") := by decide
      rw [hh2] at hh
      simp only [HeaderResult.ok.injEq] at hh
      obtain ⟨e1, e2⟩ := hh
      subst e1
      refine ⟨out, _, _, rfl, hh2, rfl, ?_, ?_⟩
      · simp only at hw; omega
      · simp only at hht; omega

/-! ## The P3 sample range check -/

/-- A P3 sample that the loop body accepts: behind whitespace and comments the token `tok`
of at most 1023 bytes and the required whitespace byte, `tok` parsing to a value in
`[0, m]`. -/
theorem p3_flat_accept (cells w n : Nat) (m : Int) (fp rest : FILE) (tok : List Nat) (a : Int)
    (pixmap : Nat → RGBpixel) (f : field_at fp tok rest = true) (ha : atoi tok = some a)
    (h0 : 0 ≤ a) (h1 : a ≤ m) :
    flat (p3_sample cells (w : Int) m) w n ⟨fp, pixmap⟩ =
      if n / 3 ≤ 2147483647 ∧ n / 3 < cells then
        Step.next ⟨rest, Function.update pixmap (n / 3)
          (set_channel (n % 3) (fdiv a m) (pixmap (n / 3)))⟩
      else Step.undef := by
  rw [field_at_iff] at f
  obtain ⟨_, hskip, htk, hlen, hr⟩ := f
  simp only [token, Bool.and_eq_true] at htk
  have hne : 0 < tok.length := by
    cases tok with
    | nil => simp at htk
    | cons a t => simp
  unfold flat p3_sample
  simp only [hskip, read_to_whitespace_ws_next tok rest htk.2 hr hlen, ha, store_channel_flat]
  rw [if_neg (by omega), if_neg (by omega), if_neg (by omega)]
  by_cases hi : n / 3 ≤ 2147483647 ∧ n / 3 < cells
  · simp only [hi, and_self, if_true]
  · simp only [hi, if_false]

/-- A P3 sample whose token parses to a value below 0 or above the maximum colour value
makes the loop body return 1. -/
theorem p3_flat_bad (cells w n : Nat) (m : Int) (fp rest : FILE) (tok : List Nat) (v : Int)
    (pixmap : Nat → RGBpixel) (f : field_at fp tok rest = true) (hv : atoi tok = some v)
    (hbad : v < 0 ∨ m < v) :
    flat (p3_sample cells (w : Int) m) w n ⟨fp, pixmap⟩ = Step.ret 1 ⟨rest, pixmap⟩ := by
  rw [field_at_iff] at f
  obtain ⟨_, hskip, htk, hlen, hr⟩ := f
  simp only [token, Bool.and_eq_true] at htk
  have hne : 0 < tok.length := by
    cases tok with
    | nil => simp at htk
    | cons a t => simp
  unfold flat p3_sample
  simp only [hskip, read_to_whitespace_ws_next tok rest htk.2 hr hlen, hv]
  rw [if_neg (by omega)]
  by_cases h1 : v > m
  · rw [if_pos h1]
  · rw [if_neg h1, if_pos (by omega)]

/-- The loop over accepted P3 samples: it reaches the end of these samples when all the
pixel indices are in range, and otherwise it may only stop in undefined behaviour. -/
theorem p3_loop_accepts (cells w : Nat) (m : Int) :
    ∀ (l : List (List Nat × FILE)) (fp : FILE) (n : Nat) (pixmap : Nat → RGBpixel),
      p3_accepts m fp l = true →
      (for_loop (flat (p3_sample cells (w : Int) m) w) l.length n ⟨fp, pixmap⟩ = Step.undef ∨
        ∃ pixmap1, for_loop (flat (p3_sample cells (w : Int) m) w) l.length n ⟨fp, pixmap⟩ =
          Step.next ⟨chain_end fp l, pixmap1⟩) ∧
      (n + l.length ≤ 3 * cells → cells ≤ 2147483647 →
        ∃ pixmap1, for_loop (flat (p3_sample cells (w : Int) m) w) l.length n ⟨fp, pixmap⟩ =
          Step.next ⟨chain_end fp l, pixmap1⟩) := by
  intro l
  induction l with
  | nil =>
    intro fp n pixmap _
    exact ⟨Or.inr ⟨pixmap, rfl⟩, fun _ _ => ⟨pixmap, rfl⟩⟩
  | cons p l ih =>
    intro fp n pixmap hacc
    obtain ⟨tok, rest⟩ := p
    simp only [p3_accepts, Bool.and_eq_true] at hacc
    obtain ⟨⟨f, hat⟩, hrest⟩ := hacc
    cases ha : atoi tok with
    | none => rw [ha] at hat; simp at hat
    | some a =>
      rw [ha] at hat
      simp only [decide_eq_true_eq] at hat
      simp only [List.length_cons, for_loop, chain_end,
        p3_flat_accept cells w n m fp rest tok a pixmap f ha hat.1 hat.2]
      by_cases hi : n / 3 ≤ 2147483647 ∧ n / 3 < cells
      · rw [if_pos hi]
        simp only []
        obtain ⟨h1, h2⟩ := ih rest (n + 1) (Function.update pixmap (n / 3)
          (set_channel (n % 3) (fdiv a m) (pixmap (n / 3)))) hrest
        exact ⟨h1, fun hb hc => h2 (by omega) hc⟩
      · rw [if_neg hi]
        exact ⟨Or.inl rfl, fun hb hc => absurd ⟨by omega, by omega⟩ hi⟩

/-- The call of `load_image` on a P3 stream whose loop reaches a token that parses to a
value outside `[0, maxval]`: the call returns 1. -/
theorem load_image_p3_bad (image_ptr : Image) (input fp1 fpx rest : FILE) (w h m count : Nat)
    (bad : List Nat) (v : Int)
    (hh : load_image_header input = HeaderResult.ok ⟨3, (w : Int), (h : Int), (m : Int)⟩ fp1)
    (hlen : count < 3 * (w * h))
    (f : field_at fpx bad rest = true) (hv : atoi bad = some v) (hbad : v < 0 ∨ (m : Int) < v)
    (pixmap1 : Nat → RGBpixel)
    (hl : for_loop (flat (p3_sample (malloc_cells (w : Int) (h : Int)) (w : Int) (m : Int)) w)
      count 0 ⟨fp1, fresh_pixmap⟩ = Step.next ⟨fpx, pixmap1⟩) :
    load_image image_ptr (some input) = some ⟨1, ⟨w, h, pixmap1⟩, 1⟩ := by
  obtain ⟨_, _, hwb, _, hhb, _, _⟩ := load_image_header_range _ _ _ hh
  simp only at hwb hhb
  have e : h * (w * 3) = count + (1 + (h * (w * 3) - count - 1)) := by
    have : h * (w * 3) = 3 * (w * h) := by ring
    omega
  unfold load_image
  simp only [hh, if_true, Int.toNat_ofNat]
  rw [image_load_p3_flat _ _ _ (by simp only; omega) (by simp only; omega)]
  simp only []
  rw [e, for_loop_add, hl]
  simp only []
  rw [for_loop_add]
  simp only [for_loop, Nat.zero_add, p3_flat_bad _ _ _ _ _ _ _ _ _ f hv hbad, Option.map_some']

/-- C7: the P3 sample range check.  On a P3 stream with an accepted header `(w, h, m)`:
if, behind fewer than `3*w*h` sample tokens that the decoder accepts, the next sample
token parses to a value that is negative or greater than `m`, then `load_image` never
returns 0, and it returns 1 (after closing the file) whenever `w*h ≤ INT_MAX`.  Moreover,
whenever `load_image` returns 0 on a P3 stream, every sample stored in the image is
`a / maxval` for a parsed value `0 ≤ a ≤ maxval`. -/
theorem p3_sample_range_checked :
    (∀ (image_ptr : Image) (input fp1 rest : FILE) (w h m : Nat)
      (good : List (List Nat × FILE)) (bad : List Nat) (v : Int),
      load_image_header input = HeaderResult.ok ⟨3, (w : Int), (h : Int), (m : Int)⟩ fp1 →
      p3_accepts (m : Int) fp1 good = true → good.length < 3 * (w * h) →
      field_at (chain_end fp1 good) bad rest = true → atoi bad = some v →
      (v < 0 ∨ (m : Int) < v) →
      (∀ out, load_image image_ptr (some input) = some out → out.ret = 1 ∧ out.fcloses = 1) ∧
      (w * h ≤ 2147483647 → ∃ out, load_image image_ptr (some input) = some out)) ∧
    (∀ (image_ptr : Image) (input : FILE) (out : Outcome),
      load_image image_ptr (some input) = some out → out.ret = 0 →
      ∃ hd fp1 val, load_image_header input = HeaderResult.ok hd fp1 ∧
        out.image.pixmap = filled val (out.image.height * (out.image.width * 3)) ∧
        (hd.ppm_version = 3 → ∀ t, t < out.image.height * (out.image.width * 3) →
          ∃ a : Int, 0 ≤ a ∧ a ≤ hd.color_max ∧ val t = fdiv a hd.color_max)) := by
  constructor
  · intro image_ptr input fp1 rest w h m good bad v hh hgood hlen f hv hbad
    obtain ⟨_, _, hwb, _, hhb, _, hmb⟩ := load_image_header_range _ _ _ hh
    simp only at hwb hhb hmb
    obtain ⟨hany, hbounded⟩ := p3_loop_accepts (malloc_cells (w : Int) (h : Int)) w (m : Int)
      good fp1 0 fresh_pixmap hgood
    have conclude : ∀ pixmap1, for_loop (flat (p3_sample (malloc_cells (w : Int) (h : Int))
        (w : Int) (m : Int)) w) good.length 0 ⟨fp1, fresh_pixmap⟩ =
          Step.next ⟨chain_end fp1 good, pixmap1⟩ →
        (∀ out, load_image image_ptr (some input) = some out → out.ret = 1 ∧ out.fcloses = 1) ∧
        ∃ out, load_image image_ptr (some input) = some out := by
      intro pixmap1 hn
      have hload := load_image_p3_bad image_ptr input fp1 _ rest w h m good.length bad v hh
        hlen f hv hbad _ hn
      refine ⟨fun out ho => ?_, ⟨_, hload⟩⟩
      rw [hload] at ho
      simp only [Option.some.injEq] at ho
      rw [← ho]
      exact ⟨rfl, rfl⟩
    by_cases hsize : w * h ≤ 2147483647
    · obtain ⟨pixmap1, hn⟩ := hbounded
        (by rw [malloc_cells_small w h hsize]; omega)
        (by rw [malloc_cells_small w h hsize]; exact hsize)
      exact ⟨(conclude pixmap1 hn).1, fun _ => (conclude pixmap1 hn).2⟩
    · refine ⟨fun out ho => ?_, fun hc => absurd hc hsize⟩
      rcases hany with hu | ⟨pixmap1, hn⟩
      · exfalso
        have e : h * (w * 3) = good.length + (h * (w * 3) - good.length) := by
          have : h * (w * 3) = 3 * (w * h) := by ring
          omega
        unfold load_image at ho
        simp only [hh, if_true, Int.toNat_ofNat] at ho
        rw [image_load_p3_flat _ _ _ (by simp only; omega) (by simp only; omega)] at ho
        simp only [] at ho
        rw [e, for_loop_add, hu] at ho
        simp at ho
      · exact (conclude pixmap1 hn).1 out ho
  · intro image_ptr input out h hret
    obtain ⟨hd, fp1, val, hh, _, _, _, hpix, hval⟩ :=
      load_image_success image_ptr input out h hret
    exact ⟨hd, fp1, val, hh, hpix, fun hv t ht => (hval t ht).1 hv⟩

/-- C7 (witness): `"P3 1 1 255 300 0 0 "` (first sample 300 above the maxval 255) and
`"P3 1 1 255 7 -2 0 "` (second sample negative) make `load_image` return 1. -/
theorem p3_sample_range_checked_witness :
    (∃ out, load_image uninit_image (some (bytes "P3 1 1 255 300 0 0 ")) = some out ∧
      out.ret = 1 ∧ out.fcloses = 1) ∧
    (∃ out, load_image uninit_image (some (bytes "P3 1 1 255 7 -2 0 ")) = some out ∧
      out.ret = 1 ∧ out.fcloses = 1) := by
  constructor
  · obtain ⟨h1, h2⟩ := p3_sample_range_checked.1 uninit_image (bytes "P3 1 1 255 300 0 0 ")
      (bytes " 300 0 0 ") (bytes " 0 0 ") 1 1 255 [] (bytes "300") 300
      (by decide) (by decide) (by decide) (by decide) (by decide) (by decide)
    obtain ⟨out, ho⟩ := h2 (by decide)
    exact ⟨out, ho, h1 out ho⟩
  · obtain ⟨h1, h2⟩ := p3_sample_range_checked.1 uninit_image (bytes "P3 1 1 255 7 -2 0 ")
      (bytes " 7 -2 0 ") (bytes " 0 ") 1 1 255 [(bytes "7", bytes " -2 0 ")] (bytes "-2") (-2)
      (by decide) (by decide) (by decide) (by decide) (by decide) (by decide)
    obtain ⟨out, ho⟩ := h2 (by decide)
    exact ⟨out, ho, h1 out ho⟩

/-! ## Truncated P6 bodies -/

theorem skip_whitespace_suffix : ∀ (n : Nat) (fp fp1 : FILE), fp.length ≤ n →
    skip_whitespace fp = some fp1 → fp1 <:+ fp := by
  intro n
  induction n with
  | zero =>
    intro fp fp1 hl h
    have : fp = [] := List.length_eq_zero.mp (by omega)
    subst this
    simp [skip_whitespace_nil] at h
  | succ n ih =>
    intro fp fp1 hl h
    cases fp with
    | nil => simp [skip_whitespace_nil] at h
    | cons c fp =>
      simp only [List.length_cons] at hl
      rw [skip_whitespace_cons] at h
      cases hnl : is_newline c with
      | false =>
        rw [hnl] at h
        simp only [Bool.false_eq_true, if_false] at h
        split at h
        · exact (ih fp fp1 (by omega) h).trans (List.suffix_cons c fp)
        · simp only [Option.some.injEq] at h
          rw [← h]
      | true =>
        rw [hnl] at h
        simp only [if_true] at h
        cases hsc : skip_comments fp with
        | none => rw [hsc] at h; cases h
        | some fp2 =>
          rw [hsc] at h
          simp only [] at h
          rw [newline_is_whitespace c hnl] at h
          simp only [if_true] at h
          have hs := skip_comments_loop_suffix false fp fp2 hsc
          have := ih fp2 fp1 (by have := hs.length_le; omega) h
          exact (this.trans hs).trans (List.suffix_cons c fp)

/-- The single `skip_whitespace` call of `image_load_p6` consumes at least the separator
byte. -/
theorem skip_whitespace_sep_length (sep : Nat) (body fp1 : FILE)
    (hs : is_whitespace sep = true) (h : skip_whitespace (sep :: body) = some fp1) :
    fp1.length ≤ body.length := by
  rw [skip_whitespace_cons] at h
  cases hnl : is_newline sep with
  | false =>
    rw [hnl] at h
    simp only [Bool.false_eq_true, if_false, hs, if_true] at h
    exact (skip_whitespace_suffix body.length body fp1 (Nat.le_refl _) h).length_le
  | true =>
    rw [hnl] at h
    simp only [if_true] at h
    cases hsc : skip_comments body with
    | none => rw [hsc] at h; cases h
    | some fp2 =>
      rw [hsc] at h
      simp only [hs, if_true] at h
      have h1 := (skip_comments_loop_suffix false body fp2 hsc).length_le
      have h2 := (skip_whitespace_suffix fp2.length fp2 fp1 (Nat.le_refl _) h).length_le
      omega

/-- The P6 loop on a stream that is too short for the samples still to be read: it never
runs to its end; it returns 1, unless a pixel index leaves the defined range first. -/
theorem p6_loop_short (cells w : Nat) (m : Int) :
    ∀ (count n : Nat) (s : LoadState),
      s.fp.length < count * (if m < 256 then 1 else 2) →
      (for_loop (flat (p6_sample cells (w : Int) m) w) count n s = Step.undef ∨
        ∃ s1, for_loop (flat (p6_sample cells (w : Int) m) w) count n s = Step.ret 1 s1) ∧
      (n + count ≤ 3 * cells → cells ≤ 2147483647 →
        ∃ s1, for_loop (flat (p6_sample cells (w : Int) m) w) count n s = Step.ret 1 s1) := by
  intro count
  induction count with
  | zero => intro n s h; simp at h
  | succ count ih =>
    intro n s hlen
    obtain ⟨fp, pixmap⟩ := s
    simp only at hlen
    simp only [for_loop]
    by_cases hm : m < 256
    · rw [if_pos hm] at hlen
      cases fp with
      | nil =>
        have e : flat (p6_sample cells (w : Int) m) w n ⟨[], pixmap⟩ =
            Step.ret 1 ⟨[], pixmap⟩ := by
          unfold flat p6_sample
          simp only [hm, if_true]
        rw [e]
        exact ⟨Or.inr ⟨_, rfl⟩, fun _ _ => ⟨_, rfl⟩⟩
      | cons b0 fp =>
        have e : flat (p6_sample cells (w : Int) m) w n ⟨b0 :: fp, pixmap⟩ =
            if n / 3 ≤ 2147483647 ∧ n / 3 < cells then
              Step.next ⟨fp, Function.update pixmap (n / 3)
                (set_channel (n % 3) (fdiv (sample8 b0) m) (pixmap (n / 3)))⟩
            else Step.undef := by
          unfold flat p6_sample
          simp only [hm, if_true, store_channel_flat]
          by_cases hi : n / 3 ≤ 2147483647 ∧ n / 3 < cells
          · simp only [hi, and_self, if_true]
          · simp only [hi, if_false]
        rw [e]
        simp only [List.length_cons] at hlen
        by_cases hi : n / 3 ≤ 2147483647 ∧ n / 3 < cells
        · rw [if_pos hi]
          simp only []
          obtain ⟨h1, h2⟩ := ih (n + 1) ⟨fp, Function.update pixmap (n / 3)
            (set_channel (n % 3) (fdiv (sample8 b0) m) (pixmap (n / 3)))⟩
            (by rw [if_pos hm]; simp only; omega)
          exact ⟨h1, fun hb hc => h2 (by omega) hc⟩
        · rw [if_neg hi]
          exact ⟨Or.inl rfl, fun hb hc => absurd ⟨by omega, by omega⟩ hi⟩
    · rw [if_neg hm] at hlen
      match fp, hlen with
      | [], _ =>
        have e : flat (p6_sample cells (w : Int) m) w n ⟨[], pixmap⟩ =
            Step.ret 1 ⟨[], pixmap⟩ := by
          unfold flat p6_sample
          simp only [hm, if_false]
        rw [e]
        exact ⟨Or.inr ⟨_, rfl⟩, fun _ _ => ⟨_, rfl⟩⟩
      | [b0], _ =>
        have e : flat (p6_sample cells (w : Int) m) w n ⟨[b0], pixmap⟩ =
            Step.ret 1 ⟨[], pixmap⟩ := by
          unfold flat p6_sample
          simp only [hm, if_false]
        rw [e]
        exact ⟨Or.inr ⟨_, rfl⟩, fun _ _ => ⟨_, rfl⟩⟩
      | b0 :: b1 :: fp, hlen =>
        have e : flat (p6_sample cells (w : Int) m) w n ⟨b0 :: b1 :: fp, pixmap⟩ =
            if n / 3 ≤ 2147483647 ∧ n / 3 < cells then
              Step.next ⟨fp, Function.update pixmap (n / 3)
                (set_channel (n % 3) (fdiv (sample16 b0 b1) m) (pixmap (n / 3)))⟩
            else Step.undef := by
          unfold flat p6_sample
          simp only [hm, if_false, store_channel_flat]
          by_cases hi : n / 3 ≤ 2147483647 ∧ n / 3 < cells
          · simp only [hi, and_self, if_true]
          · simp only [hi, if_false]
        rw [e]
        simp only [List.length_cons] at hlen
        by_cases hi : n / 3 ≤ 2147483647 ∧ n / 3 < cells
        · rw [if_pos hi]
          simp only []
          obtain ⟨h1, h2⟩ := ih (n + 1) ⟨fp, Function.update pixmap (n / 3)
            (set_channel (n % 3) (fdiv (sample16 b0 b1) m) (pixmap (n / 3)))⟩
            (by rw [if_neg hm]; simp only; omega)
          exact ⟨h1, fun hb hc => h2 (by omega) hc⟩
        · rw [if_neg hi]
          exact ⟨Or.inl rfl, fun hb hc => absurd ⟨by omega, by omega⟩ hi⟩

theorem header_rest_ws_next (fp fp4 : FILE) (hd : Header)
    (h : load_image_header fp = HeaderResult.ok hd fp4) : ws_next fp4 = true := by
  obtain ⟨_, _, _, fp3, _, _, _, _, _, _, _, hm, _, _⟩ := load_image_header_ok fp fp4 hd h
  obtain ⟨fp0, bytes_read, buffer, _, hr, hb, _⟩ := read_field_inr fp3 fp4 _ hm
  exact (read_to_whitespace_result fp0 _ _ _ hr (by omega)).2.2.2

/-- C8: a truncated P6 body is rejected.  On a P6 stream with an accepted header
`(w, h, m)`, left at the separator byte `sep` behind the maxval token: if fewer than
`w*h*3*bps` bytes (`bps = 1` if `m < 256`, else 2) remain behind `sep`, then `load_image`
never returns 0, and it returns 1 (after closing the file) whenever `w*h ≤ INT_MAX`. -/
theorem p6_truncated_rejected (image_ptr : Image) (input : FILE) (sep : Nat) (body : FILE)
    (w h m : Nat)
    (hh : load_image_header input =
      HeaderResult.ok ⟨6, (w : Int), (h : Int), (m : Int)⟩ (sep :: body))
    (hlen : body.length < w * h * 3 * (if m < 256 then 1 else 2)) :
    (∀ out, load_image image_ptr (some input) = some out → out.ret = 1 ∧ out.fcloses = 1) ∧
    (w * h ≤ 2147483647 → ∃ out, load_image image_ptr (some input) = some out) := by
  obtain ⟨_, _, hwb, _, hhb, _, _⟩ := load_image_header_range _ _ _ hh
  simp only at hwb hhb
  have hsep : is_whitespace sep = true := by
    have := header_rest_ws_next _ _ _ hh
    simpa [ws_next] using this
  have hload : load_image image_ptr (some input) =
      (image_load_p6 (sep :: body) ⟨w, h, image_ptr.pixmap⟩ (m : Int)).map
        (fun r => ⟨r.1, r.2, 1⟩) := by
    unfold load_image
    simp only [hh]
    rw [if_neg (by decide)]
    simp only [Int.toNat_ofNat]
  rw [hload, image_load_p6_flat _ _ _ (by simp only; omega) (by simp only; omega)]
  simp only []
  cases hs : skip_whitespace (sep :: body) with
  | none =>
    simp only [Option.map_some']
    refine ⟨fun out ho => ?_, fun _ => ⟨_, rfl⟩⟩
    simp only [Option.some.injEq] at ho
    rw [← ho]
    exact ⟨rfl, rfl⟩
  | some fp1 =>
    simp only []
    have hl1 := skip_whitespace_sep_length sep body fp1 hsep hs
    have hcond : (m : Int) < 256 ↔ m < 256 := by omega
    have hshort : fp1.length < h * (w * 3) * (if (m : Int) < 256 then 1 else 2) := by
      have e : h * (w * 3) = w * h * 3 := by ring
      rw [e]
      by_cases hm : m < 256
      · rw [if_pos hm] at hlen
        rw [if_pos (hcond.2 hm)]
        omega
      · rw [if_neg hm] at hlen
        rw [if_neg (fun hc => hm (hcond.1 hc))]
        omega
    obtain ⟨hany, hbounded⟩ := p6_loop_short (malloc_cells (w : Int) (h : Int)) w (m : Int)
      (h * (w * 3)) 0 ⟨fp1, fresh_pixmap⟩ hshort
    by_cases hsize : w * h ≤ 2147483647
    · obtain ⟨s1, hr⟩ := hbounded
        (by rw [malloc_cells_small w h hsize]; have : h * (w * 3) = 3 * (w * h) := by ring
            omega)
        (by rw [malloc_cells_small w h hsize]; exact hsize)
      rw [hr]
      simp only [Option.map_some']
      refine ⟨fun out ho => ?_, fun _ => ⟨_, rfl⟩⟩
      simp only [Option.some.injEq] at ho
      rw [← ho]
      exact ⟨rfl, rfl⟩
    · refine ⟨fun out ho => ?_, fun hc => absurd hc hsize⟩
      rcases hany with hu | ⟨s1, hr⟩
      · rw [hu] at ho
        simp at ho
      · rw [hr] at ho
        simp only [Option.map_some', Option.some.injEq] at ho
        rw [← ho]
        exact ⟨rfl, rfl⟩

/-- C8 (witness): `"P6\n2 1\n255\n"` followed by only five of the six body bytes makes
`load_image` return 1. -/
theorem p6_truncated_rejected_witness :
    ∃ out, load_image uninit_image (some (bytes "P6\n2 1\n255\n" ++ [255, 0, 0, 0, 255])) =
      some out ∧ out.ret = 1 ∧ out.fcloses = 1 := by
  obtain ⟨h1, h2⟩ := p6_truncated_rejected uninit_image
    (bytes "P6\n2 1\n255\n" ++ [255, 0, 0, 0, 255]) 10 [255, 0, 0, 0, 255] 2 1 255
    (by decide) (by decide)
  obtain ⟨out, ho⟩ := h2 (by decide)
  exact ⟨out, ho, h1 out ho⟩

/-! ## Comments between the header tokens -/

/-- How `skip_comments` passes over the bytes `G ++ [g]`, whatever follows them: either it
consumes them all and goes on in the state `ic1` (outside a comment when `g` is a line
terminator), or it stops inside them and returns the stream from there. -/
theorem skip_comments_loop_prefix (g : Nat) : ∀ (G : List Nat) (ic : Bool),
    (∃ ic1, (is_newline g = true → ic1 = false) ∧
      ∀ Z, skip_comments_loop ic (G ++ g :: Z) = skip_comments_loop ic1 Z) ∨
    (∃ S, S <:+ G ∧ ∀ Z, skip_comments_loop ic (G ++ g :: Z) = some (S ++ g :: Z)) := by
  intro G
  induction G with
  | nil =>
    intro ic
    cases ic with
    | true =>
      left
      refine ⟨!is_newline g, fun h => by simp [h], fun Z => ?_⟩
      simp only [List.nil_append, skip_comments_loop]
      cases is_newline g <;> simp
    | false =>
      by_cases hg : g = 35
      · left
        refine ⟨true, fun h => ?_, fun Z => ?_⟩
        · rw [hg] at h; exact absurd h (by decide)
        · simp only [List.nil_append, skip_comments_loop, hg, if_true]
      · right
        refine ⟨[], List.suffix_refl _, fun Z => ?_⟩
        simp only [List.nil_append, skip_comments_loop, hg, if_false]
  | cons c G ih =>
    intro ic
    have lift : ∀ ic0,
        ((∃ ic1, (is_newline g = true → ic1 = false) ∧
          ∀ Z, skip_comments_loop ic0 (G ++ g :: Z) = skip_comments_loop ic1 Z) ∨
        (∃ S, S <:+ G ∧ ∀ Z, skip_comments_loop ic0 (G ++ g :: Z) = some (S ++ g :: Z))) →
        (∀ Z, skip_comments_loop ic (c :: G ++ g :: Z) = skip_comments_loop ic0 (G ++ g :: Z)) →
        ((∃ ic1, (is_newline g = true → ic1 = false) ∧
          ∀ Z, skip_comments_loop ic (c :: G ++ g :: Z) = skip_comments_loop ic1 Z) ∨
        (∃ S, S <:+ c :: G ∧
          ∀ Z, skip_comments_loop ic (c :: G ++ g :: Z) = some (S ++ g :: Z))) := by
      intro ic0 h e
      rcases h with ⟨ic1, h1, h2⟩ | ⟨S, h1, h2⟩
      · left; exact ⟨ic1, h1, fun Z => by rw [e, h2]⟩
      · right; exact ⟨S, h1.trans (List.suffix_cons c G), fun Z => by rw [e, h2]⟩
    cases ic with
    | true =>
      cases hc : is_newline c with
      | true =>
        exact lift false (ih false) (fun Z => by
          rw [List.cons_append]
          simp only [skip_comments_loop, hc, if_true])
      | false =>
        exact lift true (ih true) (fun Z => by
          rw [List.cons_append]
          simp only [skip_comments_loop, hc, Bool.false_eq_true, if_false])
    | false =>
      by_cases hc : c = 35
      · exact lift true (ih true) (fun Z => by
          rw [List.cons_append]
          simp only [skip_comments_loop, hc, if_true])
      · right
        refine ⟨c :: G, List.suffix_refl _, fun Z => ?_⟩
        rw [List.cons_append]
        simp only [skip_comments_loop, hc, if_false]

theorem skip_comments_loop_in_comment (cb : List Nat) (e : Nat) (Z : FILE)
    (hcb : cb.all (fun x => !is_newline x) = true) (he : is_newline e = true) :
    skip_comments_loop true (cb ++ e :: Z) = skip_comments_loop false Z := by
  induction cb with
  | nil => simp only [List.nil_append, skip_comments_loop, he, if_true]
  | cons c cb ih =>
    simp only [List.all_cons, Bool.and_eq_true, Bool.not_eq_true'] at hcb
    simp only [List.cons_append, skip_comments_loop, hcb.1, Bool.false_eq_true, if_false]
    exact ih (by simpa using hcb.2)

/-- Outside a comment, `skip_comments` passes over a whole comment line and is then in
the state it started in. -/
theorem skip_comments_absorb (cmt : List Nat) (h : comment_line cmt = true) (Z : FILE) :
    skip_comments_loop false (cmt ++ Z) = skip_comments_loop false Z := by
  cases cmt with
  | nil => simp [comment_line] at h
  | cons c l =>
    simp only [comment_line, Bool.and_eq_true, beq_iff_eq] at h
    obtain ⟨⟨⟨hc, hne⟩, hbody⟩, hlast⟩ := h
    have hl : l ≠ [] := by
      intro e; rw [e] at hne; simp at hne
    have hsplit := List.dropLast_append_getLast hl
    have hlast1 : is_newline (l.getLast hl) = true := by
      rw [List.getLast?_eq_getLast l hl] at hlast
      simpa using hlast
    rw [hc, List.cons_append, ← hsplit]
    simp only [skip_comments_loop, if_true, List.append_assoc, List.singleton_append]
    exact skip_comments_loop_in_comment _ _ Z hbody hlast1

/-- Inserting a comment line directly behind a line terminator `t` inside the bytes that
`skip_whitespace` passes over does not change where it stops. -/
theorem skip_whitespace_insert (t : Nat) (ht : is_newline t = true) (cmt : List Nat)
    (hcmt : comment_line cmt = true) :
    ∀ (n : Nat) (a : List Nat) (Y R : FILE), a.length ≤ n → R.length ≤ Y.length →
      skip_whitespace (a ++ t :: Y) = some R →
      skip_whitespace (a ++ t :: (cmt ++ Y)) = some R := by
  have htw := newline_is_whitespace t ht
  intro n
  induction n with
  | zero =>
    intro a Y R ha _ h
    have : a = [] := List.length_eq_zero.mp (by omega)
    subst this
    simp only [List.nil_append] at h ⊢
    rw [skip_whitespace_cons] at h ⊢
    simp only [ht, if_true, skip_comments] at h ⊢
    rw [skip_comments_absorb cmt hcmt Y]
    exact h
  | succ n ih =>
    intro a Y R ha hR h
    cases a with
    | nil =>
      simp only [List.nil_append] at h ⊢
      rw [skip_whitespace_cons] at h ⊢
      simp only [ht, if_true, skip_comments] at h ⊢
      rw [skip_comments_absorb cmt hcmt Y]
      exact h
    | cons c a =>
      simp only [List.length_cons] at ha
      simp only [List.cons_append] at h ⊢
      rw [skip_whitespace_cons] at h ⊢
      cases hnl : is_newline c with
      | false =>
        rw [hnl] at h
        simp only [Bool.false_eq_true, if_false] at h ⊢
        cases hw : is_whitespace c with
        | true =>
          rw [hw] at h
          simp only [if_true] at h ⊢
          exact ih a Y R (by omega) hR h
        | false =>
          rw [hw] at h
          simp only [Bool.false_eq_true, if_false, Option.some.injEq] at h
          have := congrArg List.length h
          simp only [List.length_cons, List.length_append] at this
          omega
      | true =>
        rw [hnl] at h
        rw [newline_is_whitespace c hnl] at h ⊢
        simp only [if_true, skip_comments] at h ⊢
        rcases skip_comments_loop_prefix t a false with ⟨ic1, h1, h2⟩ | ⟨S, h1, h2⟩
        · have e := h1 ht
          subst e
          rw [h2] at h ⊢
          rw [skip_comments_absorb cmt hcmt Y]
          exact h
        · rw [h2] at h ⊢
          simp only [] at h ⊢
          exact ih S Y R (by have := h1.length_le; omega) hR h

/-- Where `skip_whitespace` stops depends only on the bytes it passes over and on the byte
it stops at. -/
theorem skip_whitespace_tail (d : Nat) :
    ∀ (n : Nat) (G : List Nat) (Z Z1 : FILE), G.length ≤ n →
      skip_whitespace (G ++ d :: Z) = some (d :: Z) →
      skip_whitespace (G ++ d :: Z1) = some (d :: Z1) := by
  have base : ∀ Z Z1 : FILE, skip_whitespace (d :: Z) = some (d :: Z) →
      skip_whitespace (d :: Z1) = some (d :: Z1) := by
    intro Z Z1 h
    rw [skip_whitespace_cons] at h ⊢
    cases hw : is_whitespace d with
    | false =>
      have hnl : is_newline d = false := by
        cases h1 : is_newline d with
        | false => rfl
        | true => rw [newline_is_whitespace d h1] at hw; exact absurd hw (by simp)
      simp only [hnl, Bool.false_eq_true, if_false]
    | true =>
      exfalso
      rw [hw] at h
      cases hnl : is_newline d with
      | false =>
        rw [hnl] at h
        simp only [Bool.false_eq_true, if_false, if_true] at h
        have := (skip_whitespace_suffix Z.length Z _ (Nat.le_refl _) h).length_le
        simp only [List.length_cons] at this
        omega
      | true =>
        rw [hnl] at h
        simp only [if_true] at h
        cases hsc : skip_comments Z with
        | none => rw [hsc] at h; cases h
        | some fp1 =>
          rw [hsc] at h
          simp only [] at h
          have h1 := (skip_comments_loop_suffix false Z fp1 hsc).length_le
          have h2 := (skip_whitespace_suffix fp1.length fp1 _ (Nat.le_refl _) h).length_le
          simp only [List.length_cons] at h2
          omega
  intro n
  induction n with
  | zero =>
    intro G Z Z1 hG h
    have : G = [] := List.length_eq_zero.mp (by omega)
    subst this
    exact base Z Z1 h
  | succ n ih =>
    intro G Z Z1 hG h
    cases G with
    | nil => exact base Z Z1 h
    | cons c G =>
      simp only [List.length_cons] at hG
      simp only [List.cons_append] at h ⊢
      rw [skip_whitespace_cons] at h ⊢
      cases hnl : is_newline c with
      | false =>
        rw [hnl] at h
        simp only [Bool.false_eq_true, if_false] at h ⊢
        cases hw : is_whitespace c with
        | true =>
          rw [hw] at h
          simp only [if_true] at h ⊢
          exact ih G Z Z1 (by omega) h
        | false =>
          rw [hw] at h
          simp only [Bool.false_eq_true, if_false, Option.some.injEq] at h
          have := congrArg List.length h
          simp only [List.length_cons, List.length_append] at this
          omega
      | true =>
        rw [hnl] at h
        rw [newline_is_whitespace c hnl] at h ⊢
        simp only [if_true, skip_comments] at h ⊢
        rcases skip_comments_loop_prefix d G false with ⟨ic1, _, h2⟩ | ⟨S, h1, h2⟩
        · exfalso
          rw [h2] at h
          cases hsc : skip_comments_loop ic1 Z with
          | none => rw [hsc] at h; cases h
          | some fp1 =>
            rw [hsc] at h
            simp only [] at h
            have l1 := (skip_comments_loop_suffix ic1 Z fp1 hsc).length_le
            have l2 := (skip_whitespace_suffix fp1.length fp1 _ (Nat.le_refl _) h).length_le
            simp only [List.length_cons] at l2
            omega
        · rw [h2] at h ⊢
          simp only [] at h ⊢
          exact ih S Z Z1 (by have := h1.length_le; omega) h

theorem ws_next_append_of_ne_nil (G : List Nat) (R R1 : FILE) (hG : G ≠ []) :
    ws_next (G ++ R) = ws_next (G ++ R1) := by
  cases G with
  | nil => exact absurd rfl hG
  | cons c G => rfl

/-- A comment line inserted behind a line terminator of the skipped bytes leaves the
field where it is. -/
theorem field_at_insert (a b tok : List Nat) (t : Nat) (cmt : List Nat) (rest : FILE)
    (ht : is_newline t = true) (hcmt : comment_line cmt = true)
    (f : field_at (a ++ t :: b ++ (tok ++ rest)) tok rest = true) :
    field_at (a ++ t :: (cmt ++ b) ++ (tok ++ rest)) tok rest = true := by
  rw [field_at_iff] at f ⊢
  obtain ⟨h1, h2, h3, h4, h5⟩ := f
  refine ⟨?_, ?_, h3, h4, h5⟩
  · cases a with
    | nil => simpa [ws_next] using newline_is_whitespace t ht
    | cons c a => simpa [ws_next] using h1
  · have e1 : a ++ t :: b ++ (tok ++ rest) = a ++ t :: (b ++ (tok ++ rest)) := by simp
    have e2 : a ++ t :: (cmt ++ b) ++ (tok ++ rest) = a ++ t :: (cmt ++ (b ++ (tok ++ rest))) := by
      simp
    rw [e1] at h2
    rw [e2]
    exact skip_whitespace_insert t ht cmt hcmt a.length a _ _ (Nat.le_refl _)
      (by simp) h2

/-- The field stays where it is when the stream behind its token changes. -/
theorem field_at_tail (G tok : List Nat) (rest rest1 : FILE)
    (f : field_at (G ++ (tok ++ rest)) tok rest = true) (hr : ws_next rest1 = true) :
    field_at (G ++ (tok ++ rest1)) tok rest1 = true := by
  rw [field_at_iff] at f ⊢
  obtain ⟨h1, h2, h3, h4, _⟩ := f
  have htk := h3
  simp only [token, Bool.and_eq_true] at htk
  cases tok with
  | nil => simp at htk
  | cons d tok =>
    have hd : is_whitespace d = false := by
      have := htk.2
      simp only [List.all_cons, Bool.and_eq_true, Bool.not_eq_true'] at this
      exact this.1
    have hG : G ≠ [] := by
      intro e
      rw [e] at h1
      simp [ws_next, hd] at h1
    refine ⟨?_, ?_, h3, h4, hr⟩
    · rw [← ws_next_append_of_ne_nil G (d :: tok ++ rest) (d :: tok ++ rest1) hG]
      exact h1
    · exact skip_whitespace_tail d G.length G (tok ++ rest) (tok ++ rest1) (Nat.le_refl _) h2

/-- The header of a stream with three fields depends only on the magic number, the three
tokens and the stream behind the last token. -/
theorem load_image_header_of_fields (mg : Nat) (fp0 fp1 fp2 fp3 : FILE)
    (wtok htok mtok : List Nat) (hmg : mg = 51 ∨ mg = 54)
    (f1 : field_at fp0 wtok fp1 = true) (f2 : field_at fp1 htok fp2 = true)
    (f3 : field_at fp2 mtok fp3 = true) :
    load_image_header (80 :: mg :: fp0) =
      match atoi wtok with
      | none => HeaderResult.undef
      | some width =>
        if width < 0 then HeaderResult.ret1 1
        else
          match atoi htok with
          | none => HeaderResult.undef
          | some height =>
            if height < 0 then HeaderResult.ret1 1
            else
              match atoi mtok with
              | none => HeaderResult.undef
              | some color_max =>
                if color_max < 0 ∨ color_max > 65535 then HeaderResult.ret1 1
                else HeaderResult.ok ⟨magic_version [80, mg], width, height, color_max⟩ fp3 := by
  rw [load_image_header_magic mg fp0 hmg ((field_at_iff _ _ _).1 f1).1]
  rw [read_field_at _ _ _ f1]
  cases atoi wtok with
  | none => rfl
  | some w =>
    simp only []
    rw [read_field_at _ _ _ f2]
    cases atoi htok with
    | none => simp only []
    | some h =>
      simp only []
      rw [read_field_at _ _ _ f3]
      cases atoi mtok with
      | none => simp only []
      | some m => rfl

/-- Take a stream made of a valid magic number and the three header fields, `g1`, `g2`,
`g3` being the bytes that `skip_whitespace` passes over in front of the width, height and
maxval token.  Inserting a comment line directly behind a line terminator `t` of one of
`g1`, `g2`, `g3` gives a stream on which `load_image` has the same outcome. -/
theorem comment_insertion_same (image_ptr : Image) (mg : Nat)
    (g1 wtok g2 htok g3 mtok : List Nat) (rest : FILE) (g1' g2' g3' : List Nat)
    (a b cmt : List Nat) (t : Nat) (hmg : mg = 51 ∨ mg = 54)
    (f1 : field_at (g1 ++ (wtok ++ (g2 ++ (htok ++ (g3 ++ (mtok ++ rest)))))) wtok
      (g2 ++ (htok ++ (g3 ++ (mtok ++ rest)))) = true)
    (f2 : field_at (g2 ++ (htok ++ (g3 ++ (mtok ++ rest)))) htok (g3 ++ (mtok ++ rest)) = true)
    (f3 : field_at (g3 ++ (mtok ++ rest)) mtok rest = true)
    (ht : is_newline t = true) (hcmt : comment_line cmt = true)
    (hins : (g1 = a ++ t :: b ∧ g1' = a ++ t :: (cmt ++ b) ∧ g2' = g2 ∧ g3' = g3) ∨
      (g2 = a ++ t :: b ∧ g1' = g1 ∧ g2' = a ++ t :: (cmt ++ b) ∧ g3' = g3) ∨
      (g3 = a ++ t :: b ∧ g1' = g1 ∧ g2' = g2 ∧ g3' = a ++ t :: (cmt ++ b))) :
    load_image image_ptr
        (some (80 :: mg :: (g1' ++ (wtok ++ (g2' ++ (htok ++ (g3' ++ (mtok ++ rest)))))))) =
      load_image image_ptr
        (some (80 :: mg :: (g1 ++ (wtok ++ (g2 ++ (htok ++ (g3 ++ (mtok ++ rest)))))))) := by
  have k3 : field_at (g3' ++ (mtok ++ rest)) mtok rest = true := by
    rcases hins with ⟨_, _, _, e⟩ | ⟨_, _, _, e⟩ | ⟨e0, _, _, e⟩
    · rw [e]; exact f3
    · rw [e]; exact f3
    · rw [e]; rw [e0] at f3; exact field_at_insert a b mtok t cmt rest ht hcmt f3
  have k2 : field_at (g2' ++ (htok ++ (g3' ++ (mtok ++ rest)))) htok
      (g3' ++ (mtok ++ rest)) = true := by
    have f2' := field_at_tail g2 htok _ (g3' ++ (mtok ++ rest)) f2 ((field_at_iff _ _ _).1 k3).1
    rcases hins with ⟨_, _, e, _⟩ | ⟨e0, _, e, _⟩ | ⟨_, _, e, _⟩
    · rw [e]; exact f2'
    · rw [e]; rw [e0] at f2'; exact field_at_insert a b htok t cmt _ ht hcmt f2'
    · rw [e]; exact f2'
  have k1 : field_at (g1' ++ (wtok ++ (g2' ++ (htok ++ (g3' ++ (mtok ++ rest)))))) wtok
      (g2' ++ (htok ++ (g3' ++ (mtok ++ rest)))) = true := by
    have f1' := field_at_tail g1 wtok _ (g2' ++ (htok ++ (g3' ++ (mtok ++ rest)))) f1
      ((field_at_iff _ _ _).1 k2).1
    rcases hins with ⟨e0, e, _, _⟩ | ⟨_, e, _, _⟩ | ⟨_, e, _, _⟩
    · rw [e]; rw [e0] at f1'; exact field_at_insert a b wtok t cmt _ ht hcmt f1'
    · rw [e]; exact f1'
    · rw [e]; exact f1'
  have hhd := load_image_header_of_fields mg _ _ _ _ wtok htok mtok hmg f1 f2 f3
  have hhd' := load_image_header_of_fields mg _ _ _ _ wtok htok mtok hmg k1 k2 k3
  unfold load_image
  simp only [hhd, hhd']

theorem read_to_whitespace_loop_bound (buffer_size : Int) (fp : FILE) :
    ∀ (pos : Nat) (buffer : List Nat),
      (read_to_whitespace_loop buffer_size fp pos buffer).1 = -1 ∨
      (read_to_whitespace_loop buffer_size fp pos buffer).1 ≤ buffer_size - 1 := by
  induction fp with
  | nil => intro pos buffer; left; rfl
  | cons c fp ih =>
    intro pos buffer
    simp only [read_to_whitespace_loop]
    by_cases hp : (pos : Int) > buffer_size - 1
    · left; rw [if_pos hp]
    · rw [if_neg hp]
      cases hc : is_whitespace c with
      | true => right; simp only [if_true]; omega
      | false => simp only [Bool.false_eq_true, if_false]; exact ih (pos + 1) (buffer ++ [c])

theorem first_token_all (fp : FILE) :
    (first_token fp).all (fun c => !is_whitespace c) = true := by
  induction fp with
  | nil => rfl
  | cons c fp ih =>
    unfold first_token
    rw [List.takeWhile_cons]
    cases hc : is_whitespace c with
    | true => simp
    | false =>
      simp only [Bool.not_false, if_true, List.all_cons, hc, Bool.true_and]
      exact ih

/-- A header field that was read: the stream is the skipped bytes, the token and the
stream behind the token. -/
theorem read_field_field_at (fp fp1 : FILE) (v : Int) (hws : ws_next fp = true)
    (h : read_field fp = Sum.inr (v, fp1)) :
    ∃ g tok, fp = g ++ (tok ++ fp1) ∧ field_at fp tok fp1 = true := by
  obtain ⟨fp0, bytes_read, buffer, hs, hr, hb, _⟩ := read_field_inr fp fp1 v h
  obtain ⟨e1, _, e3, e4⟩ := read_to_whitespace_result fp0 _ _ _ hr (by omega)
  have hbound : bytes_read ≤ 1023 := by
    have := read_to_whitespace_loop_bound IMAGE_READ_BUFFER_SIZE fp0 0 []
    unfold read_to_whitespace at hr
    rw [hr] at this
    simp only [IMAGE_READ_BUFFER_SIZE] at this
    omega
  obtain ⟨g, hg⟩ := skip_whitespace_suffix fp.length fp fp0 (Nat.le_refl _) hs
  refine ⟨g, first_token fp0, ?_, ?_⟩
  · rw [← e3, hg]
  · rw [field_at_iff]
    refine ⟨hws, ?_, ?_, by omega, e4⟩
    · rw [hs, ← e3]
    · simp only [token, Bool.and_eq_true]
      refine ⟨?_, first_token_all fp0⟩
      cases hft : first_token fp0 with
      | nil => rw [hft] at e1; simp at e1; omega
      | cons c l => rfl

/-- Every stream on which `load_image` returns 0 consists of a valid magic number, the
three header fields, each with the bytes skipped in front of its token, and the stream
behind the maxval token. -/
theorem load_image_success_fields (image_ptr : Image) (input : FILE) (out : Outcome)
    (h : load_image image_ptr (some input) = some out) (hret : out.ret = 0) :
    ∃ mg g1 wtok g2 htok g3 mtok rest, (mg = 51 ∨ mg = 54) ∧
      input = 80 :: mg :: (g1 ++ (wtok ++ (g2 ++ (htok ++ (g3 ++ (mtok ++ rest)))))) ∧
      field_at (g1 ++ (wtok ++ (g2 ++ (htok ++ (g3 ++ (mtok ++ rest)))))) wtok
        (g2 ++ (htok ++ (g3 ++ (mtok ++ rest)))) = true ∧
      field_at (g2 ++ (htok ++ (g3 ++ (mtok ++ rest)))) htok (g3 ++ (mtok ++ rest)) = true ∧
      field_at (g3 ++ (mtok ++ rest)) mtok rest = true := by
  obtain ⟨hd, fp4, _, hh, _⟩ := load_image_success image_ptr input out h hret
  obtain ⟨buffer, fp1, fp2, fp3, hr, hv, hv0, hw, _, hht, _, hm, _, _⟩ :=
    load_image_header_ok input fp4 hd hh
  obtain ⟨e1, e2, e3, e4⟩ := read_to_whitespace_result input _ _ _ hr (by omega)
  have hl : buffer.length = 2 := by
    rw [e2]
    have : ((first_token input).length : Int) = 2 := e1.symm
    omega
  rw [← hv] at hv0
  obtain ⟨g1, wtok, d1, k1⟩ := read_field_field_at fp1 fp2 _ e4 hw
  obtain ⟨g2, htok, d2, k2⟩ := read_field_field_at fp2 fp3 _
    ((field_at_iff _ _ _).1 k1).2.2.2.2 hht
  obtain ⟨g3, mtok, d3, k3⟩ := read_field_field_at fp3 fp4 _
    ((field_at_iff _ _ _).1 k2).2.2.2.2 hm
  subst d3
  subst d2
  subst d1
  rw [← e2] at e3
  rcases magic_version_ne_zero buffer hl hv0 with hb | hb
  · refine ⟨51, g1, wtok, g2, htok, g3, mtok, fp4, Or.inl rfl, ?_, k1, k2, k3⟩
    rw [e3, hb]; rfl
  · refine ⟨54, g1, wtok, g2, htok, g3, mtok, fp4, Or.inr rfl, ?_, k1, k2, k3⟩
    rw [e3, hb]; rfl

/-- C9: comment insertion does not change the decode result.  Every stream on which
`load_image` returns 0 consists of a valid magic number and the three header fields; let
`g1`, `g2`, `g3` be the bytes that `skip_whitespace` passes over in front of the width,
height and maxval token.  Inserting a comment line (`#`, bytes other than LF and CR, a
line terminator) directly behind a line terminator `t` of one of `g1`, `g2`, `g3` gives a
stream on which `load_image` returns the same outcome: it succeeds with the same width,
height and pixels. -/
theorem comment_insertion_invariant (image_ptr : Image) (input : FILE) (out : Outcome)
    (h : load_image image_ptr (some input) = some out) (hret : out.ret = 0) :
    (∃ mg g1 wtok g2 htok g3 mtok rest,
      input = 80 :: mg :: (g1 ++ (wtok ++ (g2 ++ (htok ++ (g3 ++ (mtok ++ rest)))))) ∧
      field_at (g1 ++ (wtok ++ (g2 ++ (htok ++ (g3 ++ (mtok ++ rest)))))) wtok
        (g2 ++ (htok ++ (g3 ++ (mtok ++ rest)))) = true ∧
      field_at (g2 ++ (htok ++ (g3 ++ (mtok ++ rest)))) htok (g3 ++ (mtok ++ rest)) = true ∧
      field_at (g3 ++ (mtok ++ rest)) mtok rest = true) ∧
    (∀ (mg : Nat) (g1 wtok g2 htok g3 mtok : List Nat) (rest : FILE) (g1' g2' g3' : List Nat)
      (a b cmt : List Nat) (t : Nat),
      input = 80 :: mg :: (g1 ++ (wtok ++ (g2 ++ (htok ++ (g3 ++ (mtok ++ rest)))))) →
      field_at (g1 ++ (wtok ++ (g2 ++ (htok ++ (g3 ++ (mtok ++ rest)))))) wtok
        (g2 ++ (htok ++ (g3 ++ (mtok ++ rest)))) = true →
      field_at (g2 ++ (htok ++ (g3 ++ (mtok ++ rest)))) htok (g3 ++ (mtok ++ rest)) = true →
      field_at (g3 ++ (mtok ++ rest)) mtok rest = true →
      is_newline t = true → comment_line cmt = true →
      ((g1 = a ++ t :: b ∧ g1' = a ++ t :: (cmt ++ b) ∧ g2' = g2 ∧ g3' = g3) ∨
        (g2 = a ++ t :: b ∧ g1' = g1 ∧ g2' = a ++ t :: (cmt ++ b) ∧ g3' = g3) ∨
        (g3 = a ++ t :: b ∧ g1' = g1 ∧ g2' = g2 ∧ g3' = a ++ t :: (cmt ++ b))) →
      load_image image_ptr
          (some (80 :: mg :: (g1' ++ (wtok ++ (g2' ++ (htok ++ (g3' ++ (mtok ++ rest)))))))) =
        some out) := by
  constructor
  · obtain ⟨mg, g1, wtok, g2, htok, g3, mtok, rest, _, e, f1, f2, f3⟩ :=
      load_image_success_fields image_ptr input out h hret
    exact ⟨mg, g1, wtok, g2, htok, g3, mtok, rest, e, f1, f2, f3⟩
  · intro mg g1 wtok g2 htok g3 mtok rest g1' g2' g3' a b cmt t e f1 f2 f3 ht hcmt hins
    have hmg : mg = 51 ∨ mg = 54 := by
      obtain ⟨mg0, _, _, _, _, _, _, _, hmg0, e0, _⟩ :=
        load_image_success_fields image_ptr input out h hret
      rw [e] at e0
      simp only [List.cons.injEq, true_and] at e0
      rw [e0.1]
      exact hmg0
    rw [comment_insertion_same image_ptr mg g1 wtok g2 htok g3 mtok rest g1' g2' g3' a b cmt t
      hmg f1 f2 f3 ht hcmt hins, ← e]
    exact h

/-- C9 (witness): a comment line behind the line break that follows the magic number of
`"P3\n1 1\n255\n255 0 0\n"` does not change the outcome of `load_image`. -/
theorem comment_insertion_invariant_witness :
    ∃ out, load_image uninit_image (some (bytes "P3\n1 1\n255\n255 0 0\n")) = some out ∧
      out.ret = 0 ∧
      load_image uninit_image (some (bytes "P3\n# a comment\n1 1\n255\n255 0 0\n")) =
        some out := by
  have hev : (load_image uninit_image (some (bytes "P3\n1 1\n255\n255 0 0\n"))).map
      (fun out => out.ret) = some 0 := by decide
  cases hq : load_image uninit_image (some (bytes "P3\n1 1\n255\n255 0 0\n")) with
  | none => rw [hq] at hev; cases hev
  | some out =>
    rw [hq] at hev
    simp only [Option.map_some', Option.some.injEq] at hev
    refine ⟨out, rfl, hev, ?_⟩
    have h := (comment_insertion_invariant uninit_image _ out hq hev).2 51 [10] [49] [32] [49]
      [10] [50, 53, 53] (bytes "\n255 0 0\n") ([10] ++ bytes "# a comment\n") [32] [10] [] []
      (bytes "# a comment\n") 10 (by decide) (by decide) (by decide) (by decide) (by decide)
      (by decide) (by decide)
    have e1 : bytes "P3\n# a comment\n1 1\n255\n255 0 0\n" =
        80 :: 51 :: ([10] ++ bytes "# a comment\n" ++
          ([49] ++ ([32] ++ ([49] ++ ([10] ++ ([50, 53, 53] ++ bytes "\n255 0 0\n")))))) := by
      decide
    rw [e1]
    exact h

/-! ## Closing the file -/

/-- C10 (failing inputs): when the width, the height or the maxval token is cut off by the
end of the stream, `load_image` returns 1 without any call of `fclose`: the three
`bytes_read <= 0` branches return directly, unlike every other exit of the function. -/
theorem token_eof_leaves_file_open :
    load_image uninit_image (some (bytes "P3 12")) = some ⟨1, uninit_image, 0⟩ ∧
    load_image uninit_image (some (bytes "P3 1 2")) = some ⟨1, uninit_image, 0⟩ ∧
    load_image uninit_image (some (bytes "P6 1 1 25")) = some ⟨1, uninit_image, 0⟩ := by
  refine ⟨?_, ?_, ?_⟩
  · exact load_image_ret1 uninit_image _ 0 (by decide)
  · exact load_image_ret1 uninit_image _ 0 (by decide)
  · exact load_image_ret1 uninit_image _ 0 (by decide)

/-! ## The length bound of a token -/

theorem replicate_all_token (n : Nat) :
    (List.replicate n 48).all (fun c => !is_whitespace c) = true := by
  induction n with
  | zero => rfl
  | succ n ih =>
    rw [List.replicate_succ, List.all_cons, ih]
    decide

/-- A run of bytes without whitespace that does not fit into the buffer together with the
terminating NUL: the loop returns -1 at the test of the buffer bound, before the end of the
stream, so that unread bytes remain. -/
theorem read_to_whitespace_loop_long (buffer_size : Int) (t : List Nat) (rest : FILE)
    (hrest : rest ≠ []) :
    ∀ (pos : Nat) (buffer : List Nat),
      t.all (fun c => !is_whitespace c) = true →
      ((pos + t.length : Nat) : Int) > buffer_size - 1 →
      (read_to_whitespace_loop buffer_size (t ++ rest) pos buffer).1 = -1 ∧
        (read_to_whitespace_loop buffer_size (t ++ rest) pos buffer).2.2 ≠ [] := by
  induction t with
  | nil =>
    intro pos buffer _ hlen
    simp only [List.length_nil, Nat.add_zero] at hlen
    cases rest with
    | nil => exact absurd rfl hrest
    | cons c rest =>
      simp only [List.nil_append, read_to_whitespace_loop]
      rw [if_pos hlen]
      exact ⟨rfl, List.cons_ne_nil _ _⟩
  | cons a t ih =>
    intro pos buffer ht hlen
    simp only [List.all_cons, Bool.and_eq_true, Bool.not_eq_true'] at ht
    simp only [List.length_cons] at hlen
    simp only [List.cons_append, read_to_whitespace_loop]
    by_cases hp : (pos : Int) > buffer_size - 1
    · rw [if_pos hp]
      exact ⟨rfl, List.cons_ne_nil _ _⟩
    · rw [if_neg hp]
      simp only [ht.1, Bool.false_eq_true, if_false]
      exact ih (pos + 1) (buffer ++ [a]) (by simpa using ht.2)
        (by push_cast at hlen ⊢; omega)

/-- C11 (counterexample): a token of exactly 1024 bytes, here 1024 digits `0`, followed by
a space is not returned: `read_to_whitespace` with the buffer of 1024 bytes returns -1. -/
theorem token_of_1024_bytes_fails :
    (List.replicate 1024 48).length = 1024 ∧
      (read_to_whitespace (List.replicate 1024 48 ++ [32]) IMAGE_READ_BUFFER_SIZE).1 = -1 := by
  refine ⟨List.length_replicate 1024 48, ?_⟩
  unfold read_to_whitespace
  exact (read_to_whitespace_loop_long _ _ _ (List.cons_ne_nil _ _) 0 []
    (replicate_all_token 1024)
    (by rw [List.length_replicate]; simp only [IMAGE_READ_BUFFER_SIZE]; omega)).1

/-- C11 (amended): for a stream that starts with `n` bytes none of which is whitespace,
followed by a whitespace byte, `read_to_whitespace` with the buffer of 1024 bytes returns
the token, its length `n` and the stream from the whitespace byte on whenever `n ≤ 1023`,
and whenever `n ≥ 1024` it fails with -1 at the test of the buffer bound, unread bytes
remaining: the buffer also holds the terminating NUL. -/
theorem token_length_bound (t : List Nat) (c : Nat) (rest : FILE)
    (ht : t.all (fun c => !is_whitespace c) = true) (hc : is_whitespace c = true) :
    (t.length ≤ 1023 →
      read_to_whitespace (t ++ c :: rest) IMAGE_READ_BUFFER_SIZE =
        ((t.length : Int), t, c :: rest)) ∧
    (1024 ≤ t.length →
      (read_to_whitespace (t ++ c :: rest) IMAGE_READ_BUFFER_SIZE).1 = -1 ∧
        (read_to_whitespace (t ++ c :: rest) IMAGE_READ_BUFFER_SIZE).2.2 ≠ []) := by
  constructor
  · intro hlen
    exact read_to_whitespace_token t c rest ht hc hlen
  · intro hlen
    unfold read_to_whitespace
    exact read_to_whitespace_loop_long _ t (c :: rest) (List.cons_ne_nil _ _) 0 [] ht
      (by simp only [IMAGE_READ_BUFFER_SIZE]; omega)

/-- C11 (witness): the token `255` followed by a line feed is returned with length 3, the
cursor left on the line feed. -/
theorem token_length_bound_witness :
    read_to_whitespace (bytes "255\n0") IMAGE_READ_BUFFER_SIZE = (3, bytes "255", bytes "\n0") :=
  (token_length_bound (bytes "255") 10 (bytes "0") (by decide) (by decide)).1 (by decide)

/-! ## The bytes passed over by `skip_whitespace` -/

theorem skip_run_append (g1 g2 : List Nat) :
    ∀ s : SkipState, skip_run s (g1 ++ g2) =
      match skip_run s g1 with
      | none => none
      | some s1 => skip_run s1 g2 := by
  induction g1 with
  | nil => intro s; rfl
  | cons c g1 ih =>
    intro s
    simp only [List.cons_append, skip_run]
    cases skip_step s c with
    | none => rfl
    | some s1 => exact ih s1

/-- The bytes consumed by the loop of `skip_comments` are complete comments, one directly
behind the other, and the byte the loop stops at is not `#`. -/
theorem skip_comments_loop_run (fp : FILE) :
    ∀ (in_comment : Bool) (fp1 : FILE), skip_comments_loop in_comment fp = some fp1 →
      ∃ g, fp = g ++ fp1 ∧
        skip_run (if in_comment then SkipState.comment else SkipState.fresh) g =
          some SkipState.fresh ∧
        ∃ c t, fp1 = c :: t ∧ c ≠ 35 := by
  induction fp with
  | nil => intro ic fp1 h; cases ic <;> simp [skip_comments_loop] at h
  | cons c fp ih =>
    intro ic fp1 h
    cases ic with
    | true =>
      simp only [skip_comments_loop] at h
      cases hnl : is_newline c with
      | true =>
        rw [hnl] at h
        simp only [if_true] at h
        obtain ⟨g, e, hr, hc⟩ := ih false fp1 h
        refine ⟨c :: g, by rw [e]; rfl, ?_, hc⟩
        simp only [if_true, skip_run, skip_step, hnl]
        simpa using hr
      | false =>
        rw [hnl] at h
        simp only [Bool.false_eq_true, if_false] at h
        obtain ⟨g, e, hr, hc⟩ := ih true fp1 h
        refine ⟨c :: g, by rw [e]; rfl, ?_, hc⟩
        simp only [if_true, skip_run, skip_step, hnl, Bool.false_eq_true, if_false]
        simpa using hr
    | false =>
      simp only [skip_comments_loop] at h
      by_cases hc : c = 35
      · rw [if_pos hc] at h
        obtain ⟨g, e, hr, hc1⟩ := ih true fp1 h
        refine ⟨c :: g, by rw [e]; rfl, ?_, hc1⟩
        simp only [Bool.false_eq_true, if_false, skip_run, skip_step, hc, if_true]
        simpa using hr
      · rw [if_neg hc] at h
        simp only [Option.some.injEq] at h
        exact ⟨[], by rw [← h]; rfl, rfl, c, fp, h.symm, hc⟩

/-- Directly behind a line terminator a run of skipped bytes that does not start with `#`
reads as it does inside a line. -/
theorem skip_run_fresh (g : List Nat) (h : ∀ l, g ≠ 35 :: l)
    (hg : skip_run SkipState.line g = some SkipState.line ∨
      skip_run SkipState.line g = some SkipState.fresh) :
    skip_run SkipState.fresh g = some SkipState.line ∨
      skip_run SkipState.fresh g = some SkipState.fresh := by
  cases g with
  | nil => right; rfl
  | cons c g =>
    have hc : c ≠ 35 := fun e => h g (by rw [e])
    simp only [skip_run, skip_step, if_neg hc] at hg ⊢
    exact hg

theorem skipped_ok_iff (g : List Nat) :
    skipped_ok g = true ↔
      (skip_run SkipState.line g = some SkipState.line ∨
        skip_run SkipState.line g = some SkipState.fresh) := by
  simp only [skipped_ok, Bool.or_eq_true, beq_iff_eq]

/-- What `skip_whitespace` consumes and where it stops: the consumed bytes are whitespace
bytes and complete comments that start directly behind a line terminator, and the byte left
at the cursor is not a whitespace byte. -/
theorem skip_whitespace_run : ∀ (n : Nat) (fp fp1 : FILE), fp.length ≤ n →
    skip_whitespace fp = some fp1 →
    ∃ g, fp = g ++ fp1 ∧ skipped_ok g = true ∧ ∃ c t, fp1 = c :: t ∧ is_whitespace c = false := by
  intro n
  induction n with
  | zero =>
    intro fp fp1 hn h
    have : fp = [] := List.length_eq_zero.1 (Nat.le_zero.1 hn)
    subst this
    rw [skip_whitespace_nil] at h
    cases h
  | succ n ih =>
    intro fp fp1 hn h
    cases fp with
    | nil => rw [skip_whitespace_nil] at h; cases h
    | cons c fp =>
      rw [skip_whitespace_cons] at h
      simp only [List.length_cons] at hn
      cases hnl : is_newline c with
      | false =>
        rw [hnl] at h
        simp only [Bool.false_eq_true, if_false] at h
        cases hws : is_whitespace c with
        | false =>
          rw [hws] at h
          simp only [Bool.false_eq_true, if_false, Option.some.injEq] at h
          exact ⟨[], by rw [← h]; rfl, by decide, c, fp, h.symm, hws⟩
        | true =>
          rw [hws] at h
          simp only [if_true] at h
          obtain ⟨g, e, hg, hc⟩ := ih fp fp1 (by omega) h
          refine ⟨c :: g, by rw [e]; rfl, ?_, hc⟩
          rw [skipped_ok_iff] at hg ⊢
          simp only [skip_run, skip_step, hnl, hws, Bool.false_eq_true, if_false, if_true]
          exact hg
      | true =>
        rw [hnl] at h
        simp only [if_true] at h
        have hws := newline_is_whitespace c hnl
        cases hsc : skip_comments fp with
        | none => rw [hsc] at h; cases h
        | some fp2 =>
          rw [hsc] at h
          simp only [hws, if_true] at h
          obtain ⟨g1, e1, hr1, c2, t2, e2, hc2⟩ := skip_comments_loop_run fp false fp2 hsc
          have hl := skip_comments_length fp fp2 hsc
          obtain ⟨g2, e3, hg2, hc⟩ := ih fp2 fp1 (by omega) h
          refine ⟨c :: (g1 ++ g2), by rw [e1, e3]; simp, ?_, hc⟩
          rw [skipped_ok_iff] at hg2 ⊢
          simp only [skip_run, skip_step, hnl, if_true]
          rw [skip_run_append]
          simp only [Bool.false_eq_true, if_false] at hr1
          rw [hr1]
          refine skip_run_fresh g2 ?_ hg2
          intro l hl2
          obtain ⟨c3, t3, e4, _⟩ := hc
          rw [hl2, e2] at e3
          simp only [List.cons_append, List.cons.injEq] at e3
          exact hc2 e3.1

/-- Space and tab bytes are skipped without a look for comments: the skipper stops at the
first byte that is not whitespace, `#` included. -/
theorem skip_whitespace_space_tab (s : List Nat) (d : Nat) (rest : FILE)
    (hs : s.all (fun c => c == 32 || c == 9) = true) (hd : is_whitespace d = false) :
    skip_whitespace (s ++ d :: rest) = some (d :: rest) := by
  induction s with
  | nil =>
    have hnl : is_newline d = false := by
      cases h : is_newline d with
      | false => rfl
      | true => rw [newline_is_whitespace d h] at hd; exact absurd hd (by simp)
    simp [skip_whitespace_cons, hnl, hd]
  | cons c s ih =>
    simp only [List.all_cons, Bool.and_eq_true, Bool.or_eq_true, beq_iff_eq] at hs
    have hnl : is_newline c = false := by
      simp only [is_newline, Bool.or_eq_false_iff, beq_eq_false_iff_ne]
      omega
    have hws : is_whitespace c = true := by
      simp only [is_whitespace, Bool.or_eq_true, beq_iff_eq]
      omega
    rw [List.cons_append, skip_whitespace_cons]
    simp only [hnl, Bool.false_eq_true, if_false, hws, if_true]
    exact ih (by simpa using hs.2)

/-- C12: whenever `skip_whitespace` succeeds, the byte left at the cursor is not space, tab,
CR or LF, and the bytes it consumed are whitespace bytes and complete comments whose `#`
stands directly behind a line terminator (CR or LF, which also ends the comment before);
and behind one or more space or tab bytes a `#` is not a comment: `skip_whitespace` succeeds
with the `#` at the cursor, and the next token starts with it. -/
theorem comments_only_after_newline :
    (∀ fp fp1 : FILE, skip_whitespace fp = some fp1 →
      (∃ c t, fp1 = c :: t ∧ is_whitespace c = false) ∧
        ∃ g, fp = g ++ fp1 ∧ skipped_ok g = true) ∧
    (∀ (s : List Nat) (rest : FILE), space_tab_run s = true →
      skip_whitespace (s ++ 35 :: rest) = some (35 :: rest) ∧
        ∃ t, first_token (35 :: rest) = 35 :: t) := by
  constructor
  · intro fp fp1 h
    obtain ⟨g, e, hg, hc⟩ := skip_whitespace_run fp.length fp fp1 (Nat.le_refl _) h
    exact ⟨hc, g, e, hg⟩
  · intro s rest hs
    simp only [space_tab_run, Bool.and_eq_true] at hs
    refine ⟨skip_whitespace_space_tab s 35 rest hs.2 (by decide), ?_⟩
    refine ⟨first_token rest, ?_⟩
    unfold first_token
    rw [List.takeWhile_cons]
    rfl

/-- C12 (witness): behind `P3` the bytes space, LF, the comment `# c`, LF and tab are passed
over and the cursor is left on `5`; behind a space and a tab the cursor is left on `#`. -/
theorem comments_only_after_newline_witness :
    skip_whitespace (bytes " \n# c\n\t5 ") = some (bytes "5 ") ∧
      ((∃ c t, bytes "5 " = c :: t ∧ is_whitespace c = false) ∧
        ∃ g, bytes " \n# c\n\t5 " = g ++ bytes "5 " ∧ skipped_ok g = true) ∧
      space_tab_run [32, 9] = true ∧
      skip_whitespace ([32, 9] ++ 35 :: bytes "x 1") = some (35 :: bytes "x 1") :=
  ⟨by decide, comments_only_after_newline.1 (bytes " \n# c\n\t5 ") (bytes "5 ") (by decide),
    by decide, (comments_only_after_newline.2 [32, 9] (bytes "x 1") (by decide)).1⟩

/-! ## The composition of raw samples -/

theorem sample8_unsigned_eq (b : Nat) (hb : b < 256) : sample8_unsigned b = (b : Int) := by
  unfold sample8_unsigned
  show ((b &&& 255 : Nat) : Int) = _
  congr 1
  interval_cases b <;> rfl

theorem sample16_unsigned_eq (b0 b1 : Nat) (h0 : b0 < 256) (h1 : b1 < 256) :
    sample16_unsigned b0 b1 = ((b0 * 256 + b1 : Nat) : Int) := by
  unfold sample16_unsigned
  have hlo : Int.land (b1 : Int) 255 = (b1 : Int) := sample8_unsigned_eq b1 h1
  have hhi : Int.land ((b0 : Int) <<< (8 : Int)) 65280 = ((2 ^ 8 * b0 : Nat) : Int) := by
    show ((Nat.shiftLeft' false b0 8 &&& 65280 : Nat) : Int) = _
    congr 1
    interval_cases b0 <;> rfl
  rw [hhi, hlo]
  have : (2 ^ 8 * b0 ||| b1) = 2 ^ 8 * b0 + b1 :=
    (Nat.mul_add_lt_is_or (by omega) b0).symm
  show ((2 ^ 8 * b0 ||| b1 : Nat) : Int) = _
  rw [this]
  congr 1
  omega

/-- C13: for all raw bytes `b0`, `b1` (values 0 to 255) the expression
`((buffer[0] << 8) & 0xFF00) | (buffer[1] & 0xFF)` of the branch for `color_max ≥ 256` is
the big-endian value `256*b0 + b1`, which lies in `[0, 65535]`, and the expression
`buffer[0] & 0xFF` of the branch for `color_max < 256` is `b0`, which lies in `[0, 255]`;
both hold for a signed `char`, where a byte with its high bit set is negative, and for an
unsigned `char`; and these are the values that the sample loop of `image_load_p6` divides
by `color_max` and stores. -/
theorem sample_composition (b0 b1 : Nat) (h0 : b0 < 256) (h1 : b1 < 256) :
    sample16 b0 b1 = 256 * (b0 : Int) + (b1 : Int) ∧
    sample16_unsigned b0 b1 = 256 * (b0 : Int) + (b1 : Int) ∧
    0 ≤ sample16 b0 b1 ∧ sample16 b0 b1 ≤ 65535 ∧
    sample8 b0 = (b0 : Int) ∧ sample8_unsigned b0 = (b0 : Int) ∧
    0 ≤ sample8 b0 ∧ sample8 b0 ≤ 255 ∧
    (∀ (cells : Nat) (width color_max : Int) (i j k : Nat) (fp : FILE)
        (pixmap : Nat → RGBpixel), ¬ color_max < 256 →
      p6_sample cells width color_max i j k ⟨b0 :: b1 :: fp, pixmap⟩ =
        match store_channel cells width i j k
            (fdiv (256 * (b0 : Int) + (b1 : Int)) color_max) pixmap with
        | none => Step.undef
        | some pixmap1 => Step.next ⟨fp, pixmap1⟩) ∧
    (∀ (cells : Nat) (width color_max : Int) (i j k : Nat) (fp : FILE)
        (pixmap : Nat → RGBpixel), color_max < 256 →
      p6_sample cells width color_max i j k ⟨b0 :: fp, pixmap⟩ =
        match store_channel cells width i j k (fdiv (b0 : Int) color_max) pixmap with
        | none => Step.undef
        | some pixmap1 => Step.next ⟨fp, pixmap1⟩) := by
  have e16 : sample16 b0 b1 = 256 * (b0 : Int) + (b1 : Int) := by
    rw [sample16_eq b0 b1 h0 h1]
    push_cast
    ring
  have e16u : sample16_unsigned b0 b1 = 256 * (b0 : Int) + (b1 : Int) := by
    rw [sample16_unsigned_eq b0 b1 h0 h1]
    push_cast
    ring
  have e8 := sample8_eq b0 h0
  refine ⟨e16, e16u, ?_, ?_, e8, sample8_unsigned_eq b0 h0, ?_, ?_, ?_, ?_⟩
  · rw [e16]; omega
  · rw [e16]; omega
  · rw [e8]; omega
  · rw [e8]; omega
  · intro cells width color_max i j k fp pixmap hm
    unfold p6_sample
    simp only [hm, if_false, e16]
  · intro cells width color_max i j k fp pixmap hm
    unfold p6_sample
    simp only [hm, if_true, e8]

/-- C13 (witness): the bytes `0x01 0x00` compose to 256, which `color_max = 65535` turns
into the sample `256/65535`; the bytes `0xFF 0x80`, both negative as signed `char`,
compose to 65408. -/
theorem sample_composition_witness :
    sample16 1 0 = 256 ∧ fdiv (sample16 1 0) 65535 = FloatVal.fin (256 / 65535) ∧
      sample16 255 128 = 65408 ∧ sample8 200 = 200 := by
  have h := (sample_composition 1 0 (by decide) (by decide)).1
  have h2 := (sample_composition 255 128 (by decide) (by decide)).1
  have h3 := (sample_composition 200 0 (by decide) (by decide)).2.2.2.2.1
  refine ⟨by rw [h]; norm_num, ?_, by rw [h2]; norm_num, by rw [h3]; norm_num⟩
  rw [h, fdiv_pos _ _ (by decide)]
  norm_num

/-! ## Header tokens that are not numbers -/

theorem atoi_digits_nondigit (d : Nat) (l : List Nat) (h : isdigit d = false) :
    atoi_digits (d :: l) 0 = 0 := by
  simp only [atoi_digits, h, Bool.false_eq_true, if_false]

/-- Without a digit behind the optional sign the conversion yields 0. -/
theorem atoi_signed_zero (s : List Nat) (h : numeric_start s = false) : atoi_signed s = 0 := by
  cases s with
  | nil => rfl
  | cons a l =>
    by_cases h45 : a = 45
    · subst h45
      cases l with
      | nil => rfl
      | cons d l =>
        have hd : isdigit d = false := h
        show -(atoi_digits (d :: l) 0 : Int) = 0
        rw [atoi_digits_nondigit d l hd]
        rfl
    · by_cases h43 : a = 43
      · subst h43
        cases l with
        | nil => rfl
        | cons d l =>
          have hd : isdigit d = false := h
          show (atoi_digits (d :: l) 0 : Int) = 0
          rw [atoi_digits_nondigit d l hd]
          rfl
      · have hd : isdigit a = false := by
          unfold numeric_start at h
          split at h
          · rename_i heq; simp only [List.cons.injEq] at heq; omega
          · rename_i heq; simp only [List.cons.injEq] at heq; omega
          · rename_i heq; simp only [List.cons.injEq] at heq; rw [heq.1]; exact h
          · rename_i heq; cases heq
        unfold atoi_signed
        split
        · rename_i heq; simp only [List.cons.injEq] at heq; omega
        · rename_i heq; simp only [List.cons.injEq] at heq; omega
        · rw [atoi_digits_nondigit a l hd]
          rfl

/-- The function `atoi` on a token that, behind the characters `isspace` accepts, does not
start with a number. -/
theorem atoi_nonnumeric (tok : List Nat) (h : numeric_start (tok.dropWhile isspace) = false) :
    atoi tok = some 0 := by
  unfold atoi
  simp only [atoi_signed_zero _ h, INT_MIN, INT_MAX]
  rfl

/-- C14 (counterexample): the width token of `"P3 \v7 1 255 "`, a vertical tab followed by
`7`, is not empty and does not begin with a sign or a digit, yet it parses to 7 and not to
0, because `atoi` skips the vertical tab; with three samples behind the header the file
loads as an image of width 7. -/
theorem vertical_tab_token_is_a_number :
    token [11, 55] = true ∧ numeric_start [11, 55] = false ∧ atoi [11, 55] = some 7 ∧
      load_image_header (bytes "P3 " ++ [11, 55] ++ bytes " 1 255 ") =
        HeaderResult.ok ⟨3, 7, 1, 255⟩ [32] ∧
      (load_image uninit_image (some (bytes "P3 " ++ [11, 49] ++ bytes " 1 255 9 9 9 "))).map
        (fun out => (out.ret, out.image.width, out.image.height)) = some (0, 1, 1) := by
  decide

/-- C14 (amended): a header token that, behind the leading bytes that `atoi` skips as white
space (in a token only vertical tab and form feed), does not begin with an optional sign
followed by a decimal digit is not rejected: `atoi` yields 0, the field read returns the
value 0 with the stream behind the token, and a header whose width, height or maximum
colour value is such a token is accepted with 0 in that field when the other two fields
hold values in range. -/
theorem permissive_header_numbers (tok : List Nat)
    (h : numeric_start (tok.dropWhile isspace) = false) :
    atoi tok = some 0 ∧
    (∀ fp rest : FILE, field_at fp tok rest = true → read_field fp = Sum.inr (0, rest)) ∧
    (∀ (mg : Nat) (fp0 fp1 fp2 fp3 : FILE) (htok mtok : List Nat) (height color_max : Int),
      (mg = 51 ∨ mg = 54) → field_at fp0 tok fp1 = true → field_at fp1 htok fp2 = true →
      field_at fp2 mtok fp3 = true → atoi htok = some height → atoi mtok = some color_max →
      0 ≤ height → 0 ≤ color_max → color_max ≤ 65535 →
      load_image_header (80 :: mg :: fp0) =
        HeaderResult.ok ⟨magic_version [80, mg], 0, height, color_max⟩ fp3) ∧
    (∀ (mg : Nat) (fp0 fp1 fp2 fp3 : FILE) (wtok mtok : List Nat) (width color_max : Int),
      (mg = 51 ∨ mg = 54) → field_at fp0 wtok fp1 = true → field_at fp1 tok fp2 = true →
      field_at fp2 mtok fp3 = true → atoi wtok = some width → atoi mtok = some color_max →
      0 ≤ width → 0 ≤ color_max → color_max ≤ 65535 →
      load_image_header (80 :: mg :: fp0) =
        HeaderResult.ok ⟨magic_version [80, mg], width, 0, color_max⟩ fp3) ∧
    (∀ (mg : Nat) (fp0 fp1 fp2 fp3 : FILE) (wtok htok : List Nat) (width height : Int),
      (mg = 51 ∨ mg = 54) → field_at fp0 wtok fp1 = true → field_at fp1 htok fp2 = true →
      field_at fp2 tok fp3 = true → atoi wtok = some width → atoi htok = some height →
      0 ≤ width → 0 ≤ height →
      load_image_header (80 :: mg :: fp0) =
        HeaderResult.ok ⟨magic_version [80, mg], width, height, 0⟩ fp3) := by
  have h0 := atoi_nonnumeric tok h
  refine ⟨h0, ?_, ?_, ?_, ?_⟩
  · intro fp rest hf
    rw [read_field_at fp tok rest hf, h0]
  · intro mg fp0 fp1 fp2 fp3 htok mtok height color_max hmg f1 f2 f3 ah am hh hm hm1
    rw [load_image_header_of_fields mg fp0 fp1 fp2 fp3 tok htok mtok hmg f1 f2 f3, h0, ah, am]
    simp only []
    rw [if_neg (by omega), if_neg (by omega), if_neg (by omega)]
  · intro mg fp0 fp1 fp2 fp3 wtok mtok width color_max hmg f1 f2 f3 aw am hw hm hm1
    rw [load_image_header_of_fields mg fp0 fp1 fp2 fp3 wtok tok mtok hmg f1 f2 f3, h0, aw, am]
    simp only []
    rw [if_neg (by omega), if_neg (by omega), if_neg (by omega)]
  · intro mg fp0 fp1 fp2 fp3 wtok htok width height hmg f1 f2 f3 aw ah hw hh
    rw [load_image_header_of_fields mg fp0 fp1 fp2 fp3 wtok htok tok hmg f1 f2 f3, h0, aw, ah]
    simp only []
    rw [if_neg (by omega), if_neg (by omega), if_neg (by omega)]

/-- C14 (witness): the tokens `abc` and `#x` parse to 0, the header of `"P3 abc 1 255 "` is
accepted with width 0, and `load_image` returns 0 for it with an image 0 pixels wide. -/
theorem permissive_header_numbers_witness :
    numeric_start ((bytes "abc").dropWhile isspace) = false ∧ atoi (bytes "abc") = some 0 ∧
      atoi (bytes "#x") = some 0 ∧
      load_image_header (bytes "P3 abc 1 255 ") = HeaderResult.ok ⟨3, 0, 1, 255⟩ [32] ∧
      (load_image uninit_image (some (bytes "P3 abc 1 255 "))).map
        (fun out => (out.ret, out.image.width, out.image.height)) = some (0, 0, 1) := by
  refine ⟨by decide, (permissive_header_numbers (bytes "abc") (by decide)).1,
    (permissive_header_numbers (bytes "#x") (by decide)).1, ?_, by decide⟩
  have hh := (permissive_header_numbers (bytes "abc") (by decide)).2.2.1 51
    (bytes " abc 1 255 ") (bytes " 1 255 ") (bytes " 255 ") [32] [49] [50, 53, 53] 1 255
    (by decide) (by decide) (by decide) (by decide) (by decide) (by decide) (by decide)
    (by decide) (by decide)
  have e1 : bytes "P3 abc 1 255 " = 80 :: 51 :: bytes " abc 1 255 " := by decide
  have e2 : magic_version [80, 51] = 3 := by decide
  rw [e1, hh, e2]

end Ezview
